import Mathlib


/-!
# Buddy page allocator of libeasy (`src/memory/easy_mem_page.c`)

A shallow embedding of the zone allocator and a verification of its
specification.

Modelling conventions.

* Addresses are natural numbers.  A page pointer is the address of its
  first byte.
* The intrusive circular list `area[k].free_list` is the list of the page
  pointers linked on it, head first: `easy_list_add_head` is `cons`,
  `easy_list_empty` is the test against `[]`, `free_list.next` is the head
  and `easy_list_del` unlinks a node from the list that holds it.
* The C `int` / `uint32_t` values are unbounded integers, with one
  exception: the shift `index << EASY_MEM_PAGE_SHIFT` of
  `easy_mem_index_to_page` is an `int` expression that exceeds `INT_MAX` from
  index 32768 on, and it is taken modulo `2^32` in two's complement
  (`wrap_int`), the value that the usual compilers produce.  In a zone of at
  most 2 GiB, the limit documented at `easy_mem_zone_create`, every index is
  below 32768 and none of the `int` computations of the source overflows.
  `page_of_index` is the exact address of a page, used in the statements.
* The array `area[EASY_MEM_MAX_ORDER]` is a total function: an index of 12
  or more, which in C reaches past the array into the fields that follow it,
  reads and writes an area of its own here.  Such an index only comes from a
  flag byte that the allocator did not write.
* `easy_list_del` removes a node from the list that holds it and does
  nothing for a node that is on no list, where the C code would follow the
  links stored in the node.  In the states reachable by valid operations in a
  zone of at most 2 GiB every node unlinked is on a list.
* The flag bytes `page_flags[i]` live in host memory that
  `easy_mem_zone_create` does not write (`memset` covers only
  `sizeof(easy_mem_zone_t)`), so the initial flags are a parameter.
-/

namespace EasyMem

/-! ## Constants and data model (`easy_mem_page.h`) -/

def EASY_MEM_PAGE_SHIFT : Nat := 16

def EASY_MEM_PAGE_SIZE : Nat := 1 <<< EASY_MEM_PAGE_SHIFT

def EASY_MEM_MAX_ORDER : Nat := 12

/-- One free area: the pages linked on `free_list` (head first) and the
counter `nr_free`. -/
structure easy_mem_area_t where
  free_list : List Nat
  nr_free : Int

/-- The zone header.  `area k` is `area[k]`, `page_flags i` is
`page_flags[i]`. -/
structure easy_mem_zone_t where
  mem_start : Nat
  mem_last : Nat
  mem_end : Nat
  area : Nat → easy_mem_area_t
  max_order : Nat
  free_pages : Int
  curr : Nat
  curr_end : Nat
  page_flags : Nat → Nat

/-! ## Helpers that the source takes from `easy_define.h` / `easy_list.h` -/

/-- Modelled from the spec: `easy_align(d, a)` of `easy_define.h` (absent),
the "align up" of section 4.1: the least multiple of `a` that is at least
`d`. -/
def easy_align (d a : Nat) : Nat := (d + (a - 1)) / a * a

/-- Modelled from the spec: `easy_max` of `easy_define.h` (absent). -/
def easy_max (a b : Nat) : Nat := if a > b then a else b

/-- Modelled from the spec: `easy_min` of `easy_define.h` (absent). -/
def easy_min (a b : Nat) : Nat := if a < b then a else b

/-- Modelled from the spec: `easy_list_del` of `easy_list.h` (absent): the
node is unlinked from the list that holds it. -/
def easy_list_del (zone : easy_mem_zone_t) (node : Nat) : easy_mem_zone_t :=
  { zone with area := fun k =>
      { zone.area k with free_list := (zone.area k).free_list.erase node } }

/-! ## Page-index arithmetic -/

def easy_mem_page_ptr (page index : Nat) : Nat :=
  page + index * EASY_MEM_PAGE_SIZE

def easy_mem_page_to_index (zone : easy_mem_zone_t) (page : Nat) : Nat :=
  (page - zone.mem_start) >>> EASY_MEM_PAGE_SHIFT

/-- The value of a C `int` expression whose exact result is `x`: the result
modulo `2^32`, read in two's complement.  Overflow of a signed `int` is
undefined in C; this is the value that the usual compilers produce. -/
def wrap_int (x : Int) : Int := (x + 2 ^ 31) % 2 ^ 32 - 2 ^ 31

/-- `easy_mem_index_to_page`: the shift `index << EASY_MEM_PAGE_SHIFT` is an
`int` expression, so it is taken modulo `2^32` before it is added to the
pointer `mem_start`.  A negative offset larger than `mem_start`, possible
only when `mem_start` is below `2^31`, gives the address 0. -/
def easy_mem_index_to_page (zone : easy_mem_zone_t) (index : Nat) : Nat :=
  ((zone.mem_start : Int) + wrap_int ((index <<< EASY_MEM_PAGE_SHIFT : Nat) : Int)).toNat

def easy_mem_find_buddy_index (page_idx order : Nat) : Nat :=
  page_idx ^^^ (1 <<< order)

/-- The source computes `page_idx & ~(1 << order)`: the bit `order` of the
(non-negative) index is cleared. -/
def easy_mem_find_combined_index (page_idx order : Nat) : Nat :=
  page_idx - (page_idx &&& (1 <<< order))

def easy_mem_set_page_free (zone : easy_mem_zone_t) (page order : Nat) :
    easy_mem_zone_t :=
  { zone with
    page_flags :=
      Function.update zone.page_flags (easy_mem_page_to_index zone page)
        (0x0f &&& order) }

/-- The byte stored is `0x80 | order` truncated to `unsigned char`. -/
def easy_mem_set_page_used (zone : easy_mem_zone_t) (page order : Nat) :
    easy_mem_zone_t :=
  { zone with
    page_flags :=
      Function.update zone.page_flags (easy_mem_page_to_index zone page)
        ((0x80 ||| order) % 256) }

/-! ## Zone construction -/

/-- The loop `while (size < max_size) { size <<= 1; order++; }`.  The first
argument bounds the number of iterations; 64 of them cover every `int64_t`
request for which `size` does not overflow. -/
def zone_size_loop : Nat → Int → Nat → Nat → Nat × Nat
  | 0, _, size, order => (size, order)
  | fuel + 1, max_size, size, order =>
    if (size : Int) < max_size then
      zone_size_loop fuel max_size (size <<< 1) (order + 1)
    else (size, order)

/-- `easy_mem_zone_create(max_size)`.  `zone_bytes` is
`sizeof(easy_mem_zone_t)` (it depends on `easy_list_t`, declared in the
absent `easy_list.h`), `memalign` is the result of the host allocation
(`none` for `NULL`) and `flags` is the content of the host memory where the
flag bytes lie. -/
def easy_mem_zone_create (zone_bytes : Nat) (max_size : Int)
    (memalign : Option Nat) (flags : Nat → Nat) : Option easy_mem_zone_t :=
  let so := zone_size_loop 64 max_size EASY_MEM_PAGE_SIZE 0
  let size := so.1
  let order := so.2
  let pos := size / EASY_MEM_PAGE_SIZE + zone_bytes
  let page_size := easy_align pos EASY_MEM_PAGE_SIZE
  let asize0 := 1 <<< (EASY_MEM_MAX_ORDER + EASY_MEM_PAGE_SHIFT - 1)
  let asize := easy_max page_size (easy_min asize0 size)
  match memalign with
  | none => none
  | some memptr =>
    let curr_end := memptr + page_size
    let mem_start := easy_align curr_end asize
    some
      { mem_start := mem_start
        mem_last := mem_start
        mem_end := mem_start + size
        area := fun _ => { free_list := [], nr_free := 0 }
        max_order := if order ≥ EASY_MEM_MAX_ORDER then EASY_MEM_MAX_ORDER - 1 else order
        free_pages := 0
        curr := memptr + easy_align pos 32
        curr_end := curr_end
        page_flags := flags }

/-! ## Allocation -/

/-- `easy_mem_expand`: the loop `while (high > low)`, by recursion on
`high`.  The parameter `area` of the source always points to
`zone->area[high]`; `size` is the running `1 << high`. -/
def easy_mem_expand_loop (page low : Nat) :
    Nat → Nat → easy_mem_zone_t → easy_mem_zone_t
  | 0, _, zone => zone
  | high + 1, size, zone =>
    if high + 1 > low then
      let size1 := size >>> 1
      let newpage := easy_mem_page_ptr page size1
      let zone1 : easy_mem_zone_t :=
        { zone with
          area := Function.update zone.area high
            { free_list := newpage :: (zone.area high).free_list
              nr_free := (zone.area high).nr_free + 1 } }
      let zone2 := easy_mem_set_page_free zone1 newpage high
      easy_mem_expand_loop page low high size1 zone2
    else zone

def easy_mem_expand (zone : easy_mem_zone_t) (page low high : Nat) :
    easy_mem_zone_t :=
  easy_mem_expand_loop page low high (1 <<< high) zone

/-- The body of the `for` loop of `easy_mem_rmqueue` once `area[n]` is not
empty: `page` is the head of its list and `rest` the tail. -/
def easy_mem_rmqueue_take (zone : easy_mem_zone_t) (order n page : Nat)
    (rest : List Nat) : easy_mem_zone_t :=
  let zone1 : easy_mem_zone_t :=
    { zone with
      area := Function.update zone.area n
        { free_list := rest, nr_free := (zone.area n).nr_free - 1 } }
  let zone2 : easy_mem_zone_t :=
    { zone1 with free_pages := zone1.free_pages - (1 <<< order : Nat) }
  let zone3 := easy_mem_expand zone2 page order n
  easy_mem_set_page_used zone3 page order

/-- The loop `for (n = order; n <= zone->max_order; n++)` of
`easy_mem_rmqueue`; the first argument bounds the iterations. -/
def easy_mem_rmqueue_loop (zone : easy_mem_zone_t) (order : Nat) :
    Nat → Nat → easy_mem_zone_t × Option Nat
  | 0, _ => (zone, none)
  | fuel + 1, n =>
    if n ≤ zone.max_order then
      match (zone.area n).free_list with
      | [] => easy_mem_rmqueue_loop zone order fuel (n + 1)
      | page :: rest => (easy_mem_rmqueue_take zone order n page rest, some page)
    else (zone, none)

/-- `easy_mem_rmqueue`: at most `max_order + 1 - order` iterations run. -/
def easy_mem_rmqueue (zone : easy_mem_zone_t) (order : Nat) :
    easy_mem_zone_t × Option Nat :=
  easy_mem_rmqueue_loop zone order (zone.max_order + 1 - order) order

/-- The lazy growth step of `easy_mem_alloc_pages`: one more top block is
linked at the head of `area[max_order]`. -/
def easy_mem_grow (zone : easy_mem_zone_t) : easy_mem_zone_t :=
  { zone with
    mem_last := zone.mem_last + ((1 <<< zone.max_order) <<< EASY_MEM_PAGE_SHIFT)
    free_pages := zone.free_pages + (1 <<< zone.max_order : Nat)
    area := Function.update zone.area zone.max_order
      { free_list := zone.mem_last :: (zone.area zone.max_order).free_list
        nr_free := (zone.area zone.max_order).nr_free + 1 } }

/-- `easy_mem_alloc_pages`: the zone after the call and the page returned
(`none` for `NULL`). -/
def easy_mem_alloc_pages (zone : easy_mem_zone_t) (order : Nat) :
    easy_mem_zone_t × Option Nat :=
  if order > zone.max_order then (zone, none)
  else
    let r : easy_mem_zone_t × Option Nat :=
      if zone.free_pages ≥ ((1 <<< order : Nat) : Int) then easy_mem_rmqueue zone order
      else (zone, none)
    match r.2 with
    | some page => (r.1, some page)
    | none =>
      if r.1.mem_last < r.1.mem_end then easy_mem_rmqueue (easy_mem_grow r.1) order
      else (r.1, none)

/-! ## Release -/

/-- One round of the loop of `easy_mem_merge_buddy_page` once the buddy test
has passed: the buddy is unlinked, `area[order].nr_free` is decremented and
the flag byte of the buddy is cleared. -/
def easy_mem_merge_round (zone : easy_mem_zone_t) (page_idx order : Nat) :
    easy_mem_zone_t :=
  let buddy_idx := easy_mem_find_buddy_index page_idx order
  let buddy := easy_mem_index_to_page zone buddy_idx
  let zone1 := easy_list_del zone buddy
  let zone2 : easy_mem_zone_t :=
    { zone1 with
      area := Function.update zone1.area order
        { zone1.area order with nr_free := (zone1.area order).nr_free - 1 } }
  { zone2 with page_flags := Function.update zone2.page_flags buddy_idx 0 }

/-- The loop `while (order < zone->max_order)` of
`easy_mem_merge_buddy_page`; it returns the zone with the final `page_idx`,
`page` and `order`.  The first argument bounds the iterations. -/
def easy_mem_merge_loop :
    Nat → easy_mem_zone_t → Nat → Nat → Nat → easy_mem_zone_t × Nat × Nat × Nat
  | 0, zone, page_idx, page, order => (zone, page_idx, page, order)
  | fuel + 1, zone, page_idx, page, order =>
    if order < zone.max_order then
      if zone.page_flags (easy_mem_find_buddy_index page_idx order) ≠ order then
        (zone, page_idx, page, order)
      else
        let zone3 := easy_mem_merge_round zone page_idx order
        let combined_idx := easy_mem_find_combined_index page_idx order
        easy_mem_merge_loop fuel zone3 combined_idx
          (easy_mem_index_to_page zone3 combined_idx) (order + 1)
    else (zone, page_idx, page, order)

/-- The tail of `easy_mem_merge_buddy_page`: the block is marked free and
linked at the head of the list of its order. -/
def easy_mem_link_free (zone : easy_mem_zone_t) (page order : Nat) : easy_mem_zone_t :=
  let zone2 := easy_mem_set_page_free zone page order
  { zone2 with
    area := Function.update zone2.area order
      { free_list := page :: (zone2.area order).free_list
        nr_free := (zone2.area order).nr_free + 1 } }

/-- `easy_mem_merge_buddy_page`: at most `max_order - order` iterations of
the loop run. -/
def easy_mem_merge_buddy_page (zone : easy_mem_zone_t) (page order : Nat) :
    easy_mem_zone_t :=
  let page_idx := easy_mem_page_to_index zone page
  let zone1 : easy_mem_zone_t :=
    { zone with free_pages := zone.free_pages + (1 <<< order : Nat) }
  let r := easy_mem_merge_loop (zone1.max_order - order) zone1 page_idx page order
  easy_mem_link_free r.1 r.2.2.1 r.2.2.2

/-- `easy_mem_free_pages`.  The range test compares
`mem_last - EASY_MEM_PAGE_SIZE` as an integer. -/
def easy_mem_free_pages (zone : easy_mem_zone_t) (page : Nat) : easy_mem_zone_t :=
  if page < zone.mem_start ∨
      (page : Int) > (zone.mem_last : Int) - (EASY_MEM_PAGE_SIZE : Int) then zone
  else
    let page_idx := easy_mem_page_to_index zone page
    if zone.page_flags page_idx &&& 0x80 ≠ 0 then
      easy_mem_merge_buddy_page zone page (zone.page_flags page_idx &&& 0x0f)
    else zone

/-! ## Specification vocabulary -/

/-- The number of pages committed so far: `(mem_last - mem_start) / PAGE_SIZE`. -/
def npages (zone : easy_mem_zone_t) : Nat :=
  (zone.mem_last - zone.mem_start) / EASY_MEM_PAGE_SIZE

/-- Page `j` lies in the block of order `k` whose first page has index `i`. -/
def InBlock (i k j : Nat) : Prop := i ≤ j ∧ j < i + 2 ^ k

instance (i k j : Nat) : Decidable (InBlock i k j) := by
  unfold InBlock; infer_instance

/-- The indicator of `InBlock`. -/
def inb (i k j : Nat) : Nat := if InBlock i k j then 1 else 0

/-- The number of free-list entries whose block contains page `j`. -/
def coverFree (zone : easy_mem_zone_t) (j : Nat) : Nat :=
  Finset.sum (Finset.range (zone.max_order + 1)) fun k =>
    ((zone.area k).free_list.map fun p => inb (easy_mem_page_to_index zone p) k j).sum

/-- The number of blocks of the list `bl` (pairs of a page pointer and an
order) that contain page `j`. -/
def coverList (zone : easy_mem_zone_t) (bl : List (Nat × Nat)) (j : Nat) : Nat :=
  (bl.map fun b => inb (easy_mem_page_to_index zone b.1) b.2 j).sum

/-- The address of the page of index `index`, in exact arithmetic:
`mem_start + index * PAGE_SIZE`.  It is what `easy_mem_index_to_page`
returns as long as `index << EASY_MEM_PAGE_SHIFT` fits an `int`. -/
def page_of_index (zone : easy_mem_zone_t) (index : Nat) : Nat :=
  zone.mem_start + (index <<< EASY_MEM_PAGE_SHIFT)

/-- The pointer `p` is the first page of a well-placed block of order `k`:
it is a page boundary of the arena, its index is a multiple of `2^k` and the
block ends at or below `mem_last`. -/
def IsBlock (zone : easy_mem_zone_t) (p k : Nat) : Prop :=
  page_of_index zone (easy_mem_page_to_index zone p) = p ∧
  easy_mem_page_to_index zone p % 2 ^ k = 0 ∧
  easy_mem_page_to_index zone p + 2 ^ k ≤ npages zone

/-- The weighted sum of the counters: `Σ_k area[k].nr_free * 2^k` over
`k ≤ max_order`. -/
def freeSum (zone : easy_mem_zone_t) : Int :=
  Finset.sum (Finset.range (zone.max_order + 1)) fun k => (zone.area k).nr_free * 2 ^ k

/-- The structural invariant.  `al` lists the allocated blocks (pointer and
order), `fl` the blocks that an operation in progress holds in hand. -/
structure Inv (zone : easy_mem_zone_t) (al fl : List (Nat × Nat)) : Prop where
  ord : zone.max_order < EASY_MEM_MAX_ORDER
  small : zone.mem_end - zone.mem_start ≤ 2 ^ 31
  le_last : zone.mem_start ≤ zone.mem_last
  last_le : zone.mem_last ≤ zone.mem_end
  last_al : EASY_MEM_PAGE_SIZE * 2 ^ zone.max_order ∣ zone.mem_last - zone.mem_start
  end_al : EASY_MEM_PAGE_SIZE * 2 ^ zone.max_order ∣ zone.mem_end - zone.mem_start
  free_ok : ∀ k p, p ∈ (zone.area k).free_list →
    k ≤ zone.max_order ∧ IsBlock zone p k ∧
      zone.page_flags (easy_mem_page_to_index zone p) = k
  used_ok : ∀ b ∈ al, b.2 ≤ zone.max_order ∧ IsBlock zone b.1 b.2 ∧
      zone.page_flags (easy_mem_page_to_index zone b.1) = 128 + b.2
  fly_ok : ∀ b ∈ fl, b.2 ≤ zone.max_order ∧ IsBlock zone b.1 b.2
  cover : ∀ j, coverFree zone j + coverList zone al j + coverList zone fl j =
      if j < npages zone then 1 else 0
  merged : ∀ k p, k < zone.max_order → p ∈ (zone.area k).free_list →
      page_of_index zone
        (easy_mem_find_buddy_index (easy_mem_page_to_index zone p) k) ∉
          (zone.area k).free_list
  cnt : ∀ k, (zone.area k).nr_free = ((zone.area k).free_list.length : Int)

/-- The states reachable from `zone0` by valid operations, each with the
list of the blocks handed out and not yet released (pointer and order):
any allocation, and the release of a block currently allocated. -/
inductive Reach (zone0 : easy_mem_zone_t) : easy_mem_zone_t → List (Nat × Nat) → Prop
  | init : Reach zone0 zone0 []
  | alloc_page {zone : easy_mem_zone_t} {al : List (Nat × Nat)} (order p : Nat) :
      Reach zone0 zone al → (easy_mem_alloc_pages zone order).2 = some p →
      Reach zone0 (easy_mem_alloc_pages zone order).1 ((p, order) :: al)
  | alloc_null {zone : easy_mem_zone_t} {al : List (Nat × Nat)} (order : Nat) :
      Reach zone0 zone al → (easy_mem_alloc_pages zone order).2 = none →
      Reach zone0 (easy_mem_alloc_pages zone order).1 al
  | free_page {zone : easy_mem_zone_t} {al : List (Nat × Nat)} (p o : Nat) :
      Reach zone0 zone al → (p, o) ∈ al →
      Reach zone0 (easy_mem_free_pages zone p) (al.erase (p, o))

/-- The zone that `easy_mem_zone_create(128 KiB)` returns when the header is
336 bytes long, the host memory lies at address 0 and is zero-filled: two
pages, `max_order = 1`. -/
def demo_zone : easy_mem_zone_t :=
  { mem_start := 131072
    mem_last := 131072
    mem_end := 262144
    area := fun _ => { free_list := [], nr_free := 0 }
    max_order := 1
    free_pages := 0
    curr := 352
    curr_end := 65536
    page_flags := fun _ => 0 }

/-! ## Vocabulary of the construction and scenario claims -/

/-- The local variable `size` of `easy_mem_zone_create` after its doubling
loop: the arena size in bytes. -/
def zone_size (max_size : Int) : Nat :=
  (zone_size_loop 64 max_size EASY_MEM_PAGE_SIZE 0).1

/-- The local variable `order` of `easy_mem_zone_create` after its doubling
loop. -/
def zone_order (max_size : Int) : Nat :=
  (zone_size_loop 64 max_size EASY_MEM_PAGE_SIZE 0).2

/-- The local variable `page_size` of `easy_mem_zone_create`: the header
(zone structure and flag bytes) rounded up to whole pages. -/
def zone_page_size (zone_bytes : Nat) (max_size : Int) : Nat :=
  easy_align (zone_size max_size / EASY_MEM_PAGE_SIZE + zone_bytes) EASY_MEM_PAGE_SIZE

/-- The final value of the local variable `asize` of `easy_mem_zone_create`:
`easy_max(page_size, easy_min(1 << (MAX_ORDER + PAGE_SHIFT - 1), size))`. -/
def zone_asize (zone_bytes : Nat) (max_size : Int) : Nat :=
  easy_max (zone_page_size zone_bytes max_size)
    (easy_min (1 <<< (EASY_MEM_MAX_ORDER + EASY_MEM_PAGE_SHIFT - 1)) (zone_size max_size))

/-- The arena start in the words of the specification (section 4.1):
`align_up(base + asize, top_block_bytes)` with
`top_block_bytes = PAGE_SIZE << (MAX_ORDER - 1)`.  Kept apart from
`easy_mem_zone_create`, to be compared with it. -/
def spec_mem_start (zone_bytes : Nat) (max_size : Int) (base : Nat) : Nat :=
  easy_align (base + zone_asize zone_bytes max_size)
    (EASY_MEM_PAGE_SIZE <<< (EASY_MEM_MAX_ORDER - 1))

/-- The caller's loop `for (i = 0; i < n; i++) r[i] = easy_mem_alloc_pages(zone, order)`:
the final zone and the results in call order. -/
def alloc_repeat (order : Nat) : Nat → easy_mem_zone_t → easy_mem_zone_t × List (Option Nat)
  | 0, zone => (zone, [])
  | n + 1, zone =>
    let r := easy_mem_alloc_pages zone order
    let rs := alloc_repeat order n r.1
    (rs.1, r.2 :: rs.2)

/-- The caller's loop that releases the pages of `ps` one after the other. -/
def free_each (zone : easy_mem_zone_t) (ps : List Nat) : easy_mem_zone_t :=
  ps.foldl easy_mem_free_pages zone

/-- The single pages `mem_start + i * PAGE_SIZE` for `i < j`, last one
first, each with order 0: the blocks handed out by `j` successive
single-page allocations. -/
def first_pages (start : Nat) : Nat → List (Nat × Nat)
  | 0 => []
  | j + 1 => (start + j * EASY_MEM_PAGE_SIZE, 0) :: first_pages start j

/-- One call of the public interface: `easy_mem_alloc_pages(zone, order)` or
`easy_mem_free_pages(zone, ptr)`. -/
inductive zone_call where
  | alloc (order : Nat)
  | free (ptr : Nat)

/-- The zone after the calls `cs`, made one after the other. -/
def run_calls : easy_mem_zone_t → List zone_call → easy_mem_zone_t
  | zone, [] => zone
  | zone, zone_call.alloc order :: cs => run_calls (easy_mem_alloc_pages zone order).1 cs
  | zone, zone_call.free ptr :: cs => run_calls (easy_mem_free_pages zone ptr) cs

/-- The blocks handed out and not yet released after the calls `cs`, each
with the order of its request, when `al` are the blocks handed out before
them. -/
def run_allocated :
    easy_mem_zone_t → List (Nat × Nat) → List zone_call → List (Nat × Nat)
  | _, al, [] => al
  | zone, al, zone_call.alloc order :: cs =>
    match (easy_mem_alloc_pages zone order).2 with
    | some p => run_allocated (easy_mem_alloc_pages zone order).1 ((p, order) :: al) cs
    | none => run_allocated (easy_mem_alloc_pages zone order).1 al cs
  | zone, al, zone_call.free ptr :: cs =>
    match al.find? (fun b => b.1 == ptr) with
    | some b => run_allocated (easy_mem_free_pages zone ptr) (al.erase b) cs
    | none => run_allocated (easy_mem_free_pages zone ptr) al cs

/-- Every release among the calls `cs` names a page that is allocated at the
time of the call. -/
def calls_valid : easy_mem_zone_t → List (Nat × Nat) → List zone_call → Bool
  | _, _, [] => true
  | zone, al, zone_call.alloc order :: cs =>
    match (easy_mem_alloc_pages zone order).2 with
    | some p => calls_valid (easy_mem_alloc_pages zone order).1 ((p, order) :: al) cs
    | none => calls_valid (easy_mem_alloc_pages zone order).1 al cs
  | zone, al, zone_call.free ptr :: cs =>
    match al.find? (fun b => b.1 == ptr) with
    | some b => calls_valid (easy_mem_free_pages zone ptr) (al.erase b) cs
    | none => false

/-- The zone that `easy_mem_zone_create(256 KiB)` returns when the header is
336 bytes long, the host memory lies at address 0 and is zero-filled: four
pages, `max_order = 2`. -/
def demo_zone4 : easy_mem_zone_t :=
  { mem_start := 262144
    mem_last := 262144
    mem_end := 524288
    area := fun _ => { free_list := [], nr_free := 0 }
    max_order := 2
    free_pages := 0
    curr := 352
    curr_end := 65536
    page_flags := fun _ => 0 }

/-- The zone that `easy_mem_zone_create(512 KiB)` returns under the same
conditions: eight pages, `max_order = 3`. -/
def demo_zone8 : easy_mem_zone_t :=
  { mem_start := 524288
    mem_last := 524288
    mem_end := 1048576
    area := fun _ => { free_list := [], nr_free := 0 }
    max_order := 3
    free_pages := 0
    curr := 352
    curr_end := 65536
    page_flags := fun _ => 0 }

/-- The zone that `easy_mem_zone_create(1 MiB)` returns under the same
conditions: sixteen pages, `max_order = 4`. -/
def demo_zone16 : easy_mem_zone_t :=
  { mem_start := 1048576
    mem_last := 1048576
    mem_end := 2097152
    area := fun _ => { free_list := [], nr_free := 0 }
    max_order := 4
    free_pages := 0
    curr := 352
    curr_end := 65536
    page_flags := fun _ => 0 }

/-- The zone that `easy_mem_zone_create(1 MiB)` returns when the header is
336 bytes long and the host memory lies at address 0 and holds the byte
`0x80` everywhere: the flag bytes are what the host memory held. -/
def dirty_zone16 : easy_mem_zone_t :=
  { mem_start := 1048576
    mem_last := 1048576
    mem_end := 2097152
    area := fun _ => { free_list := [], nr_free := 0 }
    max_order := 4
    free_pages := 0
    curr := 352
    curr_end := 65536
    page_flags := fun _ => 0x80 }

/-- The zone that `easy_mem_zone_create(8 GiB)` returns when the header is
336 bytes long and the host memory lies at address `4294967296` and is
zero-filled: 64 top blocks of 128 MiB, 131072 pages, `max_order = 11`.  The
header takes three pages (131072 flag bytes). -/
def wide_zone : easy_mem_zone_t :=
  { mem_start := 4429185024
    mem_last := 4429185024
    mem_end := 13019119616
    area := fun _ => { free_list := [], nr_free := 0 }
    max_order := 11
    free_pages := 0
    curr := 4295098720
    curr_end := 4295163904
    page_flags := fun _ => 0 }

/-- Calls on `wide_zone`, every release naming an allocated page.  The first
thirteen allocations cut the first top block into the pages 0, 1, 2, 3 and
the blocks of order `k` at index `2^k` for `k = 2 .. 10`; the next 31 take the
top blocks up to index 65535; `alloc(1)` and `alloc(2)` then return the
blocks at the indices 65536 and 65540 and leave the block of order 1 at index
65538 on `area[1]`.  Page 2 and the block at index 4 are released, and at
last the block at index 65536, whose buddy has the index 65538. -/
def alias_calls : List zone_call :=
  [zone_call.alloc 0, zone_call.alloc 0, zone_call.alloc 0, zone_call.alloc 0,
    zone_call.alloc 2, zone_call.alloc 3, zone_call.alloc 4, zone_call.alloc 5,
    zone_call.alloc 6, zone_call.alloc 7, zone_call.alloc 8, zone_call.alloc 9,
    zone_call.alloc 10] ++
  List.replicate 31 (zone_call.alloc 11) ++
  [zone_call.alloc 1, zone_call.alloc 2,
    zone_call.free (4429185024 + 2 * 65536),
    zone_call.free (4429185024 + 4 * 65536),
    zone_call.free (4429185024 + 65536 * 65536)]

/-- Calls on `wide_zone`, every release naming an allocated page: the first
top block is cut into the block of order 10 at index 0 and the blocks of
order 9 at the indices 1024 and 1536, 31 allocations take the top blocks up
to index 65535, and the block at index 1024 is released. -/
def round_trip_calls : List zone_call :=
  [zone_call.alloc 10, zone_call.alloc 9, zone_call.alloc 9] ++
  List.replicate 31 (zone_call.alloc 11) ++
  [zone_call.free (4429185024 + 1024 * 65536)]

/-- The calls `round_trip_calls`, then `alloc(10)`, which returns the block at
index 65536, then 31 allocations of the remaining top blocks, the release of
the block at index 65536 and one allocation of order 11. -/
def exhaust_calls : List zone_call :=
  round_trip_calls ++ [zone_call.alloc 10] ++
  List.replicate 31 (zone_call.alloc 11) ++
  [zone_call.free (4429185024 + 65536 * 65536), zone_call.alloc 11]

/-- The zone that `easy_mem_zone_create(8 TiB)` returns when the header is
336 bytes long and the host memory lies at address `4294967296` and is
zero-filled.  The `2^27` flag bytes and the header take `2^27 + 65536` bytes,
more than a top block, so `asize = 2^27 + 65536` and `mem_start` is a
multiple of that number. -/
def tall_zone : easy_mem_zone_t :=
  { mem_start := 4431347712
    mem_last := 4431347712
    mem_end := 8800524369920
    area := fun _ => { free_list := [], nr_free := 0 }
    max_order := 11
    free_pages := 0
    curr := 4429185376
    curr_end := 4429250560
    page_flags := fun _ => 0 }

/-- The zone that `easy_mem_zone_create(256 KiB)` returns when the header is
336 bytes long and the host memory lies at address `4294967296` and is
zero-filled: four pages, `max_order = 2`. -/
def high_zone4 : easy_mem_zone_t :=
  { mem_start := 4295229440
    mem_last := 4295229440
    mem_end := 4295491584
    area := fun _ => { free_list := [], nr_free := 0 }
    max_order := 2
    free_pages := 0
    curr := 4294967648
    curr_end := 4295032832
    page_flags := fun _ => 0 }

/-! ## Arithmetic of pages, indices and buddies -/

theorem page_size_val : EASY_MEM_PAGE_SIZE = 65536 := by decide

theorem page_to_index_eq (zone : easy_mem_zone_t) (p : Nat) :
    easy_mem_page_to_index zone p = (p - zone.mem_start) / 65536 := by
  simp [easy_mem_page_to_index, EASY_MEM_PAGE_SHIFT, Nat.shiftRight_eq_div_pow]

theorem page_of_index_eq (zone : easy_mem_zone_t) (i : Nat) :
    page_of_index zone i = zone.mem_start + i * 65536 := by
  simp [page_of_index, EASY_MEM_PAGE_SHIFT, Nat.shiftLeft_eq]

/-- An `int` value that fits is its own C value. -/
theorem wrap_int_small (x : Int) (h0 : 0 ≤ x) (h1 : x < 2 ^ 31) : wrap_int x = x := by
  unfold wrap_int
  omega

/-- Below index 32768 the shift `index << 16` fits an `int`, and
`easy_mem_index_to_page` returns the page of that index. -/
theorem index_to_page_small (zone : easy_mem_zone_t) (i : Nat) (h : i < 32768) :
    easy_mem_index_to_page zone i = page_of_index zone i := by
  unfold easy_mem_index_to_page page_of_index
  simp only [EASY_MEM_PAGE_SHIFT, Nat.shiftLeft_eq]
  rw [wrap_int_small _ (by positivity) (by push_cast; omega)]
  omega

theorem page_ptr_eq (p n : Nat) : easy_mem_page_ptr p n = p + n * 65536 := by
  simp [easy_mem_page_ptr, page_size_val]

theorem index_of_page (zone : easy_mem_zone_t) (i : Nat) :
    easy_mem_page_to_index zone (zone.mem_start + i * 65536) = i := by
  rw [page_to_index_eq]
  have : zone.mem_start + i * 65536 - zone.mem_start = i * 65536 := by omega
  rw [this]
  exact Nat.mul_div_cancel i (by norm_num)

theorem isBlock_iff (zone : easy_mem_zone_t) (p k : Nat) :
    IsBlock zone p k ↔
      ∃ i, p = zone.mem_start + i * 65536 ∧ i % 2 ^ k = 0 ∧ i + 2 ^ k ≤ npages zone := by
  constructor
  · rintro ⟨h1, h2, h3⟩
    refine ⟨easy_mem_page_to_index zone p, ?_, h2, h3⟩
    rw [page_of_index_eq] at h1
    exact h1.symm
  · rintro ⟨i, rfl, h2, h3⟩
    refine ⟨?_, ?_, ?_⟩
    · rw [index_of_page, page_of_index_eq]
    · rw [index_of_page]; exact h2
    · rw [index_of_page]; exact h3

/-- Two blocks of the buddy system that share a page are nested: the block
of the smaller order lies inside the other one. -/
theorem dyadic_nested (s r b k j : Nat) (hs : s % 2 ^ r = 0) (hb : b % 2 ^ k = 0)
    (hrk : r ≤ k) (h1 : InBlock s r j) (h2 : InBlock b k j) :
    b ≤ s ∧ s + 2 ^ r ≤ b + 2 ^ k := by
  obtain ⟨d, rfl⟩ : ∃ d, k = r + d := ⟨k - r, by omega⟩
  obtain ⟨S, rfl⟩ := Nat.dvd_of_mod_eq_zero hs
  obtain ⟨B, rfl⟩ := Nat.dvd_of_mod_eq_zero hb
  unfold InBlock at h1 h2
  rw [pow_add] at h2 ⊢
  rw [pow_add] at hb
  have hP : 0 < 2 ^ r := Nat.two_pow_pos r
  generalize 2 ^ r = P at *
  generalize 2 ^ d = D at *
  -- the indices in units of `P`
  have e1 : P * D * B = P * (D * B) := by ring
  have e2 : P * (D * B) + P * D = P * (D * B + D) := by ring
  have e3 : P * S + P = P * (S + 1) := by ring
  rw [e1, e2] at h2
  rw [e1, e2, e3]
  rw [e3] at h1
  have a1 : D * B < S + 1 := by
    have : P * (D * B) < P * (S + 1) := by omega
    exact Nat.lt_of_mul_lt_mul_left this
  have a2 : S < D * B + D := by
    have : P * S < P * (D * B + D) := by omega
    exact Nat.lt_of_mul_lt_mul_left this
  constructor
  · exact Nat.mul_le_mul_left P (by omega)
  · exact Nat.mul_le_mul_left P (by omega)

theorem dyadic_same_start (s r b k : Nat) (hs : s % 2 ^ r = 0) (hb : b % 2 ^ k = 0)
    (hrk : r ≤ k) (h1 : InBlock s r b) : s = b := by
  have h2 : InBlock b k b := ⟨le_refl _, by have := Nat.two_pow_pos k; omega⟩
  have := dyadic_nested s r b k b hs hb hrk h1 h2
  unfold InBlock at h1
  omega

theorem mod_pow_of_le (i r k : Nat) (h : i % 2 ^ k = 0) (hrk : r ≤ k) : i % 2 ^ r = 0 := by
  have hd : 2 ^ r ∣ 2 ^ k := pow_dvd_pow 2 hrk
  exact Nat.mod_eq_zero_of_dvd (dvd_trans hd (Nat.dvd_of_mod_eq_zero h))

/-- The lower half of an aligned block is aligned too, one order below. -/
theorem mod_pow_add_half (i k : Nat) (h : i % 2 ^ (k + 1) = 0) :
    (i + 2 ^ k) % 2 ^ k = 0 := by
  have := mod_pow_of_le i k (k + 1) h (by omega)
  rw [Nat.add_mod, this]; simp

theorem xor_pow_even (i k : Nat) (h : i % 2 ^ (k + 1) = 0) : i ^^^ 2 ^ k = i + 2 ^ k := by
  obtain ⟨q, rfl⟩ := Nat.dvd_of_mod_eq_zero h
  have hlt : 2 ^ k < 2 ^ (k + 1) := Nat.pow_lt_pow_right (by norm_num) (by omega)
  rw [Nat.mul_add_lt_is_or hlt]
  apply Nat.eq_of_testBit_eq
  intro j
  rw [Nat.testBit_xor, Nat.testBit_or, Nat.testBit_mul_pow_two, Nat.testBit_two_pow]
  by_cases hj : k = j
  · subst hj; simp
  · simp [hj]

theorem and_pow_even (i k : Nat) (h : i % 2 ^ (k + 1) = 0) : i &&& 2 ^ k = 0 := by
  obtain ⟨q, rfl⟩ := Nat.dvd_of_mod_eq_zero h
  apply Nat.eq_of_testBit_eq
  intro j
  rw [Nat.testBit_and, Nat.testBit_mul_pow_two, Nat.testBit_two_pow]
  by_cases hj : k = j
  · subst hj; simp
  · simp [hj]

theorem even_or_odd_block (i k : Nat) (h : i % 2 ^ k = 0) :
    i % 2 ^ (k + 1) = 0 ∨ (2 ^ k ≤ i ∧ (i - 2 ^ k) % 2 ^ (k + 1) = 0) := by
  obtain ⟨q, rfl⟩ := Nat.dvd_of_mod_eq_zero h
  rcases Nat.even_or_odd' q with ⟨m, rfl | rfl⟩
  · left
    have : 2 ^ k * (2 * m) = 2 ^ (k + 1) * m := by ring
    rw [this]; exact Nat.mul_mod_right _ _
  · right
    have e : 2 ^ k * (2 * m + 1) = 2 ^ (k + 1) * m + 2 ^ k := by ring
    rw [e]
    refine ⟨by omega, ?_⟩
    rw [Nat.add_sub_cancel]; exact Nat.mul_mod_right _ _

/-- The buddy and the combined index of the lower block of a pair. -/
theorem buddy_of_lower (i k : Nat) (h : i % 2 ^ (k + 1) = 0) :
    easy_mem_find_buddy_index i k = i + 2 ^ k ∧ easy_mem_find_combined_index i k = i := by
  unfold easy_mem_find_buddy_index easy_mem_find_combined_index
  rw [Nat.one_shiftLeft, xor_pow_even i k h, and_pow_even i k h]
  simp

/-- The buddy and the combined index of the upper block of a pair. -/
theorem buddy_of_upper (i k : Nat) (h : i % 2 ^ (k + 1) = 0) :
    easy_mem_find_buddy_index (i + 2 ^ k) k = i ∧
      easy_mem_find_combined_index (i + 2 ^ k) k = i := by
  unfold easy_mem_find_buddy_index easy_mem_find_combined_index
  rw [Nat.one_shiftLeft]
  have e := xor_pow_even i k h
  have a := and_pow_even i k h
  constructor
  · rw [← e, Nat.xor_assoc, Nat.xor_self, Nat.xor_zero]
  · have : (i + 2 ^ k) &&& 2 ^ k = 2 ^ k := by
      rw [← e]
      apply Nat.eq_of_testBit_eq
      intro j
      have hb : (i &&& 2 ^ k).testBit j = false := by rw [a]; simp
      rw [Nat.testBit_and] at hb
      rw [Nat.testBit_and, Nat.testBit_xor]
      rw [Nat.testBit_two_pow] at hb ⊢
      by_cases hj : k = j
      · subst hj; simp at hb ⊢; exact hb
      · simp [hj]
    rw [this]; omega

/-! Flag bytes of the orders in use. -/

theorem flag_free_val (o : Nat) (h : o < 12) : 0x0f &&& o = o := by
  revert o; decide

theorem flag_used_val (o : Nat) (h : o < 12) : (0x80 ||| o) % 256 = 128 + o := by
  revert o; decide

theorem flag_used_bit (o : Nat) (h : o < 12) : (128 + o) &&& 0x80 ≠ 0 := by
  revert o; decide

theorem flag_used_order (o : Nat) (h : o < 12) : (128 + o) &&& 0x0f = o := by
  revert o; decide

/-! ## Counting the blocks that contain a page -/

theorem inb_le_one (i k j : Nat) : inb i k j ≤ 1 := by
  unfold inb; split <;> omega

theorem inb_eq_one_iff (i k j : Nat) : inb i k j = 1 ↔ InBlock i k j := by
  unfold inb; split <;> simp [*]

theorem inb_pos_iff (i k j : Nat) : 0 < inb i k j ↔ InBlock i k j := by
  unfold inb; split <;> simp [*]

theorem inb_of_inBlock {i k j : Nat} (h : InBlock i k j) : inb i k j = 1 :=
  (inb_eq_one_iff i k j).2 h

/-- A block of order `k + 1` is the disjoint union of its two halves. -/
theorem inb_split (i k j : Nat) : inb i (k + 1) j = inb i k j + inb (i + 2 ^ k) k j := by
  unfold inb InBlock
  have : 2 ^ (k + 1) = 2 ^ k + 2 ^ k := by ring
  have hp := Nat.two_pow_pos k
  split_ifs <;> omega

theorem sum_map_count_le {α : Type} [BEq α] [LawfulBEq α] (f : α → Nat) (a : α) (l : List α) :
    l.count a * f a ≤ (l.map f).sum := by
  induction l with
  | nil => simp
  | cons x xs ih =>
    by_cases h : x = a
    · subst h
      simp only [List.count_cons_self, List.map_cons, List.sum_cons]
      have : (List.count x xs + 1) * f x = f x + List.count x xs * f x := by ring
      omega
    · have hc : List.count a (x :: xs) = List.count a xs := by
        rw [List.count_cons_of_ne]; exact fun e => h e.symm
      simp only [hc, List.map_cons, List.sum_cons]
      omega

theorem sum_map_mem_le {α : Type} [BEq α] [LawfulBEq α] (f : α → Nat) {a : α} {l : List α}
    (h : a ∈ l) : f a ≤ (l.map f).sum := by
  have := sum_map_count_le f a l
  have hc : 1 ≤ l.count a := List.count_pos_iff.2 h
  calc f a = 1 * f a := by ring
    _ ≤ l.count a * f a := Nat.mul_le_mul_right _ hc
    _ ≤ _ := this

theorem sum_map_erase_add {α : Type} [BEq α] [LawfulBEq α] (f : α → Nat) {a : α}
    {l : List α} (h : a ∈ l) : f a + ((l.erase a).map f).sum = (l.map f).sum := by
  induction l with
  | nil => simp at h
  | cons x xs ih =>
    rw [List.erase_cons]
    by_cases hx : x = a
    · subst hx; simp
    · have hxa : (x == a) = false := by simpa using hx
      have ha : a ∈ xs := by
        rcases List.mem_cons.1 h with e | e
        · exact absurd e.symm hx
        · exact e
      have := ih ha
      simp only [hxa, List.map_cons, List.sum_cons]
      simp only [Bool.false_eq_true, if_false, List.map_cons, List.sum_cons]
      omega

theorem sum_map_two_le {α : Type} [BEq α] [LawfulBEq α] (f : α → Nat) {a b : α} {l : List α}
    (ha : a ∈ l) (hb : b ∈ l) (hab : a ≠ b) : f a + f b ≤ (l.map f).sum := by
  have h1 := sum_map_erase_add f ha
  have hb' : b ∈ l.erase a := (List.mem_erase_of_ne (fun e => hab e.symm)).2 hb
  have h2 := sum_map_mem_le f hb'
  omega

theorem exists_mem_of_sum_pos {α : Type} (f : α → Nat) (l : List α)
    (h : 0 < (l.map f).sum) : ∃ a ∈ l, 0 < f a := by
  induction l with
  | nil => simp at h
  | cons x xs ih =>
    simp only [List.map_cons, List.sum_cons] at h
    by_cases hx : 0 < f x
    · exact ⟨x, List.mem_cons_self _ _, hx⟩
    · obtain ⟨a, ha, hfa⟩ := ih (by omega)
      exact ⟨a, List.mem_cons_of_mem _ ha, hfa⟩

theorem page_to_index_congr (zone zone1 : easy_mem_zone_t)
    (hs : zone1.mem_start = zone.mem_start) :
    easy_mem_page_to_index zone1 = easy_mem_page_to_index zone := by
  funext p
  unfold easy_mem_page_to_index
  rw [hs]

theorem coverList_nil (zone : easy_mem_zone_t) (j : Nat) : coverList zone [] j = 0 := rfl

theorem coverList_cons (zone : easy_mem_zone_t) (b : Nat × Nat) (bl : List (Nat × Nat))
    (j : Nat) :
    coverList zone (b :: bl) j =
      inb (easy_mem_page_to_index zone b.1) b.2 j + coverList zone bl j := by
  simp [coverList]

theorem coverList_erase (zone : easy_mem_zone_t) {b : Nat × Nat} {bl : List (Nat × Nat)}
    (h : b ∈ bl) (j : Nat) :
    coverList zone bl j =
      inb (easy_mem_page_to_index zone b.1) b.2 j + coverList zone (bl.erase b) j := by
  have := sum_map_erase_add
    (fun b : Nat × Nat => inb (easy_mem_page_to_index zone b.1) b.2 j) h
  unfold coverList
  exact this.symm

theorem coverList_congr (zone zone1 : easy_mem_zone_t) (hs : zone1.mem_start = zone.mem_start)
    (bl : List (Nat × Nat)) (j : Nat) : coverList zone1 bl j = coverList zone bl j := by
  unfold coverList
  rw [page_to_index_congr zone zone1 hs]

theorem coverList_mem_le (zone : easy_mem_zone_t) {b : Nat × Nat} {bl : List (Nat × Nat)}
    (h : b ∈ bl) (j : Nat) :
    inb (easy_mem_page_to_index zone b.1) b.2 j ≤ coverList zone bl j := by
  have := sum_map_mem_le
    (fun b : Nat × Nat => inb (easy_mem_page_to_index zone b.1) b.2 j) h
  unfold coverList
  exact this

theorem coverFree_congr (zone zone1 : easy_mem_zone_t) (hs : zone1.mem_start = zone.mem_start)
    (hm : zone1.max_order = zone.max_order)
    (ha : ∀ k, (zone1.area k).free_list = (zone.area k).free_list) (j : Nat) :
    coverFree zone1 j = coverFree zone j := by
  unfold coverFree
  rw [page_to_index_congr zone zone1 hs, hm]
  exact Finset.sum_congr rfl (fun k _ => by rw [ha k])

/-- Taking one entry `p` out of `area[n]` lowers the count by the indicator
of its block. -/
theorem coverFree_remove (zone zone1 : easy_mem_zone_t) (n p : Nat)
    (hs : zone1.mem_start = zone.mem_start) (hm : zone1.max_order = zone.max_order)
    (hn : n ≤ zone.max_order)
    (hk : ∀ k, k ≠ n → (zone1.area k).free_list = (zone.area k).free_list)
    (hp : ((zone.area n).free_list).Perm (p :: (zone1.area n).free_list)) (j : Nat) :
    coverFree zone j = coverFree zone1 j + inb (easy_mem_page_to_index zone p) n j := by
  unfold coverFree
  have hmem : n ∈ Finset.range (zone.max_order + 1) := Finset.mem_range.2 (by omega)
  rw [hm, ← Finset.add_sum_erase _ _ hmem, ← Finset.add_sum_erase _ _ hmem]
  have hrest : ∀ k ∈ (Finset.range (zone.max_order + 1)).erase n,
      ((zone1.area k).free_list.map fun p => inb (easy_mem_page_to_index zone1 p) k j).sum =
      ((zone.area k).free_list.map fun p => inb (easy_mem_page_to_index zone p) k j).sum := by
    intro k hk'
    rw [hk k (Finset.ne_of_mem_erase hk'), page_to_index_congr zone zone1 hs]
  rw [Finset.sum_congr rfl hrest]
  have hperm := (hp.map fun p => inb (easy_mem_page_to_index zone p) n j).sum_eq
  rw [hperm]
  simp only [List.map_cons, List.sum_cons]
  rw [page_to_index_congr zone zone1 hs]
  omega

theorem coverFree_mem_le (zone : easy_mem_zone_t) {k p : Nat} (hk : k ≤ zone.max_order)
    (hp : p ∈ (zone.area k).free_list) (j : Nat) :
    inb (easy_mem_page_to_index zone p) k j ≤ coverFree zone j := by
  unfold coverFree
  have hmem : k ∈ Finset.range (zone.max_order + 1) := Finset.mem_range.2 (by omega)
  have h1 := sum_map_mem_le (fun p => inb (easy_mem_page_to_index zone p) k j) hp
  have h2 := Finset.single_le_sum (f := fun k =>
    ((zone.area k).free_list.map fun p => inb (easy_mem_page_to_index zone p) k j).sum)
    (fun _ _ => Nat.zero_le _) hmem
  exact le_trans h1 h2

theorem coverFree_count_le (zone : easy_mem_zone_t) {k : Nat} (p : Nat)
    (hk : k ≤ zone.max_order) (j : Nat) :
    (zone.area k).free_list.count p * inb (easy_mem_page_to_index zone p) k j ≤
      coverFree zone j := by
  unfold coverFree
  have hmem : k ∈ Finset.range (zone.max_order + 1) := Finset.mem_range.2 (by omega)
  have h1 := sum_map_count_le (fun p => inb (easy_mem_page_to_index zone p) k j) p
    (zone.area k).free_list
  have h2 := Finset.single_le_sum (f := fun k =>
    ((zone.area k).free_list.map fun p => inb (easy_mem_page_to_index zone p) k j).sum)
    (fun _ _ => Nat.zero_le _) hmem
  exact le_trans h1 h2

theorem coverFree_two_le_same (zone : easy_mem_zone_t) {k p q : Nat} (hk : k ≤ zone.max_order)
    (hp : p ∈ (zone.area k).free_list) (hq : q ∈ (zone.area k).free_list) (hpq : p ≠ q)
    (j : Nat) :
    inb (easy_mem_page_to_index zone p) k j + inb (easy_mem_page_to_index zone q) k j ≤
      coverFree zone j := by
  unfold coverFree
  have hmem : k ∈ Finset.range (zone.max_order + 1) := Finset.mem_range.2 (by omega)
  have h1 := sum_map_two_le (fun p => inb (easy_mem_page_to_index zone p) k j) hp hq hpq
  have h2 := Finset.single_le_sum (f := fun k =>
    ((zone.area k).free_list.map fun p => inb (easy_mem_page_to_index zone p) k j).sum)
    (fun _ _ => Nat.zero_le _) hmem
  exact le_trans h1 h2

theorem coverFree_two_le_diff (zone : easy_mem_zone_t) {k l p q : Nat}
    (hk : k ≤ zone.max_order) (hl : l ≤ zone.max_order)
    (hp : p ∈ (zone.area k).free_list) (hq : q ∈ (zone.area l).free_list) (hkl : k ≠ l)
    (j : Nat) :
    inb (easy_mem_page_to_index zone p) k j + inb (easy_mem_page_to_index zone q) l j ≤
      coverFree zone j := by
  unfold coverFree
  have hmem : k ∈ Finset.range (zone.max_order + 1) := Finset.mem_range.2 (by omega)
  have hmem2 : l ∈ (Finset.range (zone.max_order + 1)).erase k :=
    Finset.mem_erase.2 ⟨fun e => hkl e.symm, Finset.mem_range.2 (by omega)⟩
  rw [← Finset.add_sum_erase _ _ hmem]
  have h1 := sum_map_mem_le (fun p => inb (easy_mem_page_to_index zone p) k j) hp
  have h2 := sum_map_mem_le (fun p => inb (easy_mem_page_to_index zone p) l j) hq
  have h3 := Finset.single_le_sum (f := fun k =>
    ((zone.area k).free_list.map fun p => inb (easy_mem_page_to_index zone p) k j).sum)
    (fun _ _ => Nat.zero_le _) hmem2
  simp only at h1 h2 h3 ⊢
  omega

theorem coverFree_pos (zone : easy_mem_zone_t) (j : Nat) (h : 0 < coverFree zone j) :
    ∃ k p, k ≤ zone.max_order ∧ p ∈ (zone.area k).free_list ∧
      InBlock (easy_mem_page_to_index zone p) k j := by
  unfold coverFree at h
  have hne : (Finset.sum (Finset.range (zone.max_order + 1)) fun k =>
    ((zone.area k).free_list.map fun p => inb (easy_mem_page_to_index zone p) k j).sum) ≠ 0 := by
    omega
  obtain ⟨k, hk, hk0⟩ := Finset.exists_ne_zero_of_sum_ne_zero hne
  obtain ⟨p, hp, hp0⟩ := exists_mem_of_sum_pos _ _ (Nat.pos_of_ne_zero hk0)
  exact ⟨k, p, by have := Finset.mem_range.1 hk; omega, hp, (inb_pos_iff _ _ _).1 hp0⟩

theorem coverList_pos (zone : easy_mem_zone_t) (bl : List (Nat × Nat)) (j : Nat)
    (h : 0 < coverList zone bl j) :
    ∃ b ∈ bl, InBlock (easy_mem_page_to_index zone b.1) b.2 j := by
  obtain ⟨b, hb, hb0⟩ := exists_mem_of_sum_pos _ _ h
  exact ⟨b, hb, (inb_pos_iff _ _ _).1 hb0⟩

/-! ## Consequences of the structural invariant -/

theorem inBlock_self (i k : Nat) : InBlock i k i :=
  ⟨le_refl _, by have := Nat.two_pow_pos k; omega⟩

theorem isBlock_congr (zone zone1 : easy_mem_zone_t) (hs : zone1.mem_start = zone.mem_start)
    (hl : zone1.mem_last = zone.mem_last) (p k : Nat) :
    IsBlock zone1 p k ↔ IsBlock zone p k := by
  unfold IsBlock npages
  rw [page_to_index_congr zone zone1 hs, page_of_index_eq, page_of_index_eq, hs, hl]

theorem npages_congr (zone zone1 : easy_mem_zone_t) (hs : zone1.mem_start = zone.mem_start)
    (hl : zone1.mem_last = zone.mem_last) : npages zone1 = npages zone := by
  unfold npages; rw [hs, hl]

/-- Under the invariant at most 32768 pages are committed, so every page
index fits the `int` shift of `easy_mem_index_to_page`. -/
theorem Inv.npages_small {zone : easy_mem_zone_t} {al fl : List (Nat × Nat)}
    (h : Inv zone al fl) : npages zone ≤ 32768 := by
  unfold npages
  rw [page_size_val]
  have h1 := h.small
  have h2 := h.last_le
  have h3 : (zone.mem_last - zone.mem_start) / 65536 ≤ 2 ^ 31 / 65536 :=
    Nat.div_le_div_right (by omega)
  norm_num at h3
  exact h3

theorem Inv.index_to_page {zone : easy_mem_zone_t} {al fl : List (Nat × Nat)}
    (h : Inv zone al fl) {i : Nat} (hi : i < npages zone) :
    easy_mem_index_to_page zone i = page_of_index zone i :=
  index_to_page_small zone i (by have := h.npages_small; omega)

theorem Inv.cover_le {zone : easy_mem_zone_t} {al fl : List (Nat × Nat)}
    (h : Inv zone al fl) (j : Nat) :
    coverFree zone j + coverList zone al j + coverList zone fl j ≤ 1 := by
  rw [h.cover j]; split <;> omega

/-- A free block and a block in hand share no page. -/
theorem Inv.free_fly_disjoint {zone : easy_mem_zone_t} {al fl : List (Nat × Nat)}
    (h : Inv zone al fl) {k p : Nat} (hp : p ∈ (zone.area k).free_list)
    {b : Nat × Nat} (hb : b ∈ fl) {j : Nat}
    (h1 : InBlock (easy_mem_page_to_index zone p) k j)
    (h2 : InBlock (easy_mem_page_to_index zone b.1) b.2 j) : False := by
  have a1 := coverFree_mem_le zone (h.free_ok k p hp).1 hp j
  have a2 := coverList_mem_le zone hb j
  rw [inb_of_inBlock h1] at a1
  rw [inb_of_inBlock h2] at a2
  have := h.cover_le j
  omega

/-- A free block and an allocated block share no page. -/
theorem Inv.free_used_disjoint {zone : easy_mem_zone_t} {al fl : List (Nat × Nat)}
    (h : Inv zone al fl) {k p : Nat} (hp : p ∈ (zone.area k).free_list)
    {b : Nat × Nat} (hb : b ∈ al) {j : Nat}
    (h1 : InBlock (easy_mem_page_to_index zone p) k j)
    (h2 : InBlock (easy_mem_page_to_index zone b.1) b.2 j) : False := by
  have a1 := coverFree_mem_le zone (h.free_ok k p hp).1 hp j
  have a2 := coverList_mem_le zone hb j
  rw [inb_of_inBlock h1] at a1
  rw [inb_of_inBlock h2] at a2
  have := h.cover_le j
  omega

/-- An allocated block and a block in hand share no page. -/
theorem Inv.used_fly_disjoint {zone : easy_mem_zone_t} {al fl : List (Nat × Nat)}
    (h : Inv zone al fl) {a : Nat × Nat} (ha : a ∈ al)
    {b : Nat × Nat} (hb : b ∈ fl) {j : Nat}
    (h1 : InBlock (easy_mem_page_to_index zone a.1) a.2 j)
    (h2 : InBlock (easy_mem_page_to_index zone b.1) b.2 j) : False := by
  have a1 := coverList_mem_le zone ha j
  have a2 := coverList_mem_le zone hb j
  rw [inb_of_inBlock h1] at a1
  rw [inb_of_inBlock h2] at a2
  have := h.cover_le j
  omega

/-- Two different entries of one free list share no page. -/
theorem Inv.free_same_disjoint {zone : easy_mem_zone_t} {al fl : List (Nat × Nat)}
    (h : Inv zone al fl) {k p q : Nat} (hp : p ∈ (zone.area k).free_list)
    (hq : q ∈ (zone.area k).free_list) (hpq : p ≠ q) {j : Nat}
    (h1 : InBlock (easy_mem_page_to_index zone p) k j)
    (h2 : InBlock (easy_mem_page_to_index zone q) k j) : False := by
  have a1 := coverFree_two_le_same zone (h.free_ok k p hp).1 hp hq hpq j
  rw [inb_of_inBlock h1, inb_of_inBlock h2] at a1
  have := h.cover_le j
  omega

/-- Entries of two different free lists share no page. -/
theorem Inv.free_diff_disjoint {zone : easy_mem_zone_t} {al fl : List (Nat × Nat)}
    (h : Inv zone al fl) {k l p q : Nat} (hp : p ∈ (zone.area k).free_list)
    (hq : q ∈ (zone.area l).free_list) (hkl : k ≠ l) {j : Nat}
    (h1 : InBlock (easy_mem_page_to_index zone p) k j)
    (h2 : InBlock (easy_mem_page_to_index zone q) l j) : False := by
  have a1 := coverFree_two_le_diff zone (h.free_ok k p hp).1 (h.free_ok l q hq).1 hp hq hkl j
  rw [inb_of_inBlock h1, inb_of_inBlock h2] at a1
  have := h.cover_le j
  omega

/-- A page pointer is linked on at most one free list. -/
theorem Inv.free_unique_list {zone : easy_mem_zone_t} {al fl : List (Nat × Nat)}
    (h : Inv zone al fl) {k l p : Nat} (hp : p ∈ (zone.area k).free_list)
    (hq : p ∈ (zone.area l).free_list) : k = l := by
  by_contra hkl
  exact h.free_diff_disjoint hp hq hkl (inBlock_self _ _) (inBlock_self _ _)

/-- No free list holds a page twice. -/
theorem Inv.free_nodup {zone : easy_mem_zone_t} {al fl : List (Nat × Nat)}
    (h : Inv zone al fl) (k : Nat) : (zone.area k).free_list.Nodup := by
  rw [List.nodup_iff_count_le_one]
  intro p
  by_contra hc
  have hmem : p ∈ (zone.area k).free_list := by
    apply List.count_pos_iff.1; omega
  have a1 := coverFree_count_le zone p (h.free_ok k p hmem).1 (easy_mem_page_to_index zone p)
  rw [inb_of_inBlock (inBlock_self _ _)] at a1
  have := h.cover_le (easy_mem_page_to_index zone p)
  omega

/-- Every committed page lies in a free block, an allocated block or a
block in hand. -/
theorem Inv.covered {zone : easy_mem_zone_t} {al fl : List (Nat × Nat)}
    (h : Inv zone al fl) {j : Nat} (hj : j < npages zone) :
    (∃ k p, p ∈ (zone.area k).free_list ∧ InBlock (easy_mem_page_to_index zone p) k j) ∨
    (∃ b ∈ al, InBlock (easy_mem_page_to_index zone b.1) b.2 j) ∨
    (∃ b ∈ fl, InBlock (easy_mem_page_to_index zone b.1) b.2 j) := by
  have hc := h.cover j
  rw [if_pos hj] at hc
  by_cases h1 : 0 < coverFree zone j
  · obtain ⟨k, p, _, hp, hin⟩ := coverFree_pos zone j h1
    exact Or.inl ⟨k, p, hp, hin⟩
  · by_cases h2 : 0 < coverList zone al j
    · exact Or.inr (Or.inl (coverList_pos zone al j h2))
    · exact Or.inr (Or.inr (coverList_pos zone fl j (by omega)))

/-- The block at a buddy index.  For a block `(i, k)` in hand with
`k < max_order`, the page `i XOR 2^k` is the first page of a block of order
at most `k`, free or allocated. -/
theorem Inv.buddy_is_start {zone : easy_mem_zone_t} {al : List (Nat × Nat)} {p k : Nat}
    (h : Inv zone al [(p, k)]) (hk : k < zone.max_order) :
    (∃ r q, r ≤ k ∧ q ∈ (zone.area r).free_list ∧
      easy_mem_page_to_index zone q =
        easy_mem_find_buddy_index (easy_mem_page_to_index zone p) k) ∨
    (∃ b ∈ al, b.2 ≤ k ∧
      easy_mem_page_to_index zone b.1 =
        easy_mem_find_buddy_index (easy_mem_page_to_index zone p) k) := by
  obtain ⟨hkM, hblk⟩ := h.fly_ok (p, k) (List.mem_singleton.2 rfl)
  obtain ⟨_, hal, hbound⟩ := hblk
  simp only at hal hbound hkM
  generalize hi : easy_mem_page_to_index zone p = i at hal hbound ⊢
  have hself : InBlock (easy_mem_page_to_index zone (p, k).1) (p, k).2 i := by
    simp only [hi]; exact inBlock_self _ _
  -- the aligned pair of order `k + 1` around `i`
  obtain ⟨c, hc, hic, hbc⟩ : ∃ c, c % 2 ^ (k + 1) = 0 ∧ InBlock c (k + 1) i ∧
      InBlock c (k + 1) (easy_mem_find_buddy_index i k) ∧
      easy_mem_find_buddy_index i k % 2 ^ k = 0 ∧
      ¬ InBlock i k (easy_mem_find_buddy_index i k) := by
    have hp := Nat.two_pow_pos k
    have h2 : 2 ^ (k + 1) = 2 ^ k + 2 ^ k := by ring
    rcases even_or_odd_block i k hal with he | ⟨hle, ho⟩
    · refine ⟨i, he, ?_, ?_, ?_, ?_⟩
      · exact inBlock_self _ _
      · rw [(buddy_of_lower i k he).1]; unfold InBlock; omega
      · rw [(buddy_of_lower i k he).1]; exact mod_pow_add_half i k he
      · rw [(buddy_of_lower i k he).1]; unfold InBlock; omega
    · have e : i = (i - 2 ^ k) + 2 ^ k := by omega
      have hb := (buddy_of_upper (i - 2 ^ k) k ho).1
      rw [← e] at hb
      refine ⟨i - 2 ^ k, ho, ?_, ?_, ?_, ?_⟩
      · unfold InBlock; omega
      · rw [hb]; unfold InBlock; omega
      · rw [hb]; exact mod_pow_of_le _ _ _ ho (by omega)
      · rw [hb]; unfold InBlock; omega
  obtain ⟨hbc, hbal, hnot⟩ := hbc
  generalize easy_mem_find_buddy_index i k = b at *
  -- the pair lies below `mem_last`
  have hlt : b < npages zone := by
    obtain ⟨t, ht⟩ := h.last_al
    have hM : c % 2 ^ (k + 1) = 0 := hc
    have hnp : npages zone = 2 ^ zone.max_order * t := by
      unfold npages; rw [ht, page_size_val, Nat.mul_assoc]
      exact Nat.mul_div_cancel_left _ (by norm_num)
    have hL : npages zone % 2 ^ (k + 1) = 0 := by
      rw [hnp]
      have hd : 2 ^ (k + 1) ∣ 2 ^ zone.max_order := pow_dvd_pow 2 (by omega)
      exact Nat.mod_eq_zero_of_dvd (dvd_trans hd (Dvd.intro _ rfl))
    obtain ⟨C, rfl⟩ := Nat.dvd_of_mod_eq_zero hc
    obtain ⟨N, hN⟩ := Nat.dvd_of_mod_eq_zero hL
    unfold InBlock at hic hbc
    rw [hN] at hbound ⊢
    have hp := Nat.two_pow_pos k
    have : C < N := by
      have : 2 ^ (k + 1) * C < 2 ^ (k + 1) * N := by omega
      exact Nat.lt_of_mul_lt_mul_left this
    have : 2 ^ (k + 1) * (C + 1) ≤ 2 ^ (k + 1) * N := Nat.mul_le_mul_left _ (by omega)
    have e : 2 ^ (k + 1) * (C + 1) = 2 ^ (k + 1) * C + 2 ^ (k + 1) := by ring
    omega
  have hfly : (p, k) ∈ [(p, k)] := List.mem_singleton.2 rfl
  rcases h.covered hlt with ⟨r, q, hq, hin⟩ | ⟨a, ha, hin⟩ | ⟨a, ha, hin⟩
  · obtain ⟨_, ⟨_, hqal, _⟩, _⟩ := h.free_ok r q hq
    by_cases hrk : r ≤ k
    · exact Or.inl ⟨r, q, hrk, hq, dyadic_same_start _ r b k hqal hbal hrk hin⟩
    · exfalso
      have hn := dyadic_nested c (k + 1) _ r b hc hqal (by omega) hbc hin
      refine h.free_fly_disjoint hq hfly (j := i) ?_ hself
      unfold InBlock at hic ⊢; omega
  · obtain ⟨_, ⟨_, hqal, _⟩, _⟩ := h.used_ok a ha
    by_cases hrk : a.2 ≤ k
    · exact Or.inr ⟨a, ha, hrk, dyadic_same_start _ a.2 b k hqal hbal hrk hin⟩
    · exfalso
      have hn := dyadic_nested c (k + 1) _ a.2 b hc hqal (by omega) hbc hin
      refine h.used_fly_disjoint ha hfly (j := i) ?_ hself
      unfold InBlock at hic ⊢; omega
  · exfalso
    rw [List.mem_singleton.1 ha] at hin
    simp only [hi] at hin
    exact hnot hin

/-! ## Splitting preserves the invariant -/

theorem page_of_index_congr (zone zone1 : easy_mem_zone_t)
    (hs : zone1.mem_start = zone.mem_start) :
    page_of_index zone1 = page_of_index zone := by
  funext p
  unfold page_of_index
  rw [hs]

theorem index_to_page_congr (zone zone1 : easy_mem_zone_t)
    (hs : zone1.mem_start = zone.mem_start) :
    easy_mem_index_to_page zone1 = easy_mem_index_to_page zone := by
  funext p
  unfold easy_mem_index_to_page
  rw [hs]

theorem page_of_index_inj (zone : easy_mem_zone_t) {a b : Nat}
    (h : page_of_index zone a = page_of_index zone b) : a = b := by
  rw [page_of_index_eq, page_of_index_eq] at h
  omega

theorem buddy_buddy (a k : Nat) :
    easy_mem_find_buddy_index (easy_mem_find_buddy_index a k) k = a := by
  unfold easy_mem_find_buddy_index
  rw [Nat.xor_assoc, Nat.xor_self, Nat.xor_zero]

theorem coverList_single (zone : easy_mem_zone_t) (p k j : Nat) :
    coverList zone [(p, k)] j = inb (easy_mem_page_to_index zone p) k j := by
  rw [coverList_cons, coverList_nil]; rfl

/-- One step of `easy_mem_expand`: the block `(p, h + 1)` in hand is halved,
its upper half goes to the head of `area[h]` with flag `h`, the lower half
stays in hand. -/
theorem inv_split {zone zone2 : easy_mem_zone_t} {al : List (Nat × Nat)}
    {p h newpage : Nat} (hinv : Inv zone al [(p, h + 1)])
    (hnew : newpage = p + 2 ^ h * 65536)
    (hs : zone2.mem_start = zone.mem_start) (hl : zone2.mem_last = zone.mem_last)
    (he : zone2.mem_end = zone.mem_end) (hm : zone2.max_order = zone.max_order)
    (ha : zone2.area = Function.update zone.area h
      { free_list := newpage :: (zone.area h).free_list
        nr_free := (zone.area h).nr_free + 1 })
    (hf : zone2.page_flags =
      Function.update zone.page_flags (easy_mem_page_to_index zone newpage) h) :
    Inv zone2 al [(p, h)] := by
  have hfly : (p, h + 1) ∈ [(p, h + 1)] := List.mem_singleton.2 rfl
  obtain ⟨hhM, hblk⟩ := hinv.fly_ok _ hfly
  simp only at hhM hblk
  obtain ⟨i, hp, hal, hb⟩ := (isBlock_iff _ _ _).1 hblk
  have hip : easy_mem_page_to_index zone p = i := by rw [hp]; exact index_of_page _ _
  have hnp : newpage = zone.mem_start + (i + 2 ^ h) * 65536 := by rw [hnew, hp]; ring
  have hin : easy_mem_page_to_index zone newpage = i + 2 ^ h := by
    rw [hnp]; exact index_of_page _ _
  have hix := page_to_index_congr zone zone2 hs
  have hxi := page_of_index_congr zone zone2 hs
  have h2 : 2 ^ (h + 1) = 2 ^ h + 2 ^ h := by ring
  have hpos := Nat.two_pow_pos h
  have hflyin : ∀ j, InBlock i (h + 1) j →
      InBlock (easy_mem_page_to_index zone (p, h + 1).1) (p, h + 1).2 j := by
    intro j hj; simp only [hip]; exact hj
  have hnewin : InBlock i (h + 1) (i + 2 ^ h) := by unfold InBlock; omega
  have hlist_h : (zone2.area h).free_list = newpage :: (zone.area h).free_list := by
    rw [ha]; simp
  have hlist_ne : ∀ k, k ≠ h → zone2.area k = zone.area k := by
    intro k hk; rw [ha]; simp [Function.update_noteq hk]
  have hpne : p ≠ newpage := by rw [hnew]; omega
  refine
    { ord := by rw [hm]; exact hinv.ord
      small := by rw [hs, he]; exact hinv.small
      le_last := by rw [hs, hl]; exact hinv.le_last
      last_le := by rw [hl, he]; exact hinv.last_le
      last_al := by rw [hs, hl, hm]; exact hinv.last_al
      end_al := by rw [hs, he, hm]; exact hinv.end_al
      free_ok := ?_
      used_ok := ?_
      fly_ok := ?_
      cover := ?_
      merged := ?_
      cnt := ?_ }
  · intro k q hq
    rw [hix, hm, isBlock_congr zone zone2 hs hl]
    by_cases hk : k = h
    · subst hk
      rw [hlist_h] at hq
      rcases List.mem_cons.1 hq with hqe | hq'
      · rw [hqe]
        refine ⟨by omega, (isBlock_iff _ _ _).2
          ⟨i + 2 ^ k, hnp, mod_pow_add_half i k hal, by omega⟩, ?_⟩
        rw [hf]; simp
      · obtain ⟨a, b, c⟩ := hinv.free_ok k q hq'
        refine ⟨a, b, ?_⟩
        rw [hf, Function.update_noteq, c]
        intro heq
        refine hinv.free_fly_disjoint hq' hfly (j := i + 2 ^ k) ?_ (hflyin _ hnewin)
        rw [heq, hin]; exact inBlock_self _ _
    · rw [hlist_ne k hk] at hq
      obtain ⟨a, b, c⟩ := hinv.free_ok k q hq
      refine ⟨a, b, ?_⟩
      rw [hf, Function.update_noteq, c]
      intro heq
      refine hinv.free_fly_disjoint hq hfly (j := i + 2 ^ h) ?_ (hflyin _ hnewin)
      rw [heq, hin]; exact inBlock_self _ _
  · intro b hb'
    rw [hix, hm, isBlock_congr zone zone2 hs hl]
    obtain ⟨a, b1, c⟩ := hinv.used_ok b hb'
    refine ⟨a, b1, ?_⟩
    rw [hf, Function.update_noteq, c]
    intro heq
    refine hinv.used_fly_disjoint hb' hfly (j := i + 2 ^ h) ?_ (hflyin _ hnewin)
    rw [heq, hin]; exact inBlock_self _ _
  · intro b hb'
    rw [List.mem_singleton.1 hb']
    simp only
    rw [hm, isBlock_congr zone zone2 hs hl]
    exact ⟨by omega, (isBlock_iff _ _ _).2
      ⟨i, hp, mod_pow_of_le i h (h + 1) hal (by omega), by omega⟩⟩
  · intro j
    have c1 := coverFree_remove zone2 zone h newpage hs.symm hm.symm (by omega)
      (fun k hk => by rw [hlist_ne k hk]) (by rw [hlist_h]) j
    have c2 := coverList_congr zone zone2 hs al j
    have c3 := hinv.cover j
    rw [coverList_single, hip, inb_split] at c3
    rw [coverList_single, c1, c2, hix, hin, hip, npages_congr zone zone2 hs hl]
    omega
  · intro k q hk hq hbud
    rw [hix, hxi] at hbud
    rw [hm] at hk
    by_cases hkh : k = h
    · subst hkh
      rw [hlist_h] at hq hbud
      rcases List.mem_cons.1 hq with hqe | hq'
      · rw [hqe, hin, (buddy_of_upper i k hal).1, page_of_index_eq, ← hp] at hbud
        rcases List.mem_cons.1 hbud with hbe | hb'
        · exact hpne hbe
        · refine hinv.free_fly_disjoint hb' hfly (j := i) ?_ (hflyin _ (inBlock_self _ _))
          rw [hip]; exact inBlock_self _ _
      · rcases List.mem_cons.1 hbud with hbe | hb'
        · rw [hnp, ← page_of_index_eq] at hbe
          have e1 := page_of_index_inj zone hbe
          have e2 : easy_mem_page_to_index zone q = i := by
            rw [← buddy_buddy (easy_mem_page_to_index zone q) k, e1]
            exact (buddy_of_upper i k hal).1
          refine hinv.free_fly_disjoint hq' hfly (j := i) ?_ (hflyin _ (inBlock_self _ _))
          rw [e2]; exact inBlock_self _ _
        · exact hinv.merged k q hk hq' hb'
    · rw [hlist_ne k hkh] at hq hbud
      exact hinv.merged k q hk hq hbud
  · intro k
    by_cases hk : k = h
    · subst hk
      rw [ha]; simp only [Function.update_same, List.length_cons]
      rw [hinv.cnt k]; push_cast; ring
    · rw [hlist_ne k hk]; exact hinv.cnt k

theorem freeSum_update (zone zone2 : easy_mem_zone_t) (h : Nat) (a : easy_mem_area_t)
    (hm : zone2.max_order = zone.max_order) (hh : h ≤ zone.max_order)
    (ha : zone2.area = Function.update zone.area h a) :
    freeSum zone2 = freeSum zone + (a.nr_free - (zone.area h).nr_free) * 2 ^ h := by
  unfold freeSum
  have hmem : h ∈ Finset.range (zone.max_order + 1) := Finset.mem_range.2 (by omega)
  rw [hm, ha, ← Finset.add_sum_erase _ _ hmem, ← Finset.add_sum_erase _ _ hmem]
  have hrest : ∀ k ∈ (Finset.range (zone.max_order + 1)).erase h,
      (Function.update zone.area h a k).nr_free * 2 ^ k = (zone.area k).nr_free * 2 ^ k := by
    intro k hk
    rw [Function.update_noteq (Finset.ne_of_mem_erase hk)]
  rw [Finset.sum_congr rfl hrest]
  simp only [Function.update_same]
  ring

theorem shiftRight_one_pow (h : Nat) : (2 ^ (h + 1)) >>> 1 = 2 ^ h := by
  rw [Nat.shiftRight_eq_div_pow, pow_succ]; simp

theorem expand_loop_succ (p low h size : Nat) (zone : easy_mem_zone_t) (hlt : low < h + 1) :
    easy_mem_expand_loop p low (h + 1) size zone =
      easy_mem_expand_loop p low h (size >>> 1)
        (easy_mem_set_page_free
          { zone with
            area := Function.update zone.area h
              { free_list := easy_mem_page_ptr p (size >>> 1) :: (zone.area h).free_list
                nr_free := (zone.area h).nr_free + 1 } }
          (easy_mem_page_ptr p (size >>> 1)) h) := by
  rw [easy_mem_expand_loop]
  simp only [gt_iff_lt, hlt, if_true]

theorem expand_loop_stop (p low high size : Nat) (zone : easy_mem_zone_t) (hle : high ≤ low) :
    easy_mem_expand_loop p low high size zone = zone := by
  cases high with
  | zero => rfl
  | succ h =>
    rw [easy_mem_expand_loop]
    have : ¬ (h + 1 > low) := by omega
    simp only [this, if_false]

/-- `easy_mem_expand` keeps the invariant: the block in hand shrinks from
order `high` to order `low`. -/
theorem expand_loop_inv (p low : Nat) :
    ∀ (high size : Nat) (zone : easy_mem_zone_t) (al : List (Nat × Nat)),
      size = 2 ^ high → low ≤ high → Inv zone al [(p, high)] →
      Inv (easy_mem_expand_loop p low high size zone) al [(p, low)] := by
  intro high
  induction high with
  | zero =>
    intro size zone al _ hle hinv
    have : low = 0 := by omega
    subst this
    rw [expand_loop_stop _ _ _ _ _ (le_refl _)]; exact hinv
  | succ h ih =>
    intro size zone al hsz hle hinv
    by_cases hlt : low < h + 1
    · rw [expand_loop_succ _ _ _ _ _ hlt]
      have hs1 : size >>> 1 = 2 ^ h := by rw [hsz]; exact shiftRight_one_pow h
      have hh : h < 12 := by
        have := (hinv.fly_ok (p, h + 1) (List.mem_singleton.2 rfl)).1
        have := hinv.ord
        simp only [EASY_MEM_MAX_ORDER] at *
        omega
      apply ih (size >>> 1) _ al hs1 (by omega)
      have hnew : easy_mem_page_ptr p (size >>> 1) = p + 2 ^ h * 65536 := by
        rw [page_ptr_eq, hs1]
      apply inv_split hinv hnew
      · rfl
      · rfl
      · rfl
      · rfl
      · rfl
      · show Function.update zone.page_flags _ (0x0f &&& h) = _
        rw [flag_free_val h hh]
        rfl
    · have : low = h + 1 := by omega
      subst this
      rw [expand_loop_stop _ _ _ _ _ (le_refl _)]; exact hinv

/-- The fields that `easy_mem_expand` leaves alone. -/
theorem expand_loop_frame (p low : Nat) :
    ∀ (high size : Nat) (zone : easy_mem_zone_t),
      (easy_mem_expand_loop p low high size zone).mem_start = zone.mem_start ∧
      (easy_mem_expand_loop p low high size zone).mem_last = zone.mem_last ∧
      (easy_mem_expand_loop p low high size zone).mem_end = zone.mem_end ∧
      (easy_mem_expand_loop p low high size zone).max_order = zone.max_order ∧
      (easy_mem_expand_loop p low high size zone).free_pages = zone.free_pages := by
  intro high
  induction high with
  | zero => intro size zone; exact ⟨rfl, rfl, rfl, rfl, rfl⟩
  | succ h ih =>
    intro size zone
    by_cases hlt : low < h + 1
    · rw [expand_loop_succ _ _ _ _ _ hlt]
      exact ih _ _
    · rw [expand_loop_stop _ _ _ _ _ (by omega)]
      exact ⟨rfl, rfl, rfl, rfl, rfl⟩

/-- The free lists after `easy_mem_expand`: one block more at the head of
each `area[k]` with `low ≤ k < high`. -/
theorem expand_loop_area (p low : Nat) :
    ∀ (high size : Nat) (zone : easy_mem_zone_t) (k : Nat), size = 2 ^ high →
      (easy_mem_expand_loop p low high size zone).area k =
        if low ≤ k ∧ k < high then
          { free_list := (p + 2 ^ k * 65536) :: (zone.area k).free_list
            nr_free := (zone.area k).nr_free + 1 }
        else zone.area k := by
  intro high
  induction high with
  | zero => intro size zone k _; simp [easy_mem_expand_loop]
  | succ h ih =>
    intro size zone k hsz
    by_cases hlt : low < h + 1
    · rw [expand_loop_succ _ _ _ _ _ hlt]
      have hs1 : size >>> 1 = 2 ^ h := by rw [hsz]; exact shiftRight_one_pow h
      rw [ih _ _ k hs1]
      by_cases hk : k = h
      · subst hk
        have c1 : ¬ (low ≤ k ∧ k < k) := by omega
        have c2 : low ≤ k ∧ k < k + 1 := by omega
        rw [if_neg c1, if_pos c2, page_ptr_eq, hs1]
        simp [easy_mem_set_page_free]
      · by_cases hc : low ≤ k ∧ k < h
        · have c2 : low ≤ k ∧ k < h + 1 := by omega
          rw [if_pos hc, if_pos c2]
          simp [easy_mem_set_page_free, Function.update_noteq hk]
        · have c2 : ¬ (low ≤ k ∧ k < h + 1) := by omega
          rw [if_neg hc, if_neg c2]
          simp [easy_mem_set_page_free, Function.update_noteq hk]
    · rw [expand_loop_stop _ _ _ _ _ (by omega)]
      have c2 : ¬ (low ≤ k ∧ k < h + 1) := by omega
      rw [if_neg c2]

/-- The weighted counter sum after `easy_mem_expand`. -/
theorem expand_loop_freeSum (p low : Nat) :
    ∀ (high size : Nat) (zone : easy_mem_zone_t), low ≤ high → high ≤ zone.max_order →
      freeSum (easy_mem_expand_loop p low high size zone) =
        freeSum zone + 2 ^ high - 2 ^ low := by
  intro high
  induction high with
  | zero =>
    intro size zone hle _
    have : low = 0 := by omega
    subst this
    rw [expand_loop_stop _ _ _ _ _ (le_refl _)]; ring
  | succ h ih =>
    intro size zone hle hM
    by_cases hlt : low < h + 1
    · rw [expand_loop_succ _ _ _ _ _ hlt, ih _ _ (by omega) (by exact Nat.le_of_succ_le hM)]
      have hu := freeSum_update zone
        (easy_mem_set_page_free
          { zone with
            area := Function.update zone.area h
              { free_list := easy_mem_page_ptr p (size >>> 1) :: (zone.area h).free_list
                nr_free := (zone.area h).nr_free + 1 } }
          (easy_mem_page_ptr p (size >>> 1)) h) h
        { free_list := easy_mem_page_ptr p (size >>> 1) :: (zone.area h).free_list
          nr_free := (zone.area h).nr_free + 1 } rfl (by omega) rfl
      rw [hu]
      simp only
      ring
    · have : low = h + 1 := by omega
      subst this
      rw [expand_loop_stop _ _ _ _ _ (le_refl _)]; ring

/-! ## Removing a block from a free list -/

/-- The invariant reads only the bounds, the top order, the areas and the
flags of a zone. -/
theorem inv_congr {zone zone1 : easy_mem_zone_t} {al fl : List (Nat × Nat)}
    (hinv : Inv zone al fl)
    (hs : zone1.mem_start = zone.mem_start) (hl : zone1.mem_last = zone.mem_last)
    (he : zone1.mem_end = zone.mem_end) (hm : zone1.max_order = zone.max_order)
    (ha : zone1.area = zone.area) (hf : zone1.page_flags = zone.page_flags) :
    Inv zone1 al fl := by
  obtain ⟨ms, ml, me, ar, mo, fp, c, ce, pf⟩ := zone
  obtain ⟨ms1, ml1, me1, ar1, mo1, fp1, c1, ce1, pf1⟩ := zone1
  simp only at hs hl he hm ha hf
  subst hs hl he hm ha hf
  exact
    { ord := hinv.ord
      small := hinv.small
      le_last := hinv.le_last
      last_le := hinv.last_le
      last_al := hinv.last_al
      end_al := hinv.end_al
      free_ok := hinv.free_ok
      used_ok := hinv.used_ok
      fly_ok := hinv.fly_ok
      cover := hinv.cover
      merged := hinv.merged
      cnt := hinv.cnt }

/-- The head of `area[n]` is unlinked and taken in hand. -/
theorem inv_pop {zone zone1 : easy_mem_zone_t} {al : List (Nat × Nat)} {n page : Nat}
    {rest : List Nat} (hinv : Inv zone al [])
    (hn : (zone.area n).free_list = page :: rest)
    (hs : zone1.mem_start = zone.mem_start) (hl : zone1.mem_last = zone.mem_last)
    (he : zone1.mem_end = zone.mem_end) (hm : zone1.max_order = zone.max_order)
    (ha : zone1.area = Function.update zone.area n
      { free_list := rest, nr_free := (zone.area n).nr_free - 1 })
    (hf : zone1.page_flags = zone.page_flags) :
    Inv zone1 al [(page, n)] := by
  have hix := page_to_index_congr zone zone1 hs
  have hxi := page_of_index_congr zone zone1 hs
  have hpm : page ∈ (zone.area n).free_list := by rw [hn]; exact List.mem_cons_self _ _
  have hlist_n : (zone1.area n).free_list = rest := by rw [ha]; simp
  have hlist_ne : ∀ k, k ≠ n → zone1.area k = zone.area k := by
    intro k hk; rw [ha]; simp [Function.update_noteq hk]
  have hsub : ∀ k q, q ∈ (zone1.area k).free_list → q ∈ (zone.area k).free_list := by
    intro k q hq
    by_cases hk : k = n
    · subst hk; rw [hlist_n] at hq; rw [hn]; exact List.mem_cons_of_mem _ hq
    · rw [hlist_ne k hk] at hq; exact hq
  obtain ⟨hnM, hnblk, _⟩ := hinv.free_ok n page hpm
  refine
    { ord := by rw [hm]; exact hinv.ord
      small := by rw [hs, he]; exact hinv.small
      le_last := by rw [hs, hl]; exact hinv.le_last
      last_le := by rw [hl, he]; exact hinv.last_le
      last_al := by rw [hs, hl, hm]; exact hinv.last_al
      end_al := by rw [hs, he, hm]; exact hinv.end_al
      free_ok := ?_
      used_ok := ?_
      fly_ok := ?_
      cover := ?_
      merged := ?_
      cnt := ?_ }
  · intro k q hq
    rw [hix, hm, isBlock_congr zone zone1 hs hl, hf]
    exact hinv.free_ok k q (hsub k q hq)
  · intro b hb
    rw [hix, hm, isBlock_congr zone zone1 hs hl, hf]
    exact hinv.used_ok b hb
  · intro b hb
    rw [List.mem_singleton.1 hb]
    simp only
    rw [hm, isBlock_congr zone zone1 hs hl]
    exact ⟨hnM, hnblk⟩
  · intro j
    have c1 := coverFree_remove zone zone1 n page hs hm hnM
      (fun k hk => by rw [hlist_ne k hk]) (by rw [hlist_n, hn]) j
    have c2 := coverList_congr zone zone1 hs al j
    have c3 := hinv.cover j
    rw [coverList_nil] at c3
    rw [coverList_single, c2, hix, npages_congr zone zone1 hs hl]
    omega
  · intro k q hk hq hbud
    rw [hix, hxi] at hbud
    rw [hm] at hk
    exact hinv.merged k q hk (hsub k q hq) (hsub k _ hbud)
  · intro k
    by_cases hk : k = n
    · subst hk
      rw [ha]; simp only [Function.update_same]
      rw [hinv.cnt k, hn]; simp
    · rw [hlist_ne k hk]; exact hinv.cnt k

/-- Lazy growth: the next top block, at `mem_last`, is taken in hand. -/
theorem inv_grow {zone zone1 : easy_mem_zone_t} {al : List (Nat × Nat)}
    (hinv : Inv zone al []) (hlt : zone.mem_last < zone.mem_end)
    (hs : zone1.mem_start = zone.mem_start)
    (hl : zone1.mem_last = zone.mem_last + 2 ^ zone.max_order * 65536)
    (he : zone1.mem_end = zone.mem_end) (hm : zone1.max_order = zone.max_order)
    (ha : ∀ k, (zone1.area k).free_list = (zone.area k).free_list)
    (hc : ∀ k, (zone1.area k).nr_free = (zone.area k).nr_free)
    (hf : zone1.page_flags = zone.page_flags) :
    Inv zone1 al [(zone.mem_last, zone.max_order)] := by
  have hix := page_to_index_congr zone zone1 hs
  have hxi := page_of_index_congr zone zone1 hs
  obtain ⟨t, ht⟩ := hinv.last_al
  obtain ⟨u, hu⟩ := hinv.end_al
  rw [page_size_val] at ht hu
  have hle := hinv.le_last
  have hpos := Nat.two_pow_pos zone.max_order
  generalize hP : 2 ^ zone.max_order = P at *
  have hnp : npages zone = P * t := by
    unfold npages; rw [ht, page_size_val, Nat.mul_assoc]
    exact Nat.mul_div_cancel_left _ (by norm_num)
  have hnp1 : npages zone1 = P * t + P := by
    unfold npages
    rw [hs, hl, page_size_val]
    have : zone.mem_last + P * 65536 - zone.mem_start = 65536 * (P * t + P) := by
      have : 65536 * (P * t + P) = 65536 * P * t + P * 65536 := by ring
      omega
    rw [this]
    exact Nat.mul_div_cancel_left _ (by norm_num)
  have hlast : zone.mem_last = zone.mem_start + (P * t) * 65536 := by
    have : P * t * 65536 = 65536 * P * t := by ring
    omega
  have hmono : ∀ p k, IsBlock zone p k → IsBlock zone1 p k := by
    intro p k ⟨h1, h2, h3⟩
    refine ⟨?_, ?_, ?_⟩
    · rw [hix, hxi]; exact h1
    · rw [hix]; exact h2
    · rw [hix, hnp1]; rw [hnp] at h3; omega
  have htu : t < u := by
    have : 65536 * P * t < 65536 * P * u := by have := hinv.last_le; omega
    exact Nat.lt_of_mul_lt_mul_left this
  refine
    { ord := by rw [hm]; exact hinv.ord
      small := by rw [hs, he]; exact hinv.small
      le_last := by rw [hs, hl]; omega
      last_le := ?_
      last_al := ?_
      end_al := by rw [hs, he, hm, page_size_val, hP]; exact ⟨u, hu⟩
      free_ok := ?_
      used_ok := ?_
      fly_ok := ?_
      cover := ?_
      merged := ?_
      cnt := ?_ }
  · rw [hl, he]
    have : 65536 * P * (t + 1) ≤ 65536 * P * u := Nat.mul_le_mul_left _ (by omega)
    have e : 65536 * P * (t + 1) = 65536 * P * t + P * 65536 := by ring
    have := hinv.last_le
    omega
  · rw [hs, hl, hm, page_size_val, hP]
    refine ⟨t + 1, ?_⟩
    have e : 65536 * P * (t + 1) = 65536 * P * t + P * 65536 := by ring
    omega
  · intro k q hq
    rw [ha] at hq
    obtain ⟨a, b, c⟩ := hinv.free_ok k q hq
    rw [hix, hm, hf]
    exact ⟨a, hmono _ _ b, c⟩
  · intro b hb
    obtain ⟨a, b1, c⟩ := hinv.used_ok b hb
    rw [hix, hm, hf]
    exact ⟨a, hmono _ _ b1, c⟩
  · intro b hb
    rw [List.mem_singleton.1 hb]
    simp only
    rw [hm]
    refine ⟨le_refl _, ?_⟩
    rw [isBlock_iff]
    refine ⟨P * t, ?_, ?_, ?_⟩
    · rw [hs]; exact hlast
    · rw [hP]; exact Nat.mul_mod_right _ _
    · rw [hnp1, hP]
  · intro j
    have c1 := coverFree_congr zone zone1 hs hm ha j
    have c2 := coverList_congr zone zone1 hs al j
    have c3 := hinv.cover j
    rw [coverList_nil, hnp] at c3
    have hil : easy_mem_page_to_index zone zone.mem_last = P * t := by
      rw [hlast]; exact index_of_page _ _
    rw [coverList_single, c1, c2, hix, hil, hnp1]
    unfold inb InBlock
    simp only [hP]
    split_ifs at c3 ⊢ <;> omega
  · intro k q hk hq hbud
    rw [hix, hxi, ha] at hbud
    rw [hm] at hk
    rw [ha] at hq
    exact hinv.merged k q hk hq hbud
  · intro k
    rw [hc, ha]; exact hinv.cnt k

/-- The block in hand is handed out: its first flag byte becomes
`0x80 | order`. -/
theorem inv_mark_used {zone zone1 : easy_mem_zone_t} {al : List (Nat × Nat)} {p o : Nat}
    (hinv : Inv zone al [(p, o)])
    (hs : zone1.mem_start = zone.mem_start) (hl : zone1.mem_last = zone.mem_last)
    (he : zone1.mem_end = zone.mem_end) (hm : zone1.max_order = zone.max_order)
    (ha : zone1.area = zone.area)
    (hf : zone1.page_flags =
      Function.update zone.page_flags (easy_mem_page_to_index zone p) (128 + o)) :
    Inv zone1 ((p, o) :: al) [] := by
  have hix := page_to_index_congr zone zone1 hs
  have hxi := page_of_index_congr zone zone1 hs
  have hfly : (p, o) ∈ [(p, o)] := List.mem_singleton.2 rfl
  obtain ⟨hoM, hblk⟩ := hinv.fly_ok _ hfly
  refine
    { ord := by rw [hm]; exact hinv.ord
      small := by rw [hs, he]; exact hinv.small
      le_last := by rw [hs, hl]; exact hinv.le_last
      last_le := by rw [hl, he]; exact hinv.last_le
      last_al := by rw [hs, hl, hm]; exact hinv.last_al
      end_al := by rw [hs, he, hm]; exact hinv.end_al
      free_ok := ?_
      used_ok := ?_
      fly_ok := ?_
      cover := ?_
      merged := ?_
      cnt := ?_ }
  · intro k q hq
    rw [ha] at hq
    rw [hix, hm, isBlock_congr zone zone1 hs hl]
    obtain ⟨a, b, c⟩ := hinv.free_ok k q hq
    refine ⟨a, b, ?_⟩
    rw [hf, Function.update_noteq, c]
    intro heq
    refine hinv.free_fly_disjoint hq hfly (j := easy_mem_page_to_index zone p) ?_
      (inBlock_self _ _)
    rw [heq]; exact inBlock_self _ _
  · intro b hb
    rw [hix, hm, isBlock_congr zone zone1 hs hl]
    rcases List.mem_cons.1 hb with hbe | hb'
    · rw [hbe]
      refine ⟨hoM, hblk, ?_⟩
      rw [hf]; simp
    · obtain ⟨a, b1, c⟩ := hinv.used_ok b hb'
      refine ⟨a, b1, ?_⟩
      rw [hf, Function.update_noteq, c]
      intro heq
      refine hinv.used_fly_disjoint hb' hfly (j := easy_mem_page_to_index zone p) ?_
        (inBlock_self _ _)
      rw [heq]; exact inBlock_self _ _
  · intro b hb
    simp at hb
  · intro j
    have c1 := coverFree_congr zone zone1 hs hm (fun k => by rw [ha]) j
    have c3 := hinv.cover j
    rw [coverList_single] at c3
    rw [coverList_cons, coverList_nil, c1, coverList_congr zone zone1 hs al j, hix,
      npages_congr zone zone1 hs hl]
    simp only
    omega
  · intro k q hk hq hbud
    rw [hix, hxi, ha] at hbud
    rw [hm] at hk
    rw [ha] at hq
    exact hinv.merged k q hk hq hbud
  · intro k
    rw [ha]; exact hinv.cnt k

/-! ## `easy_mem_rmqueue` -/

theorem rmqueue_take_eq (zone : easy_mem_zone_t) (order n page : Nat) (rest : List Nat) :
    easy_mem_rmqueue_take zone order n page rest =
      easy_mem_set_page_used
        (easy_mem_expand_loop page order n (1 <<< n)
          { zone with
            area := Function.update zone.area n
              { free_list := rest, nr_free := (zone.area n).nr_free - 1 }
            free_pages := zone.free_pages - (1 <<< order : Nat) })
        page order := rfl

theorem set_page_used_flags (zone : easy_mem_zone_t) (p o : Nat) (ho : o < 12) :
    (easy_mem_set_page_used zone p o).page_flags =
      Function.update zone.page_flags (easy_mem_page_to_index zone p) (128 + o) := by
  unfold easy_mem_set_page_used
  simp only
  rw [flag_used_val o ho]

theorem rmqueue_take_inv {zone : easy_mem_zone_t} {al : List (Nat × Nat)}
    {order n page : Nat} {rest : List Nat} (hle : order ≤ n)
    (hpop : Inv
      { zone with
        area := Function.update zone.area n
          { free_list := rest, nr_free := (zone.area n).nr_free - 1 } } al [(page, n)]) :
    Inv (easy_mem_rmqueue_take zone order n page rest) ((page, order) :: al) [] := by
  rw [rmqueue_take_eq]
  have h2 := expand_loop_inv page order n (1 <<< n)
    { zone with
      area := Function.update zone.area n
        { free_list := rest, nr_free := (zone.area n).nr_free - 1 }
      free_pages := zone.free_pages - (1 <<< order : Nat) } al (Nat.one_shiftLeft n) hle
    (inv_congr hpop rfl rfl rfl rfl rfl rfl)
  have ho : order < 12 := by
    have := (h2.fly_ok (page, order) (List.mem_singleton.2 rfl)).1
    have := h2.ord
    simp only [EASY_MEM_MAX_ORDER] at *
    omega
  exact inv_mark_used h2 rfl rfl rfl rfl rfl (set_page_used_flags _ _ _ ho)

theorem rmqueue_take_frame (zone : easy_mem_zone_t) (order n page : Nat) (rest : List Nat) :
    (easy_mem_rmqueue_take zone order n page rest).mem_start = zone.mem_start ∧
    (easy_mem_rmqueue_take zone order n page rest).mem_last = zone.mem_last ∧
    (easy_mem_rmqueue_take zone order n page rest).mem_end = zone.mem_end ∧
    (easy_mem_rmqueue_take zone order n page rest).max_order = zone.max_order ∧
    (easy_mem_rmqueue_take zone order n page rest).free_pages =
      zone.free_pages - 2 ^ order := by
  rw [rmqueue_take_eq]
  obtain ⟨h1, h2, h3, h4, h5⟩ := expand_loop_frame page order n (1 <<< n)
    { zone with
      area := Function.update zone.area n
        { free_list := rest, nr_free := (zone.area n).nr_free - 1 }
      free_pages := zone.free_pages - (1 <<< order : Nat) }
  refine ⟨h1, h2, h3, h4, ?_⟩
  show (easy_mem_expand_loop _ _ _ _ _).free_pages = _
  rw [h5]
  simp [Nat.one_shiftLeft]

theorem rmqueue_take_area (zone : easy_mem_zone_t) (order n page : Nat) (rest : List Nat)
    (k : Nat) :
    (easy_mem_rmqueue_take zone order n page rest).area k =
      if order ≤ k ∧ k < n then
        { free_list := (page + 2 ^ k * 65536) :: (zone.area k).free_list
          nr_free := (zone.area k).nr_free + 1 }
      else if k = n then { free_list := rest, nr_free := (zone.area n).nr_free - 1 }
      else zone.area k := by
  rw [rmqueue_take_eq]
  show (easy_mem_expand_loop _ _ _ _ _).area k = _
  rw [expand_loop_area page order n (1 <<< n) _ k (Nat.one_shiftLeft n)]
  by_cases hc : order ≤ k ∧ k < n
  · have hk : k ≠ n := by omega
    simp [hc, Function.update_noteq hk]
  · by_cases hk : k = n
    · subst hk; simp [hc]
    · simp [hc, hk, Function.update_noteq hk]

theorem rmqueue_take_freeSum (zone : easy_mem_zone_t) (order n page : Nat) (rest : List Nat)
    (hle : order ≤ n) (hn : n ≤ zone.max_order) :
    freeSum (easy_mem_rmqueue_take zone order n page rest) = freeSum zone - 2 ^ order := by
  rw [rmqueue_take_eq]
  show freeSum (easy_mem_expand_loop _ _ _ _ _) = _
  have hx := expand_loop_freeSum page order n (1 <<< n)
    { zone with
      area := Function.update zone.area n
        { free_list := rest, nr_free := (zone.area n).nr_free - 1 }
      free_pages := zone.free_pages - (1 <<< order : Nat) } hle hn
  rw [hx]
  have hu := freeSum_update zone
    { zone with
      area := Function.update zone.area n
        { free_list := rest, nr_free := (zone.area n).nr_free - 1 }
      free_pages := zone.free_pages - (1 <<< order : Nat) } n
    { free_list := rest, nr_free := (zone.area n).nr_free - 1 } rfl hn rfl
  rw [hu]
  simp only
  ring

theorem rmqueue_loop_found (zone : easy_mem_zone_t) (order n page : Nat) (rest : List Nat)
    (hn : n ≤ zone.max_order) (hl : (zone.area n).free_list = page :: rest) :
    ∀ (fuel n0 : Nat), n0 ≤ n → n < n0 + fuel →
      (∀ k, n0 ≤ k → k < n → (zone.area k).free_list = []) →
      easy_mem_rmqueue_loop zone order fuel n0 =
        (easy_mem_rmqueue_take zone order n page rest, some page) := by
  intro fuel
  induction fuel with
  | zero => intro n0 h1 h2 _; omega
  | succ f ih =>
    intro n0 h1 h2 hempty
    rw [easy_mem_rmqueue_loop]
    have hle : n0 ≤ zone.max_order := by omega
    simp only [hle, if_true]
    by_cases hnn : n0 = n
    · subst hnn
      rw [hl]
    · rw [hempty n0 (le_refl _) (by omega)]
      exact ih (n0 + 1) (by omega) (by omega) (fun k a b => hempty k (by omega) b)

theorem rmqueue_loop_none (zone : easy_mem_zone_t) (order : Nat) :
    ∀ (fuel n0 : Nat),
      (∀ k, n0 ≤ k → k ≤ zone.max_order → (zone.area k).free_list = []) →
      easy_mem_rmqueue_loop zone order fuel n0 = (zone, none) := by
  intro fuel
  induction fuel with
  | zero => intro n0 _; rfl
  | succ f ih =>
    intro n0 hempty
    rw [easy_mem_rmqueue_loop]
    by_cases hle : n0 ≤ zone.max_order
    · simp only [hle, if_true]
      rw [hempty n0 (le_refl _) hle]
      exact ih (n0 + 1) (fun k a b => hempty k (by omega) b)
    · simp only [hle, if_false]

/-- The two outcomes of `easy_mem_rmqueue`: the head of the first non-empty
list from `order` upwards is taken, or all these lists are empty and nothing
changes. -/
theorem rmqueue_cases (zone : easy_mem_zone_t) (order : Nat) :
    (∃ n page rest, order ≤ n ∧ n ≤ zone.max_order ∧
      (∀ k, order ≤ k → k < n → (zone.area k).free_list = []) ∧
      (zone.area n).free_list = page :: rest ∧
      easy_mem_rmqueue zone order =
        (easy_mem_rmqueue_take zone order n page rest, some page)) ∨
    ((∀ k, order ≤ k → k ≤ zone.max_order → (zone.area k).free_list = []) ∧
      easy_mem_rmqueue zone order = (zone, none)) := by
  by_cases hex : ∃ n, order ≤ n ∧ n ≤ zone.max_order ∧ (zone.area n).free_list ≠ []
  · left
    classical
    have hmin : ∀ m, m < Nat.find hex →
        ¬ (order ≤ m ∧ m ≤ zone.max_order ∧ (zone.area m).free_list ≠ []) :=
      fun m hm => Nat.find_min hex hm
    obtain ⟨h1, h2, h3⟩ := Nat.find_spec hex
    generalize Nat.find hex = n at hmin h1 h2 h3
    obtain ⟨page, rest, hl⟩ := List.exists_cons_of_ne_nil h3
    have hempty : ∀ k, order ≤ k → k < n → (zone.area k).free_list = [] := by
      intro k a b
      by_contra hne
      exact hmin k b ⟨a, by omega, hne⟩
    refine ⟨n, page, rest, h1, h2, hempty, hl, ?_⟩
    unfold easy_mem_rmqueue
    exact rmqueue_loop_found zone order n page rest h2 hl _ _ h1 (by omega) hempty
  · right
    have hempty : ∀ k, order ≤ k → k ≤ zone.max_order → (zone.area k).free_list = [] := by
      intro k a b
      by_contra hne
      exact hex ⟨k, a, b, hne⟩
    exact ⟨hempty, rmqueue_loop_none zone order _ _ hempty⟩

/-- With the counters right, a non-empty list of order `n` accounts for at
least `2^n` free pages. -/
theorem freeSum_ge_of_mem {zone : easy_mem_zone_t}
    (hcnt : ∀ k, (zone.area k).nr_free = ((zone.area k).free_list.length : Int))
    {n : Nat} (hn : n ≤ zone.max_order) (hne : (zone.area n).free_list ≠ []) :
    (2 : Int) ^ n ≤ freeSum zone := by
  unfold freeSum
  have hmem : n ∈ Finset.range (zone.max_order + 1) := Finset.mem_range.2 (by omega)
  have hnonneg : ∀ k ∈ Finset.range (zone.max_order + 1),
      (0 : Int) ≤ (zone.area k).nr_free * 2 ^ k := by
    intro k _
    rw [hcnt k]
    positivity
  have h1 := Finset.single_le_sum hnonneg hmem
  have h2 : (1 : Int) ≤ (zone.area n).nr_free := by
    rw [hcnt n]
    have : 0 < (zone.area n).free_list.length := List.length_pos.2 hne
    omega
  have h3 : (2 : Int) ^ n ≤ (zone.area n).nr_free * 2 ^ n := by
    have hp : (0 : Int) ≤ 2 ^ n := by positivity
    nlinarith
  exact le_trans h3 h1

theorem freeSum_nonneg {zone : easy_mem_zone_t}
    (hcnt : ∀ k, (zone.area k).nr_free = ((zone.area k).free_list.length : Int)) :
    0 ≤ freeSum zone := by
  unfold freeSum
  apply Finset.sum_nonneg
  intro k _
  rw [hcnt k]
  positivity

/-! ## `easy_mem_alloc_pages` -/

theorem alloc_too_big (zone : easy_mem_zone_t) (order : Nat) (h : order > zone.max_order) :
    easy_mem_alloc_pages zone order = (zone, none) := by
  unfold easy_mem_alloc_pages
  rw [if_pos h]

theorem alloc_of_rmqueue_some (zone zone1 : easy_mem_zone_t) (order page : Nat)
    (hle : order ≤ zone.max_order)
    (hfp : zone.free_pages ≥ ((1 <<< order : Nat) : Int))
    (hr : easy_mem_rmqueue zone order = (zone1, some page)) :
    easy_mem_alloc_pages zone order = (zone1, some page) := by
  unfold easy_mem_alloc_pages
  rw [if_neg (by omega)]
  simp only [hfp, if_true, hr]

theorem alloc_of_rmqueue_none (zone : easy_mem_zone_t) (order : Nat)
    (hle : order ≤ zone.max_order)
    (hr : zone.free_pages ≥ ((1 <<< order : Nat) : Int) →
      easy_mem_rmqueue zone order = (zone, none)) :
    easy_mem_alloc_pages zone order =
      if zone.mem_last < zone.mem_end then easy_mem_rmqueue (easy_mem_grow zone) order
      else (zone, none) := by
  unfold easy_mem_alloc_pages
  rw [if_neg (by omega)]
  by_cases hfp : zone.free_pages ≥ ((1 <<< order : Nat) : Int)
  · simp only [hfp, if_true, hr hfp]
  · simp only [hfp, if_false]

theorem grow_start (zone : easy_mem_zone_t) :
    (easy_mem_grow zone).mem_start = zone.mem_start := by
  unfold easy_mem_grow; rfl

theorem grow_end (zone : easy_mem_zone_t) :
    (easy_mem_grow zone).mem_end = zone.mem_end := by
  unfold easy_mem_grow; rfl

theorem grow_max_order (zone : easy_mem_zone_t) :
    (easy_mem_grow zone).max_order = zone.max_order := by
  unfold easy_mem_grow; rfl

theorem grow_flags (zone : easy_mem_zone_t) :
    (easy_mem_grow zone).page_flags = zone.page_flags := by
  unfold easy_mem_grow; rfl

theorem grow_area (zone : easy_mem_zone_t) (k : Nat) :
    (easy_mem_grow zone).area k =
      if k = zone.max_order then
        { free_list := zone.mem_last :: (zone.area k).free_list
          nr_free := (zone.area k).nr_free + 1 }
      else zone.area k := by
  unfold easy_mem_grow
  by_cases hk : k = zone.max_order
  · subst hk; simp
  · simp [hk, Function.update_noteq hk]

/-- After the growth step `easy_mem_rmqueue` always succeeds. -/
theorem rmqueue_grow_some (zone : easy_mem_zone_t) (order : Nat)
    (hle : order ≤ zone.max_order) :
    ∃ n page rest, order ≤ n ∧ n ≤ zone.max_order ∧
      ((easy_mem_grow zone).area n).free_list = page :: rest ∧
      easy_mem_rmqueue (easy_mem_grow zone) order =
        (easy_mem_rmqueue_take (easy_mem_grow zone) order n page rest, some page) := by
  rcases rmqueue_cases (easy_mem_grow zone) order with
    ⟨n, page, rest, h1, h2, _, h4, h5⟩ | ⟨hempty, _⟩
  · rw [grow_max_order] at h2
    exact ⟨n, page, rest, h1, h2, h4, h5⟩
  · exfalso
    rw [grow_max_order] at hempty
    have := hempty zone.max_order hle (le_refl _)
    rw [grow_area, if_pos rfl] at this
    exact List.cons_ne_nil _ _ this

/-- The three outcomes of `easy_mem_alloc_pages` for `order ≤ max_order` in a
zone whose counters are right: a block is taken from the first non-empty
list, or the zone grows by one top block which is taken, or nothing changes
and the result is null. -/
theorem alloc_cases (zone : easy_mem_zone_t) (order : Nat)
    (hcnt : ∀ k, (zone.area k).nr_free = ((zone.area k).free_list.length : Int))
    (hfp : zone.free_pages = freeSum zone) (hle : order ≤ zone.max_order) :
    (∃ n page rest, order ≤ n ∧ n ≤ zone.max_order ∧
      (∀ k, order ≤ k → k < n → (zone.area k).free_list = []) ∧
      (zone.area n).free_list = page :: rest ∧
      easy_mem_alloc_pages zone order =
        (easy_mem_rmqueue_take zone order n page rest, some page)) ∨
    ((∀ k, order ≤ k → k ≤ zone.max_order → (zone.area k).free_list = []) ∧
      zone.mem_last < zone.mem_end ∧
      easy_mem_alloc_pages zone order =
        (easy_mem_rmqueue_take (easy_mem_grow zone) order zone.max_order zone.mem_last [],
          some zone.mem_last)) ∨
    ((∀ k, order ≤ k → k ≤ zone.max_order → (zone.area k).free_list = []) ∧
      ¬ zone.mem_last < zone.mem_end ∧
      easy_mem_alloc_pages zone order = (zone, none)) := by
  rcases rmqueue_cases zone order with ⟨n, page, rest, h1, h2, h3, h4, h5⟩ | ⟨hempty, hnone⟩
  · left
    refine ⟨n, page, rest, h1, h2, h3, h4, ?_⟩
    apply alloc_of_rmqueue_some zone _ order page hle _ h5
    have hne : (zone.area n).free_list ≠ [] := by rw [h4]; exact List.cons_ne_nil _ _
    have hge := freeSum_ge_of_mem hcnt h2 hne
    have hpow : (2 : Int) ^ order ≤ 2 ^ n := by
      exact_mod_cast Nat.pow_le_pow_right (by norm_num : 0 < 2) h1
    rw [hfp, Nat.one_shiftLeft]
    push_cast
    omega
  · right
    rw [alloc_of_rmqueue_none zone order hle (fun _ => hnone)]
    by_cases hlt : zone.mem_last < zone.mem_end
    · left
      refine ⟨hempty, hlt, ?_⟩
      rw [if_pos hlt]
      unfold easy_mem_rmqueue
      rw [grow_max_order]
      apply rmqueue_loop_found (easy_mem_grow zone) order zone.max_order zone.mem_last []
        (by rw [grow_max_order]) _ _ _ hle
      · omega
      · intro k a b
        rw [grow_area, if_neg (by omega)]
        exact hempty k a (by omega)
      · rw [grow_area, if_pos rfl, hempty zone.max_order hle (le_refl _)]
    · right
      exact ⟨hempty, hlt, by rw [if_neg hlt]⟩

theorem grow_freeSum (zone : easy_mem_zone_t) :
    freeSum (easy_mem_grow zone) = freeSum zone + 2 ^ zone.max_order := by
  have hu := freeSum_update zone (easy_mem_grow zone) zone.max_order
    { free_list := zone.mem_last :: (zone.area zone.max_order).free_list
      nr_free := (zone.area zone.max_order).nr_free + 1 } (grow_max_order zone) (le_refl _)
    (by unfold easy_mem_grow; rfl)
  rw [hu]
  simp only
  ring

theorem grow_free_pages (zone : easy_mem_zone_t) :
    (easy_mem_grow zone).free_pages = zone.free_pages + 2 ^ zone.max_order := by
  unfold easy_mem_grow
  simp [Nat.one_shiftLeft]

theorem grow_last (zone : easy_mem_zone_t) :
    (easy_mem_grow zone).mem_last = zone.mem_last + 2 ^ zone.max_order * 65536 := by
  unfold easy_mem_grow
  simp [Nat.one_shiftLeft, Nat.shiftLeft_eq, EASY_MEM_PAGE_SHIFT]

/-- An allocation that returns a page keeps the invariant and the free-page
counter, with the new block added to the allocated ones. -/
theorem alloc_inv {zone : easy_mem_zone_t} {al : List (Nat × Nat)} {order p : Nat}
    (hinv : Inv zone al []) (hfp : zone.free_pages = freeSum zone)
    (hr : (easy_mem_alloc_pages zone order).2 = some p) :
    Inv (easy_mem_alloc_pages zone order).1 ((p, order) :: al) [] ∧
      (easy_mem_alloc_pages zone order).1.free_pages =
        freeSum (easy_mem_alloc_pages zone order).1 := by
  by_cases hle : order ≤ zone.max_order
  · rcases alloc_cases zone order hinv.cnt hfp hle with
      ⟨n, page, rest, h1, h2, _, h4, h5⟩ | ⟨hempty, hlt, h5⟩ | ⟨_, _, h5⟩
    · rw [h5] at hr ⊢
      simp only [Option.some.injEq] at hr
      subst hr
      refine ⟨rmqueue_take_inv h1 (inv_pop hinv h4 rfl rfl rfl rfl rfl rfl), ?_⟩
      rw [(rmqueue_take_frame _ _ _ _ _).2.2.2.2, rmqueue_take_freeSum _ _ _ _ _ h1 h2, hfp]
    · rw [h5] at hr ⊢
      simp only [Option.some.injEq] at hr
      subst hr
      have hMg : zone.max_order ≤ (easy_mem_grow zone).max_order := by rw [grow_max_order]
      refine ⟨rmqueue_take_inv hle ?_, ?_⟩
      · apply inv_grow hinv hlt
        · dsimp only; exact grow_start zone
        · dsimp only; exact grow_last zone
        · dsimp only; exact grow_end zone
        · dsimp only; exact grow_max_order zone
        · intro k
          dsimp only
          by_cases hk : k = zone.max_order
          · subst hk; simp; exact hempty _ hle (le_refl _)
          · rw [Function.update_noteq hk, grow_area, if_neg hk]
        · intro k
          dsimp only
          by_cases hk : k = zone.max_order
          · subst hk; simp [grow_area]
          · rw [Function.update_noteq hk, grow_area, if_neg hk]
        · dsimp only; exact grow_flags zone
      · rw [(rmqueue_take_frame _ _ _ _ _).2.2.2.2,
          rmqueue_take_freeSum (easy_mem_grow zone) order zone.max_order zone.mem_last [] hle hMg,
          grow_freeSum, grow_free_pages, hfp]
    · rw [h5] at hr; simp at hr
  · rw [alloc_too_big zone order (by omega)] at hr; simp at hr

/-- An allocation that returns null changes nothing, in any zone state. -/
theorem alloc_null_unchanged (zone : easy_mem_zone_t) (order : Nat)
    (hr : (easy_mem_alloc_pages zone order).2 = none) :
    (easy_mem_alloc_pages zone order).1 = zone := by
  by_cases hle : order ≤ zone.max_order
  · rcases rmqueue_cases zone order with ⟨n, page, rest, h1, h2, h3, h4, h5⟩ | ⟨hempty, hnone⟩
    · by_cases hfp : zone.free_pages ≥ ((1 <<< order : Nat) : Int)
      · rw [alloc_of_rmqueue_some zone _ order page hle hfp h5] at hr
        simp at hr
      · have e := alloc_of_rmqueue_none zone order hle (fun h => absurd h hfp)
        rw [e] at hr ⊢
        by_cases hlt : zone.mem_last < zone.mem_end
        · rw [if_pos hlt] at hr
          obtain ⟨m, pg, rs, _, _, _, h⟩ := rmqueue_grow_some zone order hle
          rw [h] at hr; simp at hr
        · rw [if_neg hlt]
    · have e := alloc_of_rmqueue_none zone order hle (fun _ => hnone)
      rw [e] at hr ⊢
      by_cases hlt : zone.mem_last < zone.mem_end
      · rw [if_pos hlt] at hr
        obtain ⟨m, pg, rs, _, _, _, h⟩ := rmqueue_grow_some zone order hle
        rw [h] at hr; simp at hr
      · rw [if_neg hlt]
  · rw [alloc_too_big zone order (by omega)]

/-! ## Coalescing preserves the invariant -/

theorem buddy_ne_self (a k : Nat) : easy_mem_find_buddy_index a k ≠ a := by
  intro h
  unfold easy_mem_find_buddy_index at h
  have h1 : a ^^^ (a ^^^ 1 <<< k) = a ^^^ a := by rw [h]
  rw [← Nat.xor_assoc, Nat.xor_self, Nat.zero_xor, Nat.one_shiftLeft] at h1
  have := Nat.two_pow_pos k
  omega

/-- The buddy and the combined index of an aligned block: both blocks of
the pair make up the aligned block of the next order at the combined
index. -/
theorem buddy_pair (i k : Nat) (h : i % 2 ^ k = 0) :
    easy_mem_find_combined_index i k % 2 ^ (k + 1) = 0 ∧
    easy_mem_find_buddy_index i k % 2 ^ k = 0 ∧
    ((easy_mem_find_combined_index i k = i ∧ easy_mem_find_buddy_index i k = i + 2 ^ k) ∨
     (easy_mem_find_combined_index i k + 2 ^ k = i ∧
      easy_mem_find_buddy_index i k = easy_mem_find_combined_index i k)) := by
  rcases even_or_odd_block i k h with he | ⟨hle, ho⟩
  · obtain ⟨h1, h2⟩ := buddy_of_lower i k he
    rw [h1, h2]
    exact ⟨he, mod_pow_add_half i k he, Or.inl ⟨rfl, rfl⟩⟩
  · have e : i = (i - 2 ^ k) + 2 ^ k := by omega
    obtain ⟨h1, h2⟩ := buddy_of_upper (i - 2 ^ k) k ho
    rw [← e] at h1 h2
    rw [h1, h2]
    exact ⟨ho, mod_pow_of_le _ _ _ ho (by omega), Or.inr ⟨by omega, rfl⟩⟩

/-- The buddy test of `easy_mem_merge_buddy_page` is sound: when the flag
byte at the buddy index equals the order, the buddy is linked on the free
list of that order. -/
theorem Inv.buddy_test {zone : easy_mem_zone_t} {al : List (Nat × Nat)} {p k : Nat}
    (h : Inv zone al [(p, k)]) (hk : k < zone.max_order)
    (hflag : zone.page_flags
      (easy_mem_find_buddy_index (easy_mem_page_to_index zone p) k) = k) :
    page_of_index zone
      (easy_mem_find_buddy_index (easy_mem_page_to_index zone p) k) ∈
        (zone.area k).free_list := by
  have hk12 : k < 12 := by
    have := h.ord; simp only [EASY_MEM_MAX_ORDER] at this; omega
  rcases h.buddy_is_start hk with ⟨r, q, hrk, hq, hidx⟩ | ⟨a, ha, hak, hidx⟩
  · obtain ⟨_, ⟨hptr, _, _⟩, hfl⟩ := h.free_ok r q hq
    rw [hidx, hflag] at hfl
    subst hfl
    rw [← hidx, hptr]
    exact hq
  · exfalso
    obtain ⟨_, _, hfl⟩ := h.used_ok a ha
    rw [hidx, hflag] at hfl
    omega

/-- One round of the loop of `easy_mem_merge_buddy_page`: the free buddy is
unlinked and joined with the block in hand. -/
theorem inv_merge {zone zone3 : easy_mem_zone_t} {al : List (Nat × Nat)} {page k : Nat}
    (hinv : Inv zone al [(page, k)]) (hk : k < zone.max_order)
    (hq : page_of_index zone
      (easy_mem_find_buddy_index (easy_mem_page_to_index zone page) k) ∈
        (zone.area k).free_list)
    (hs : zone3.mem_start = zone.mem_start) (hl : zone3.mem_last = zone.mem_last)
    (he : zone3.mem_end = zone.mem_end) (hm : zone3.max_order = zone.max_order)
    (ha : ∀ r, (zone3.area r).free_list =
      if r = k then (zone.area k).free_list.erase
        (page_of_index zone
          (easy_mem_find_buddy_index (easy_mem_page_to_index zone page) k))
      else (zone.area r).free_list)
    (hc : ∀ r, (zone3.area r).nr_free =
      if r = k then (zone.area k).nr_free - 1 else (zone.area r).nr_free)
    (hf : zone3.page_flags = Function.update zone.page_flags
      (easy_mem_find_buddy_index (easy_mem_page_to_index zone page) k) 0) :
    Inv zone3 al
      [(page_of_index zone
        (easy_mem_find_combined_index (easy_mem_page_to_index zone page) k), k + 1)] := by
  have hfly : (page, k) ∈ [(page, k)] := List.mem_singleton.2 rfl
  obtain ⟨_, hblk⟩ := hinv.fly_ok _ hfly
  simp only at hblk
  obtain ⟨_, hal, hbound⟩ := hblk
  generalize hi : easy_mem_page_to_index zone page = i at *
  generalize hb : easy_mem_find_buddy_index i k = b at *
  generalize hbp : page_of_index zone b = bp at *
  have hbpi : easy_mem_page_to_index zone bp = b := by
    rw [← hbp, page_of_index_eq]; exact index_of_page _ _
  obtain ⟨_, ⟨_, _, hbbound⟩, _⟩ := hinv.free_ok k bp hq
  rw [hbpi] at hbbound
  obtain ⟨hcal, hbal, hcase⟩ := buddy_pair i k hal
  rw [hb] at hbal hcase
  generalize hcomb : easy_mem_find_combined_index i k = c at *
  have hix := page_to_index_congr zone zone3 hs
  have hxi := page_of_index_congr zone zone3 hs
  have hnd := hinv.free_nodup k
  have hsub : ∀ r q, q ∈ (zone3.area r).free_list → q ∈ (zone.area r).free_list := by
    intro r q hq'
    rw [ha] at hq'
    by_cases hr : r = k
    · subst hr; rw [if_pos rfl] at hq'; exact List.mem_of_mem_erase hq'
    · rw [if_neg hr] at hq'; exact hq'
  have hnotb : ∀ r q, q ∈ (zone3.area r).free_list → easy_mem_page_to_index zone q ≠ b := by
    intro r q hq' heq
    have hqz := hsub r q hq'
    by_cases hr : r = k
    · subst hr
      rw [ha, if_pos rfl] at hq'
      have hne : q ≠ bp := ((hnd.mem_erase_iff).1 hq').1
      refine hinv.free_same_disjoint hqz hq hne (j := b) ?_ ?_
      · rw [heq]; exact inBlock_self _ _
      · rw [hbpi]; exact inBlock_self _ _
    · refine hinv.free_diff_disjoint hqz hq hr (j := b) ?_ ?_
      · rw [heq]; exact inBlock_self _ _
      · rw [hbpi]; exact inBlock_self _ _
  have h2 : 2 ^ (k + 1) = 2 ^ k + 2 ^ k := by ring
  have hpos := Nat.two_pow_pos k
  refine
    { ord := by rw [hm]; exact hinv.ord
      small := by rw [hs, he]; exact hinv.small
      le_last := by rw [hs, hl]; exact hinv.le_last
      last_le := by rw [hl, he]; exact hinv.last_le
      last_al := by rw [hs, hl, hm]; exact hinv.last_al
      end_al := by rw [hs, he, hm]; exact hinv.end_al
      free_ok := ?_
      used_ok := ?_
      fly_ok := ?_
      cover := ?_
      merged := ?_
      cnt := ?_ }
  · intro r q hq'
    rw [hix, hm, isBlock_congr zone zone3 hs hl]
    obtain ⟨a1, a2, a3⟩ := hinv.free_ok r q (hsub r q hq')
    refine ⟨a1, a2, ?_⟩
    rw [hf, Function.update_noteq (hnotb r q hq'), a3]
  · intro a ha'
    rw [hix, hm, isBlock_congr zone zone3 hs hl]
    obtain ⟨a1, a2, a3⟩ := hinv.used_ok a ha'
    refine ⟨a1, a2, ?_⟩
    rw [hf, Function.update_noteq, a3]
    intro heq
    refine hinv.free_used_disjoint hq ha' (j := b) ?_ ?_
    · rw [hbpi]; exact inBlock_self _ _
    · rw [heq]; exact inBlock_self _ _
  · intro a ha'
    rw [List.mem_singleton.1 ha']
    simp only
    rw [hm, isBlock_congr zone zone3 hs hl]
    refine ⟨by omega, (isBlock_iff _ _ _).2 ⟨c, by rw [page_of_index_eq], hcal, ?_⟩⟩
    rcases hcase with ⟨e1, e2⟩ | ⟨e1, e2⟩ <;> omega
  · intro j
    have c1 := coverFree_remove zone zone3 k bp hs hm (by omega)
      (fun r hr => by rw [ha, if_neg hr])
      (by rw [ha, if_pos rfl]; exact List.perm_cons_erase hq) j
    have c2 := coverList_congr zone zone3 hs al j
    have c3 := hinv.cover j
    rw [coverList_single, hi] at c3
    have hci : easy_mem_page_to_index zone (page_of_index zone c) = c := by
      rw [page_of_index_eq]; exact index_of_page _ _
    rw [coverList_single, c2, hix, hci, inb_split, npages_congr zone zone3 hs hl]
    rw [hbpi] at c1
    rcases hcase with ⟨e1, e2⟩ | ⟨e1, e2⟩
    · rw [e1, ← e2]; omega
    · rw [e1, ← e2]; omega
  · intro r q hr hq' hbud
    rw [hix, hxi] at hbud
    rw [hm] at hr
    exact hinv.merged r q hr (hsub r q hq') (hsub r _ hbud)
  · intro r
    rw [hc, ha]
    by_cases hr : r = k
    · subst hr
      rw [if_pos rfl, if_pos rfl, List.length_erase_of_mem hq, hinv.cnt r]
      have : 0 < (zone.area r).free_list.length := List.length_pos_of_mem hq
      omega
    · rw [if_neg hr, if_neg hr]; exact hinv.cnt r

/-- The end of `easy_mem_merge_buddy_page`: the block in hand, whose buddy
is not free, is linked at the head of the list of its order. -/
theorem inv_release {zone zone1 : easy_mem_zone_t} {al : List (Nat × Nat)} {page k : Nat}
    (hinv : Inv zone al [(page, k)])
    (hbreak : k < zone.max_order → zone.page_flags
      (easy_mem_find_buddy_index (easy_mem_page_to_index zone page) k) ≠ k)
    (hs : zone1.mem_start = zone.mem_start) (hl : zone1.mem_last = zone.mem_last)
    (he : zone1.mem_end = zone.mem_end) (hm : zone1.max_order = zone.max_order)
    (ha : zone1.area = Function.update zone.area k
      { free_list := page :: (zone.area k).free_list
        nr_free := (zone.area k).nr_free + 1 })
    (hf : zone1.page_flags =
      Function.update zone.page_flags (easy_mem_page_to_index zone page) k) :
    Inv zone1 al [] := by
  have hfly : (page, k) ∈ [(page, k)] := List.mem_singleton.2 rfl
  obtain ⟨hkM, hblk⟩ := hinv.fly_ok _ hfly
  simp only at hblk hkM
  have hptr := hblk.1
  have hix := page_to_index_congr zone zone1 hs
  have hxi := page_of_index_congr zone zone1 hs
  have hlist_k : (zone1.area k).free_list = page :: (zone.area k).free_list := by
    rw [ha]; simp
  have hlist_ne : ∀ r, r ≠ k → zone1.area r = zone.area r := by
    intro r hr; rw [ha]; simp [Function.update_noteq hr]
  have hnotfree : k < zone.max_order → page_of_index zone
      (easy_mem_find_buddy_index (easy_mem_page_to_index zone page) k) ∉
        (zone.area k).free_list := by
    intro hk hmem
    obtain ⟨_, _, hfl⟩ := hinv.free_ok k _ hmem
    rw [page_of_index_eq, index_of_page] at hfl
    exact hbreak hk hfl
  have hold : ∀ r q, q ∈ (zone.area r).free_list →
      easy_mem_page_to_index zone q ≠ easy_mem_page_to_index zone page := by
    intro r q hq heq
    refine hinv.free_fly_disjoint hq hfly (j := easy_mem_page_to_index zone page) ?_
      (inBlock_self _ _)
    rw [heq]; exact inBlock_self _ _
  refine
    { ord := by rw [hm]; exact hinv.ord
      small := by rw [hs, he]; exact hinv.small
      le_last := by rw [hs, hl]; exact hinv.le_last
      last_le := by rw [hl, he]; exact hinv.last_le
      last_al := by rw [hs, hl, hm]; exact hinv.last_al
      end_al := by rw [hs, he, hm]; exact hinv.end_al
      free_ok := ?_
      used_ok := ?_
      fly_ok := ?_
      cover := ?_
      merged := ?_
      cnt := ?_ }
  · intro r q hq
    rw [hix, hm, isBlock_congr zone zone1 hs hl]
    by_cases hr : r = k
    · subst hr
      rw [hlist_k] at hq
      rcases List.mem_cons.1 hq with hqe | hq'
      · rw [hqe]
        refine ⟨hkM, hblk, ?_⟩
        rw [hf]; simp
      · obtain ⟨a1, a2, a3⟩ := hinv.free_ok r q hq'
        refine ⟨a1, a2, ?_⟩
        rw [hf, Function.update_noteq (hold r q hq'), a3]
    · rw [hlist_ne r hr] at hq
      obtain ⟨a1, a2, a3⟩ := hinv.free_ok r q hq
      refine ⟨a1, a2, ?_⟩
      rw [hf, Function.update_noteq (hold r q hq), a3]
  · intro a ha'
    rw [hix, hm, isBlock_congr zone zone1 hs hl]
    obtain ⟨a1, a2, a3⟩ := hinv.used_ok a ha'
    refine ⟨a1, a2, ?_⟩
    rw [hf, Function.update_noteq, a3]
    intro heq
    refine hinv.used_fly_disjoint ha' hfly (j := easy_mem_page_to_index zone page) ?_
      (inBlock_self _ _)
    rw [heq]; exact inBlock_self _ _
  · intro a ha'
    simp at ha'
  · intro j
    have c1 := coverFree_remove zone1 zone k page hs.symm hm.symm (by rw [hm]; exact hkM)
      (fun r hr => by rw [hlist_ne r hr]) (by rw [hlist_k]) j
    have c2 := coverList_congr zone zone1 hs al j
    have c3 := hinv.cover j
    rw [coverList_single] at c3
    rw [coverList_nil, c1, c2, hix, npages_congr zone zone1 hs hl]
    omega
  · intro r q hr hq hbud
    rw [hix, hxi] at hbud
    rw [hm] at hr
    by_cases hrk : r = k
    · subst hrk
      rw [hlist_k] at hq hbud
      rcases List.mem_cons.1 hq with hqe | hq'
      · rw [hqe] at hbud
        rcases List.mem_cons.1 hbud with hbe | hb'
        · exact buddy_ne_self _ _ (page_of_index_inj zone (hbe.trans hptr.symm))
        · exact hnotfree hr hb'
      · rcases List.mem_cons.1 hbud with hbe | hb'
        · have e1 := page_of_index_inj zone (hbe.trans hptr.symm)
          have e2 : easy_mem_page_to_index zone q =
              easy_mem_find_buddy_index (easy_mem_page_to_index zone page) r := by
            rw [← e1, buddy_buddy]
          apply hnotfree hr
          rw [← e2, (hinv.free_ok r q hq').2.1.1]
          exact hq'
        · exact hinv.merged r q hr hq' hb'
    · rw [hlist_ne r hrk] at hq hbud
      exact hinv.merged r q hr hq hbud
  · intro r
    by_cases hr : r = k
    · subst hr
      rw [ha]; simp only [Function.update_same, List.length_cons]
      rw [hinv.cnt r]; push_cast; ring
    · rw [hlist_ne r hr]; exact hinv.cnt r

/-- A release starts by taking the allocated block in hand. -/
theorem inv_unmark {zone : easy_mem_zone_t} {al : List (Nat × Nat)} {p o : Nat}
    (hinv : Inv zone al []) (hmem : (p, o) ∈ al) :
    Inv zone (al.erase (p, o)) [(p, o)] := by
  obtain ⟨a1, a2, _⟩ := hinv.used_ok _ hmem
  refine
    { ord := hinv.ord
      small := hinv.small
      le_last := hinv.le_last
      last_le := hinv.last_le
      last_al := hinv.last_al
      end_al := hinv.end_al
      free_ok := hinv.free_ok
      used_ok := ?_
      fly_ok := ?_
      cover := ?_
      merged := hinv.merged
      cnt := hinv.cnt }
  · intro b hb
    exact hinv.used_ok b (List.mem_of_mem_erase hb)
  · intro b hb
    rw [List.mem_singleton.1 hb]
    exact ⟨a1, a2⟩
  · intro j
    have c3 := hinv.cover j
    rw [coverList_erase zone hmem j, coverList_nil] at c3
    rw [coverList_single]
    simp only at c3
    omega

/-! ## `easy_mem_merge_buddy_page` and `easy_mem_free_pages` -/

theorem merge_round_frame (zone : easy_mem_zone_t) (i k : Nat) :
    (easy_mem_merge_round zone i k).mem_start = zone.mem_start ∧
    (easy_mem_merge_round zone i k).mem_last = zone.mem_last ∧
    (easy_mem_merge_round zone i k).mem_end = zone.mem_end ∧
    (easy_mem_merge_round zone i k).max_order = zone.max_order ∧
    (easy_mem_merge_round zone i k).free_pages = zone.free_pages ∧
    (easy_mem_merge_round zone i k).page_flags =
      Function.update zone.page_flags (easy_mem_find_buddy_index i k) 0 := by
  unfold easy_mem_merge_round easy_list_del
  exact ⟨rfl, rfl, rfl, rfl, rfl, rfl⟩

theorem merge_round_list (zone : easy_mem_zone_t) (i k r : Nat) :
    ((easy_mem_merge_round zone i k).area r).free_list =
      (zone.area r).free_list.erase
        (easy_mem_index_to_page zone (easy_mem_find_buddy_index i k)) := by
  unfold easy_mem_merge_round easy_list_del
  dsimp only
  by_cases hr : r = k
  · subst hr; simp
  · rw [Function.update_noteq hr]

theorem merge_round_nr_free (zone : easy_mem_zone_t) (i k r : Nat) :
    ((easy_mem_merge_round zone i k).area r).nr_free =
      if r = k then (zone.area k).nr_free - 1 else (zone.area r).nr_free := by
  unfold easy_mem_merge_round easy_list_del
  dsimp only
  by_cases hr : r = k
  · subst hr; simp
  · rw [Function.update_noteq hr, if_neg hr]

theorem merge_loop_zero (zone : easy_mem_zone_t) (i page k : Nat) :
    easy_mem_merge_loop 0 zone i page k = (zone, i, page, k) := rfl

theorem merge_loop_merge (fuel : Nat) (zone : easy_mem_zone_t) (i page k : Nat)
    (hlt : k < zone.max_order)
    (hflag : zone.page_flags (easy_mem_find_buddy_index i k) = k) :
    easy_mem_merge_loop (fuel + 1) zone i page k =
      easy_mem_merge_loop fuel (easy_mem_merge_round zone i k)
        (easy_mem_find_combined_index i k)
        (easy_mem_index_to_page (easy_mem_merge_round zone i k)
          (easy_mem_find_combined_index i k)) (k + 1) := by
  rw [easy_mem_merge_loop]
  simp only [hlt, if_true, hflag, ne_eq, not_true_eq_false, if_false]

theorem merge_loop_stop (fuel : Nat) (zone : easy_mem_zone_t) (i page k : Nat)
    (h : k < zone.max_order → zone.page_flags (easy_mem_find_buddy_index i k) ≠ k) :
    easy_mem_merge_loop fuel zone i page k = (zone, i, page, k) := by
  cases fuel with
  | zero => rfl
  | succ f =>
    rw [easy_mem_merge_loop]
    by_cases hlt : k < zone.max_order
    · simp only [hlt, if_true, h hlt, ne_eq, not_false_eq_true]
    · simp only [hlt, if_false]

theorem merge_loop_frame :
    ∀ (fuel : Nat) (zone : easy_mem_zone_t) (i page k : Nat),
      (easy_mem_merge_loop fuel zone i page k).1.mem_start = zone.mem_start ∧
      (easy_mem_merge_loop fuel zone i page k).1.mem_last = zone.mem_last ∧
      (easy_mem_merge_loop fuel zone i page k).1.mem_end = zone.mem_end ∧
      (easy_mem_merge_loop fuel zone i page k).1.max_order = zone.max_order ∧
      (easy_mem_merge_loop fuel zone i page k).1.free_pages = zone.free_pages := by
  intro fuel
  induction fuel with
  | zero => intro zone i page k; exact ⟨rfl, rfl, rfl, rfl, rfl⟩
  | succ f ih =>
    intro zone i page k
    by_cases hstop : k < zone.max_order →
        zone.page_flags (easy_mem_find_buddy_index i k) ≠ k
    · rw [merge_loop_stop _ _ _ _ _ hstop]
      exact ⟨rfl, rfl, rfl, rfl, rfl⟩
    · have hlt : k < zone.max_order := by
        by_contra hc; exact hstop (fun h => absurd h hc)
      have hflag : zone.page_flags (easy_mem_find_buddy_index i k) = k := by
        by_contra hc; exact hstop (fun _ => hc)
      rw [merge_loop_merge _ _ _ _ _ hlt hflag]
      obtain ⟨f1, f2, f3, f4, f5, _⟩ := merge_round_frame zone i k
      obtain ⟨g1, g2, g3, g4, g5⟩ := ih (easy_mem_merge_round zone i k)
        (easy_mem_find_combined_index i k)
        (easy_mem_index_to_page (easy_mem_merge_round zone i k)
          (easy_mem_find_combined_index i k)) (k + 1)
      exact ⟨g1.trans f1, g2.trans f2, g3.trans f3, g4.trans f4, g5.trans f5⟩

theorem freeSum_pointwise (zone zone2 : easy_mem_zone_t) (h : Nat) (d : Int)
    (hm : zone2.max_order = zone.max_order) (hh : h ≤ zone.max_order)
    (ha : ∀ r, (zone2.area r).nr_free =
      if r = h then (zone.area h).nr_free + d else (zone.area r).nr_free) :
    freeSum zone2 = freeSum zone + d * 2 ^ h := by
  unfold freeSum
  have hmem : h ∈ Finset.range (zone.max_order + 1) := Finset.mem_range.2 (by omega)
  rw [hm, ← Finset.add_sum_erase _ _ hmem, ← Finset.add_sum_erase _ _ hmem]
  have hrest : ∀ k ∈ (Finset.range (zone.max_order + 1)).erase h,
      (zone2.area k).nr_free * 2 ^ k = (zone.area k).nr_free * 2 ^ k := by
    intro k hk
    rw [ha, if_neg (Finset.ne_of_mem_erase hk)]
  rw [Finset.sum_congr rfl hrest, ha, if_pos rfl]
  ring

/-- Under the invariant a round of the loop changes `area[k]` only: the
buddy is linked there and nowhere else. -/
theorem merge_round_list_inv {zone : easy_mem_zone_t} {al : List (Nat × Nat)}
    {page k : Nat} (hinv : Inv zone al [(page, k)])
    (hq : page_of_index zone
      (easy_mem_find_buddy_index (easy_mem_page_to_index zone page) k) ∈
        (zone.area k).free_list) (r : Nat) :
    ((easy_mem_merge_round zone (easy_mem_page_to_index zone page) k).area r).free_list =
      if r = k then (zone.area k).free_list.erase
        (page_of_index zone
          (easy_mem_find_buddy_index (easy_mem_page_to_index zone page) k))
      else (zone.area r).free_list := by
  have hb : easy_mem_index_to_page zone
      (easy_mem_find_buddy_index (easy_mem_page_to_index zone page) k) =
      page_of_index zone (easy_mem_find_buddy_index (easy_mem_page_to_index zone page) k) := by
    apply hinv.index_to_page
    have := (hinv.free_ok k _ hq).2.1.2.2
    rw [page_of_index_eq, index_of_page] at this
    have := Nat.two_pow_pos k
    omega
  rw [merge_round_list, hb]
  by_cases hr : r = k
  · subst hr; rw [if_pos rfl]
  · rw [if_neg hr]
    apply List.erase_of_not_mem
    intro hmem
    exact hr (hinv.free_unique_list hmem hq)

theorem merge_round_inv {zone : easy_mem_zone_t} {al : List (Nat × Nat)}
    {page k : Nat} (hinv : Inv zone al [(page, k)]) (hk : k < zone.max_order)
    (hflag : zone.page_flags
      (easy_mem_find_buddy_index (easy_mem_page_to_index zone page) k) = k) :
    Inv (easy_mem_merge_round zone (easy_mem_page_to_index zone page) k) al
      [(page_of_index zone
        (easy_mem_find_combined_index (easy_mem_page_to_index zone page) k), k + 1)] := by
  have hq := hinv.buddy_test hk hflag
  obtain ⟨f1, f2, f3, f4, _, f6⟩ :=
    merge_round_frame zone (easy_mem_page_to_index zone page) k
  exact inv_merge hinv hk hq f1 f2 f3 f4 (merge_round_list_inv hinv hq)
    (merge_round_nr_free zone _ k) f6

/-- The loop of `easy_mem_merge_buddy_page` keeps the invariant; the block
it ends with has no free buddy; the free-page counter is untouched and the
weighted counter sum loses what the block in hand gains. -/
theorem merge_loop_inv {al : List (Nat × Nat)} :
    ∀ (fuel : Nat) (zone : easy_mem_zone_t) (page k : Nat),
      Inv zone al [(page, k)] → zone.max_order ≤ k + fuel →
      Inv (easy_mem_merge_loop fuel zone (easy_mem_page_to_index zone page) page k).1 al
        [((easy_mem_merge_loop fuel zone (easy_mem_page_to_index zone page) page k).2.2.1,
          (easy_mem_merge_loop fuel zone (easy_mem_page_to_index zone page) page k).2.2.2)] ∧
      ((easy_mem_merge_loop fuel zone (easy_mem_page_to_index zone page) page k).2.2.2 <
          zone.max_order →
        (easy_mem_merge_loop fuel zone (easy_mem_page_to_index zone page) page k).1.page_flags
          (easy_mem_find_buddy_index
            (easy_mem_page_to_index zone
              (easy_mem_merge_loop fuel zone (easy_mem_page_to_index zone page) page k).2.2.1)
            (easy_mem_merge_loop fuel zone (easy_mem_page_to_index zone page) page k).2.2.2) ≠
          (easy_mem_merge_loop fuel zone (easy_mem_page_to_index zone page) page k).2.2.2) ∧
      (easy_mem_merge_loop fuel zone (easy_mem_page_to_index zone page) page k).1.free_pages =
        zone.free_pages ∧
      (easy_mem_merge_loop fuel zone (easy_mem_page_to_index zone page) page k).1.mem_start =
        zone.mem_start ∧
      freeSum (easy_mem_merge_loop fuel zone (easy_mem_page_to_index zone page) page k).1 +
          2 ^ (easy_mem_merge_loop fuel zone (easy_mem_page_to_index zone page) page k).2.2.2 =
        freeSum zone + 2 ^ k := by
  intro fuel
  induction fuel with
  | zero =>
    intro zone page k hinv hM
    rw [merge_loop_zero]
    exact ⟨hinv, fun h => by simp only at h; omega, rfl, rfl, rfl⟩
  | succ f ih =>
    intro zone page k hinv hM
    by_cases hstop : k < zone.max_order →
        zone.page_flags (easy_mem_find_buddy_index (easy_mem_page_to_index zone page) k) ≠ k
    · rw [merge_loop_stop _ _ _ _ _ hstop]
      exact ⟨hinv, hstop, rfl, rfl, rfl⟩
    · have hlt : k < zone.max_order := by
        by_contra hc; exact hstop (fun h => absurd h hc)
      have hflag : zone.page_flags
          (easy_mem_find_buddy_index (easy_mem_page_to_index zone page) k) = k := by
        by_contra hc; exact hstop (fun _ => hc)
      rw [merge_loop_merge _ _ _ _ _ hlt hflag]
      obtain ⟨f1, _, _, f4, f5, _⟩ :=
        merge_round_frame zone (easy_mem_page_to_index zone page) k
      have h3 := merge_round_inv hinv hlt hflag
      have hfs := freeSum_pointwise zone
        (easy_mem_merge_round zone (easy_mem_page_to_index zone page) k) k (-1) f4
        (Nat.le_of_lt hlt) (fun r => by rw [merge_round_nr_free]; rfl)
      have hix := page_to_index_congr zone _ f1
      have hxi := page_of_index_congr zone _ f1
      generalize easy_mem_merge_round zone (easy_mem_page_to_index zone page) k = zone3 at *
      generalize easy_mem_find_combined_index (easy_mem_page_to_index zone page) k = c at *
      have hci : easy_mem_page_to_index zone3 (page_of_index zone3 c) = c := by
        rw [page_of_index_eq]; exact index_of_page _ _
      rw [← hxi] at h3
      have hcs : easy_mem_index_to_page zone3 c = page_of_index zone3 c := by
        apply h3.index_to_page
        have := (h3.fly_ok _ (List.mem_singleton.2 rfl)).2.2.2
        simp only at this
        rw [hci] at this
        have := Nat.two_pow_pos (k + 1)
        omega
      rw [hcs]
      have := ih zone3 (page_of_index zone3 c) (k + 1) h3 (by rw [f4]; omega)
      rw [hci] at this
      obtain ⟨g1, g2, g3, g4, g5⟩ := this
      rw [f4, hix] at g2
      refine ⟨g1, g2, by rw [g3, f5], by rw [g4, f1], ?_⟩
      rw [g5, hfs, pow_succ]
      ring

theorem link_free_frame (zone : easy_mem_zone_t) (page k : Nat) :
    (easy_mem_link_free zone page k).mem_start = zone.mem_start ∧
    (easy_mem_link_free zone page k).mem_last = zone.mem_last ∧
    (easy_mem_link_free zone page k).mem_end = zone.mem_end ∧
    (easy_mem_link_free zone page k).max_order = zone.max_order ∧
    (easy_mem_link_free zone page k).free_pages = zone.free_pages ∧
    (easy_mem_link_free zone page k).area = Function.update zone.area k
      { free_list := page :: (zone.area k).free_list
        nr_free := (zone.area k).nr_free + 1 } ∧
    (easy_mem_link_free zone page k).page_flags =
      Function.update zone.page_flags (easy_mem_page_to_index zone page) (0x0f &&& k) := by
  unfold easy_mem_link_free easy_mem_set_page_free
  exact ⟨rfl, rfl, rfl, rfl, rfl, rfl, rfl⟩

theorem link_free_inv {zone : easy_mem_zone_t} {al : List (Nat × Nat)} {page k : Nat}
    (hinv : Inv zone al [(page, k)])
    (hbreak : k < zone.max_order → zone.page_flags
      (easy_mem_find_buddy_index (easy_mem_page_to_index zone page) k) ≠ k) :
    Inv (easy_mem_link_free zone page k) al [] := by
  obtain ⟨f1, f2, f3, f4, _, f6, f7⟩ := link_free_frame zone page k
  have hk : k < 12 := by
    have := (hinv.fly_ok (page, k) (List.mem_singleton.2 rfl)).1
    have := hinv.ord
    simp only [EASY_MEM_MAX_ORDER] at *
    omega
  rw [flag_free_val k hk] at f7
  exact inv_release hinv hbreak f1 f2 f3 f4 f6 f7

theorem merge_buddy_eq (zone : easy_mem_zone_t) (page order : Nat) :
    easy_mem_merge_buddy_page zone page order =
      easy_mem_link_free
        (easy_mem_merge_loop (zone.max_order - order)
          { zone with free_pages := zone.free_pages + (1 <<< order : Nat) }
          (easy_mem_page_to_index zone page) page order).1
        (easy_mem_merge_loop (zone.max_order - order)
          { zone with free_pages := zone.free_pages + (1 <<< order : Nat) }
          (easy_mem_page_to_index zone page) page order).2.2.1
        (easy_mem_merge_loop (zone.max_order - order)
          { zone with free_pages := zone.free_pages + (1 <<< order : Nat) }
          (easy_mem_page_to_index zone page) page order).2.2.2 := rfl

/-- `easy_mem_merge_buddy_page` on a block in hand restores the invariant
and adds the pages of the block to both counters. -/
theorem merge_buddy_inv {zone : easy_mem_zone_t} {al : List (Nat × Nat)} {p o : Nat}
    (hinv : Inv zone al [(p, o)]) :
    Inv (easy_mem_merge_buddy_page zone p o) al [] ∧
      (easy_mem_merge_buddy_page zone p o).free_pages = zone.free_pages + 2 ^ o ∧
      freeSum (easy_mem_merge_buddy_page zone p o) = freeSum zone + 2 ^ o := by
  rw [merge_buddy_eq]
  have hoM := (hinv.fly_ok (p, o) (List.mem_singleton.2 rfl)).1
  simp only at hoM
  have h1 : Inv { zone with free_pages := zone.free_pages + (1 <<< o : Nat) } al [(p, o)] :=
    inv_congr hinv rfl rfl rfl rfl rfl rfl
  obtain ⟨g1, g2, _, _, g5⟩ := merge_loop_inv (zone.max_order - o) _ p o h1
    (by show zone.max_order ≤ o + (zone.max_order - o); omega)
  obtain ⟨m1, _, _, m4, m5⟩ := merge_loop_frame (zone.max_order - o)
    { zone with free_pages := zone.free_pages + (1 <<< o : Nat) }
    (easy_mem_page_to_index zone p) p o
  have e : easy_mem_page_to_index
      { zone with free_pages := zone.free_pages + (1 <<< o : Nat) } =
      easy_mem_page_to_index zone := page_to_index_congr _ _ rfl
  have e2 : freeSum { zone with free_pages := zone.free_pages + (1 <<< o : Nat) } =
      freeSum zone := rfl
  rw [e] at g1 g2 g5
  rw [e2] at g5
  dsimp only at g2 m1 m4 m5
  generalize easy_mem_merge_loop (zone.max_order - o)
    { zone with free_pages := zone.free_pages + (1 <<< o : Nat) }
    (easy_mem_page_to_index zone p) p o = r at *
  have hix := page_to_index_congr zone r.1 m1
  rw [← m4, ← hix] at g2
  obtain ⟨f1, f2, f3, f4, f5, f6, _⟩ := link_free_frame r.1 r.2.2.1 r.2.2.2
  refine ⟨link_free_inv g1 g2, ?_, ?_⟩
  · rw [f5, m5, Nat.one_shiftLeft]; push_cast; ring
  · have hod := (g1.fly_ok _ (List.mem_singleton.2 rfl)).1
    have hu := freeSum_update r.1 (easy_mem_link_free r.1 r.2.2.1 r.2.2.2) r.2.2.2 _ f4 hod f6
    rw [hu, ← g5]
    simp only
    ring

/-- A release of an allocated block passes both tests of
`easy_mem_free_pages` and coalesces under the order the block was allocated
with. -/
theorem free_eq_merge {zone : easy_mem_zone_t} {al : List (Nat × Nat)} {p o : Nat}
    (hinv : Inv zone al []) (hmem : (p, o) ∈ al) :
    easy_mem_free_pages zone p = easy_mem_merge_buddy_page zone p o := by
  obtain ⟨hoM, hblk, hflag⟩ := hinv.used_ok _ hmem
  simp only at hoM hblk hflag
  have ho : o < 12 := by
    have := hinv.ord; simp only [EASY_MEM_MAX_ORDER] at this; omega
  obtain ⟨i, hp, _, hb⟩ := (isBlock_iff _ _ _).1 hblk
  have hpos := Nat.two_pow_pos o
  have hrange : ¬ (p < zone.mem_start ∨
      (p : Int) > (zone.mem_last : Int) - (EASY_MEM_PAGE_SIZE : Int)) := by
    have hnp : (i + 1) * 65536 ≤ zone.mem_last - zone.mem_start := by
      have h1 : i + 1 ≤ npages zone := by omega
      unfold npages at h1
      rw [page_size_val] at h1
      have := Nat.div_mul_le_self (zone.mem_last - zone.mem_start) 65536
      have := Nat.mul_le_mul_right 65536 h1
      omega
    rw [page_size_val]
    have := hinv.le_last
    push_cast
    omega
  unfold easy_mem_free_pages
  rw [if_neg hrange]
  simp only [hflag]
  rw [if_pos (flag_used_bit o ho), flag_used_order o ho]

/-- The release of an allocated block keeps the invariant and the free-page
counter. -/
theorem free_inv {zone : easy_mem_zone_t} {al : List (Nat × Nat)} {p o : Nat}
    (hinv : Inv zone al []) (hfp : zone.free_pages = freeSum zone) (hmem : (p, o) ∈ al) :
    Inv (easy_mem_free_pages zone p) (al.erase (p, o)) [] ∧
      (easy_mem_free_pages zone p).free_pages = freeSum (easy_mem_free_pages zone p) := by
  rw [free_eq_merge hinv hmem]
  obtain ⟨h1, h2, h3⟩ := merge_buddy_inv (inv_unmark hinv hmem)
  exact ⟨h1, by rw [h2, h3, hfp]⟩

/-! ## The fresh zone and the reachable states -/

theorem zone_size_loop_pow (max_size : Int) :
    ∀ (fuel size order : Nat), size = 65536 * 2 ^ order →
      (zone_size_loop fuel max_size size order).1 =
        65536 * 2 ^ (zone_size_loop fuel max_size size order).2 := by
  intro fuel
  induction fuel with
  | zero => intro size order h; exact h
  | succ f ih =>
    intro size order h
    rw [zone_size_loop]
    split
    · apply ih
      rw [Nat.shiftLeft_eq, h, pow_succ]; ring
    · exact h

theorem zone_size_loop_le (max_size : Int) (B : Nat) (hB : max_size ≤ 65536 * 2 ^ B) :
    ∀ (fuel size order : Nat), size = 65536 * 2 ^ order → order ≤ B →
      (zone_size_loop fuel max_size size order).2 ≤ B := by
  intro fuel
  induction fuel with
  | zero => intro size order _ h; exact h
  | succ f ih =>
    intro size order h hle
    rw [zone_size_loop]
    split
    · rename_i hlt
      apply ih
      · rw [Nat.shiftLeft_eq, h, pow_succ]; ring
      · by_contra hc
        have hBo : B = order := by omega
        subst hBo
        rw [h] at hlt
        push_cast at hlt
        omega
    · exact hle

/-- The fields of the zone that `easy_mem_zone_create` returns. -/
theorem create_fields {zone_bytes : Nat} {max_size : Int} {memptr : Nat} {flags : Nat → Nat}
    {zone0 : easy_mem_zone_t}
    (h0 : easy_mem_zone_create zone_bytes max_size (some memptr) flags = some zone0) :
    zone0.mem_last = zone0.mem_start ∧
    zone0.mem_end = zone0.mem_start + (zone_size_loop 64 max_size EASY_MEM_PAGE_SIZE 0).1 ∧
    zone0.max_order =
      (if (zone_size_loop 64 max_size EASY_MEM_PAGE_SIZE 0).2 ≥ EASY_MEM_MAX_ORDER then
        EASY_MEM_MAX_ORDER - 1 else (zone_size_loop 64 max_size EASY_MEM_PAGE_SIZE 0).2) ∧
    (∀ k, zone0.area k = { free_list := [], nr_free := 0 }) ∧
    zone0.free_pages = 0 ∧
    zone0.page_flags = flags ∧
    zone0.mem_start =
      easy_align
        (memptr + easy_align
          ((zone_size_loop 64 max_size EASY_MEM_PAGE_SIZE 0).1 / EASY_MEM_PAGE_SIZE + zone_bytes)
          EASY_MEM_PAGE_SIZE)
        (easy_max
          (easy_align
            ((zone_size_loop 64 max_size EASY_MEM_PAGE_SIZE 0).1 / EASY_MEM_PAGE_SIZE +
              zone_bytes) EASY_MEM_PAGE_SIZE)
          (easy_min (1 <<< (EASY_MEM_MAX_ORDER + EASY_MEM_PAGE_SHIFT - 1))
            (zone_size_loop 64 max_size EASY_MEM_PAGE_SIZE 0).1)) := by
  unfold easy_mem_zone_create at h0
  simp only [Option.some.injEq] at h0
  subst h0
  exact ⟨rfl, rfl, rfl, fun _ => rfl, rfl, rfl, rfl⟩

/-- A zone created for at most 2 GiB has an arena of at most 2 GiB. -/
theorem create_small {zone_bytes : Nat} {max_size : Int} {memptr : Nat} {flags : Nat → Nat}
    {zone0 : easy_mem_zone_t}
    (h0 : easy_mem_zone_create zone_bytes max_size (some memptr) flags = some zone0)
    (hsize : max_size ≤ 2 ^ 31) :
    zone0.mem_end - zone0.mem_start ≤ 2 ^ 31 := by
  obtain ⟨_, f2, _⟩ := create_fields h0
  have hpow := zone_size_loop_pow max_size 64 EASY_MEM_PAGE_SIZE 0 (by decide)
  have hle := zone_size_loop_le max_size 15 (by norm_num; exact hsize) 64 EASY_MEM_PAGE_SIZE 0
    (by decide) (by omega)
  generalize (zone_size_loop 64 max_size EASY_MEM_PAGE_SIZE 0).1 = size at *
  generalize (zone_size_loop 64 max_size EASY_MEM_PAGE_SIZE 0).2 = order at *
  have h2 : 2 ^ order ≤ 2 ^ 15 := Nat.pow_le_pow_right (by norm_num) hle
  rw [f2, hpow]
  norm_num at h2 ⊢
  omega

/-- A zone of one top block has an arena of at most 2 GiB. -/
theorem one_block_small {zone_bytes : Nat} {max_size : Int} {memptr : Nat} {flags : Nat → Nat}
    {zone0 : easy_mem_zone_t}
    (h0 : easy_mem_zone_create zone_bytes max_size (some memptr) flags = some zone0)
    (hone : zone0.mem_end - zone0.mem_start = 2 ^ zone0.max_order * EASY_MEM_PAGE_SIZE) :
    zone0.mem_end - zone0.mem_start ≤ 2 ^ 31 := by
  obtain ⟨_, _, f3, _⟩ := create_fields h0
  have hM : zone0.max_order ≤ 11 := by
    rw [f3]; simp only [EASY_MEM_MAX_ORDER]; split <;> omega
  have h2 : 2 ^ zone0.max_order ≤ 2 ^ 11 := Nat.pow_le_pow_right (by norm_num) hM
  rw [hone, page_size_val]
  norm_num at h2 ⊢
  omega

/-- A fresh zone of at most 2 GiB satisfies the invariant, with nothing
allocated. -/
theorem create_inv {zone_bytes : Nat} {max_size : Int} {memptr : Nat} {flags : Nat → Nat}
    {zone0 : easy_mem_zone_t}
    (h0 : easy_mem_zone_create zone_bytes max_size (some memptr) flags = some zone0)
    (hsmall : zone0.mem_end - zone0.mem_start ≤ 2 ^ 31) :
    Inv zone0 [] [] ∧ zone0.free_pages = freeSum zone0 := by
  obtain ⟨f1, f2, f3, f4, f5, _, _⟩ := create_fields h0
  have hpow := zone_size_loop_pow max_size 64 EASY_MEM_PAGE_SIZE 0 (by decide)
  generalize (zone_size_loop 64 max_size EASY_MEM_PAGE_SIZE 0).1 = size at *
  generalize (zone_size_loop 64 max_size EASY_MEM_PAGE_SIZE 0).2 = order at *
  have hM : zone0.max_order < 12 ∧ zone0.max_order ≤ order := by
    rw [f3]; simp only [EASY_MEM_MAX_ORDER]; split <;> omega
  have hnp : npages zone0 = 0 := by unfold npages; rw [f1]; simp
  have hcf : ∀ j, coverFree zone0 j = 0 := by
    intro j; unfold coverFree
    apply Finset.sum_eq_zero
    intro k _; rw [f4]; rfl
  constructor
  · refine
      { ord := hM.1
        small := hsmall
        le_last := by rw [f1]
        last_le := by rw [f1, f2]; omega
        last_al := by rw [f1]; simp
        end_al := ?_
        free_ok := ?_
        used_ok := ?_
        fly_ok := ?_
        cover := ?_
        merged := ?_
        cnt := ?_ }
    · rw [f2, hpow, page_size_val]
      have : zone0.mem_start + 65536 * 2 ^ order - zone0.mem_start = 65536 * 2 ^ order := by
        omega
      rw [this]
      exact Nat.mul_dvd_mul_left _ (pow_dvd_pow 2 hM.2)
    · intro k p hp; rw [f4] at hp; simp at hp
    · intro b hb; simp at hb
    · intro b hb; simp at hb
    · intro j; rw [hcf, coverList_nil, hnp]; simp
    · intro k p _ hp; rw [f4] at hp; simp at hp
    · intro k; rw [f4]; simp
  · rw [f5]; unfold freeSum
    symm
    apply Finset.sum_eq_zero
    intro k _; rw [f4]; simp

/-- Every reachable state of a zone of at most 2 GiB satisfies the invariant and has the free-page
counter equal to the weighted sum of the area counters. -/
theorem reach_inv {zone_bytes : Nat} {max_size : Int} {memptr : Nat} {flags : Nat → Nat}
    {zone0 zone : easy_mem_zone_t} {al : List (Nat × Nat)}
    (h0 : easy_mem_zone_create zone_bytes max_size (some memptr) flags = some zone0)
    (hsmall : zone0.mem_end - zone0.mem_start ≤ 2 ^ 31)
    (hr : Reach zone0 zone al) :
    Inv zone al [] ∧ zone.free_pages = freeSum zone := by
  induction hr with
  | init => exact create_inv h0 hsmall
  | alloc_page order p _ hp ih => exact alloc_inv ih.1 ih.2 hp
  | alloc_null order _ hp ih => rw [alloc_null_unchanged _ _ hp]; exact ih
  | free_page p o _ hmem ih => exact free_inv ih.1 ih.2 hmem

theorem alloc_frame (zone : easy_mem_zone_t) (order : Nat) :
    (easy_mem_alloc_pages zone order).1.mem_start = zone.mem_start ∧
    (easy_mem_alloc_pages zone order).1.mem_end = zone.mem_end ∧
    (easy_mem_alloc_pages zone order).1.max_order = zone.max_order := by
  by_cases hle : order ≤ zone.max_order
  · have key : ∀ z : easy_mem_zone_t, (∃ n page rest,
        easy_mem_alloc_pages zone order = (easy_mem_rmqueue_take z order n page rest, some page)) →
        z.mem_start = zone.mem_start → z.mem_end = zone.mem_end →
        z.max_order = zone.max_order →
        (easy_mem_alloc_pages zone order).1.mem_start = zone.mem_start ∧
        (easy_mem_alloc_pages zone order).1.mem_end = zone.mem_end ∧
        (easy_mem_alloc_pages zone order).1.max_order = zone.max_order := by
      intro z ⟨n, page, rest, h⟩ e1 e2 e3
      rw [h]
      obtain ⟨g1, _, g3, g4, _⟩ := rmqueue_take_frame z order n page rest
      exact ⟨g1.trans e1, g3.trans e2, g4.trans e3⟩
    have hgrow : zone.mem_last < zone.mem_end →
        easy_mem_alloc_pages zone order =
          (if zone.mem_last < zone.mem_end then easy_mem_rmqueue (easy_mem_grow zone) order
            else (zone, none)) →
        (easy_mem_alloc_pages zone order).1.mem_start = zone.mem_start ∧
        (easy_mem_alloc_pages zone order).1.mem_end = zone.mem_end ∧
        (easy_mem_alloc_pages zone order).1.max_order = zone.max_order := by
      intro hlt e
      rw [if_pos hlt] at e
      obtain ⟨m, pg, rs, _, _, _, h⟩ := rmqueue_grow_some zone order hle
      exact key (easy_mem_grow zone) ⟨m, pg, rs, e.trans h⟩ (grow_start zone) (grow_end zone)
        (grow_max_order zone)
    rcases rmqueue_cases zone order with ⟨n, page, rest, h1, h2, h3, h4, h5⟩ | ⟨hempty, hnone⟩
    · by_cases hfp : zone.free_pages ≥ ((1 <<< order : Nat) : Int)
      · exact key zone ⟨n, page, rest, alloc_of_rmqueue_some zone _ order page hle hfp h5⟩
          rfl rfl rfl
      · have e := alloc_of_rmqueue_none zone order hle (fun h => absurd h hfp)
        by_cases hlt : zone.mem_last < zone.mem_end
        · exact hgrow hlt e
        · rw [e, if_neg hlt]; exact ⟨rfl, rfl, rfl⟩
    · have e := alloc_of_rmqueue_none zone order hle (fun _ => hnone)
      by_cases hlt : zone.mem_last < zone.mem_end
      · exact hgrow hlt e
      · rw [e, if_neg hlt]; exact ⟨rfl, rfl, rfl⟩
  · rw [alloc_too_big zone order (by omega)]; exact ⟨rfl, rfl, rfl⟩

theorem free_frame (zone : easy_mem_zone_t) (p : Nat) :
    (easy_mem_free_pages zone p).mem_start = zone.mem_start ∧
    (easy_mem_free_pages zone p).mem_end = zone.mem_end ∧
    (easy_mem_free_pages zone p).max_order = zone.max_order := by
  unfold easy_mem_free_pages
  split
  · exact ⟨rfl, rfl, rfl⟩
  · dsimp only
    split
    · rw [merge_buddy_eq]
      obtain ⟨f1, _, f3, f4, _⟩ := link_free_frame
        (easy_mem_merge_loop (zone.max_order - (zone.page_flags
            (easy_mem_page_to_index zone p) &&& 0x0f))
          { zone with free_pages := zone.free_pages +
              (1 <<< (zone.page_flags (easy_mem_page_to_index zone p) &&& 0x0f) : Nat) }
          (easy_mem_page_to_index zone p) p
          (zone.page_flags (easy_mem_page_to_index zone p) &&& 0x0f)).1
        (easy_mem_merge_loop (zone.max_order - (zone.page_flags
            (easy_mem_page_to_index zone p) &&& 0x0f))
          { zone with free_pages := zone.free_pages +
              (1 <<< (zone.page_flags (easy_mem_page_to_index zone p) &&& 0x0f) : Nat) }
          (easy_mem_page_to_index zone p) p
          (zone.page_flags (easy_mem_page_to_index zone p) &&& 0x0f)).2.2.1
        (easy_mem_merge_loop (zone.max_order - (zone.page_flags
            (easy_mem_page_to_index zone p) &&& 0x0f))
          { zone with free_pages := zone.free_pages +
              (1 <<< (zone.page_flags (easy_mem_page_to_index zone p) &&& 0x0f) : Nat) }
          (easy_mem_page_to_index zone p) p
          (zone.page_flags (easy_mem_page_to_index zone p) &&& 0x0f)).2.2.2
      obtain ⟨m1, _, m3, m4, _⟩ := merge_loop_frame
        (zone.max_order - (zone.page_flags (easy_mem_page_to_index zone p) &&& 0x0f))
        { zone with free_pages := zone.free_pages +
            (1 <<< (zone.page_flags (easy_mem_page_to_index zone p) &&& 0x0f) : Nat) }
        (easy_mem_page_to_index zone p) p
        (zone.page_flags (easy_mem_page_to_index zone p) &&& 0x0f)
      exact ⟨f1.trans m1, f3.trans m3, f4.trans m4⟩
    · exact ⟨rfl, rfl, rfl⟩

/-- The bounds and the top order never change after creation. -/
theorem reach_frame {zone0 zone : easy_mem_zone_t} {al : List (Nat × Nat)}
    (hr : Reach zone0 zone al) :
    zone.mem_start = zone0.mem_start ∧ zone.mem_end = zone0.mem_end ∧
      zone.max_order = zone0.max_order := by
  induction hr with
  | init => exact ⟨rfl, rfl, rfl⟩
  | alloc_page order p _ _ ih =>
    obtain ⟨a, b, c⟩ := alloc_frame _ order
    exact ⟨a.trans ih.1, b.trans ih.2.1, c.trans ih.2.2⟩
  | alloc_null order _ _ ih =>
    obtain ⟨a, b, c⟩ := alloc_frame _ order
    exact ⟨a.trans ih.1, b.trans ih.2.1, c.trans ih.2.2⟩
  | free_page p o _ _ ih =>
    obtain ⟨a, b, c⟩ := free_frame _ p
    exact ⟨a.trans ih.1, b.trans ih.2.1, c.trans ih.2.2⟩

/-! ## Release after allocation -/

/-- Releasing a block right after it was split off undoes the split: the
loop of `easy_mem_merge_buddy_page` absorbs the halves that
`easy_mem_expand` had put on the lists `k .. n - 1` and stops at order `n`. -/
theorem merge_loop_undo {al : List (Nat × Nat)} {p order n : Nat} {rest : List Nat} :
    ∀ (d k fuel : Nat) (w : easy_mem_zone_t), k + d = n → order ≤ k →
      n ≤ w.max_order → w.max_order ≤ k + fuel → Inv w al [(p, k)] →
      easy_mem_page_to_index w p % 2 ^ n = 0 →
      (∀ j, k ≤ j → j < n → (w.area j).free_list = [p + 2 ^ j * 65536]) →
      (∀ j, order ≤ j → j < k → (w.area j).free_list = []) →
      (w.area n).free_list = rest →
      (n < w.max_order → page_of_index w
        (easy_mem_find_buddy_index (easy_mem_page_to_index w p) n) ∉ rest) →
      ∃ w', easy_mem_merge_loop fuel w (easy_mem_page_to_index w p) p k =
          (w', easy_mem_page_to_index w p, p, n) ∧
        (∀ j, order ≤ j → j < n → (w'.area j).free_list = []) ∧
        (w'.area n).free_list = rest := by
  intro d
  induction d with
  | zero =>
    intro k fuel w hkn hok hnM hfuel hinv hal hup hlow hn hcoal
    have hk : k = n := by omega
    subst hk
    refine ⟨w, ?_, hlow, hn⟩
    apply merge_loop_stop
    intro hlt hflag
    have := hinv.buddy_test hlt hflag
    rw [hn] at this
    exact hcoal hlt this
  | succ d ih =>
    intro k fuel w hkn hok hnM hfuel hinv hal hup hlow hn hcoal
    have hlt : k < w.max_order := by omega
    obtain ⟨f, rfl⟩ : ∃ f, fuel = f + 1 := ⟨fuel - 1, by omega⟩
    obtain ⟨_, hptr, _, _⟩ := hinv.fly_ok (p, k) (List.mem_singleton.2 rfl)
    simp only at hptr
    have heven : easy_mem_page_to_index w p % 2 ^ (k + 1) = 0 :=
      mod_pow_of_le _ _ _ hal (by omega)
    obtain ⟨hbud, hcomb⟩ := buddy_of_lower _ k heven
    have hbp : page_of_index w (easy_mem_page_to_index w p + 2 ^ k) =
        p + 2 ^ k * 65536 := by
      rw [page_of_index_eq] at hptr ⊢
      omega
    have hmem : p + 2 ^ k * 65536 ∈ (w.area k).free_list := by
      rw [hup k (le_refl _) (by omega)]; exact List.mem_singleton.2 rfl
    have hflag : w.page_flags
        (easy_mem_find_buddy_index (easy_mem_page_to_index w p) k) = k := by
      have := (hinv.free_ok k _ hmem).2.2
      rw [← hbp, page_of_index_eq, index_of_page] at this
      rw [hbud]; exact this
    rw [merge_loop_merge _ _ _ _ _ hlt hflag]
    have hq := hinv.buddy_test hlt hflag
    have h3 := merge_round_inv hinv hlt hflag
    have hlist := merge_round_list_inv hinv hq
    obtain ⟨f1, _, _, f4, _, _⟩ := merge_round_frame w (easy_mem_page_to_index w p) k
    have hix := page_to_index_congr w _ f1
    have hxi := page_of_index_congr w _ f1
    have hcs : easy_mem_index_to_page
        (easy_mem_merge_round w (easy_mem_page_to_index w p) k) (easy_mem_page_to_index w p) =
        page_of_index w (easy_mem_page_to_index w p) := by
      rw [index_to_page_congr w _ f1]
      apply hinv.index_to_page
      have := (hinv.fly_ok (p, k) (List.mem_singleton.2 rfl)).2.2.2
      simp only at this
      have := Nat.two_pow_pos k
      omega
    rw [hcomb, hptr] at h3
    rw [hcomb, hcs, hptr]
    rw [hbud, hbp] at hlist
    generalize easy_mem_merge_round w (easy_mem_page_to_index w p) k = w3 at *
    have := ih (k + 1) f w3 (by omega) (by omega) (by rw [f4]; exact hnM)
      (by rw [f4]; omega) h3 (by rw [hix]; exact hal)
      (fun j a b => by rw [hlist, if_neg (by omega)]; exact hup j (by omega) b)
      (fun j a b => by
        rw [hlist]
        by_cases hj : j = k
        · subst hj
          rw [if_pos rfl, hup j (le_refl _) (by omega)]
          simp
        · rw [if_neg hj]; exact hlow j a (by omega))
      (by rw [hlist, if_neg (by omega)]; exact hn)
      (by rw [f4, hix, hxi]; exact hcoal)
    rw [hix] at this
    exact this

/-- Where an allocated page comes from: the zone itself or the zone after
the growth step, with the head of `area[n]` taken and the lists below `n`
empty; the buddy of the block taken is not on the rest of the list. -/
theorem alloc_origin {zone : easy_mem_zone_t} {al : List (Nat × Nat)} {order p : Nat}
    (hinv : Inv zone al []) (hfp : zone.free_pages = freeSum zone)
    (hp : (easy_mem_alloc_pages zone order).2 = some p) :
    ∃ zb n rest, order ≤ n ∧ n ≤ zone.max_order ∧
      (easy_mem_alloc_pages zone order).1 = easy_mem_rmqueue_take zb order n p rest ∧
      (∀ k, order ≤ k → k < n → (zb.area k).free_list = []) ∧
      (n < zone.max_order → page_of_index zone
        (easy_mem_find_buddy_index (easy_mem_page_to_index zone p) n) ∉ rest) ∧
      easy_mem_page_to_index zone p % 2 ^ n = 0 := by
  by_cases hle : order ≤ zone.max_order
  · rcases alloc_cases zone order hinv.cnt hfp hle with
      ⟨n, page, rest, h1, h2, h3, h4, h5⟩ | ⟨hempty, hlt, h5⟩ | ⟨_, _, h5⟩
    · rw [h5] at hp ⊢
      simp only [Option.some.injEq] at hp
      subst hp
      have hpm : page ∈ (zone.area n).free_list := by rw [h4]; exact List.mem_cons_self _ _
      refine ⟨zone, n, rest, h1, h2, rfl, h3, ?_, (hinv.free_ok n page hpm).2.1.2.1⟩
      intro hn hmem
      apply hinv.merged n page hn hpm
      rw [h4]; exact List.mem_cons_of_mem _ hmem
    · rw [h5] at hp ⊢
      simp only [Option.some.injEq] at hp
      subst hp
      refine ⟨easy_mem_grow zone, zone.max_order, [], hle, le_refl _, rfl, ?_, ?_, ?_⟩
      · intro k a b
        rw [grow_area, if_neg (by omega)]
        exact hempty k a (by omega)
      · intro hn; omega
      · obtain ⟨t, ht⟩ := hinv.last_al
        rw [page_to_index_eq, ht, page_size_val, Nat.mul_assoc,
          Nat.mul_div_cancel_left _ (by norm_num : 0 < 65536)]
        exact Nat.mul_mod_right _ _
    · rw [h5] at hp; simp at hp
  · rw [alloc_too_big zone order (by omega)] at hp; simp at hp

/-- Round trip: after a successful allocation and the release of the page,
the same request returns the same page. -/
theorem alloc_free_alloc {zone : easy_mem_zone_t} {al : List (Nat × Nat)} {order p : Nat}
    (hinv : Inv zone al []) (hfp : zone.free_pages = freeSum zone)
    (hp : (easy_mem_alloc_pages zone order).2 = some p) :
    (easy_mem_alloc_pages
      (easy_mem_free_pages (easy_mem_alloc_pages zone order).1 p) order).2 = some p := by
  obtain ⟨hinv1, hfp1⟩ := alloc_inv hinv hfp hp
  have hmem : (p, order) ∈ (p, order) :: al := List.mem_cons_self _ _
  obtain ⟨hinv2, hfp2⟩ := free_inv hinv1 hfp1 hmem
  obtain ⟨zb, n, rest, h1, h2, h3, h4, h5, h6⟩ := alloc_origin hinv hfp hp
  obtain ⟨a1, _, a3⟩ := alloc_frame zone order
  -- the free lists after the allocation
  have hl1 : ∀ j, order ≤ j → j < n →
      ((easy_mem_alloc_pages zone order).1.area j).free_list = [p + 2 ^ j * 65536] := by
    intro j a b
    rw [h3, rmqueue_take_area, if_pos ⟨a, b⟩, h4 j a b]
  have hl2 : ((easy_mem_alloc_pages zone order).1.area n).free_list = rest := by
    rw [h3, rmqueue_take_area, if_neg (by omega), if_pos rfl]
  have hix := page_to_index_congr zone _ a1
  have hxi := page_of_index_congr zone _ a1
  have hunm := inv_unmark hinv1 hmem
  rw [free_eq_merge hinv1 hmem, merge_buddy_eq] at hinv2 hfp2 ⊢
  generalize (easy_mem_alloc_pages zone order).1 = zA at *
  -- the loop of the release undoes the split
  have hz1 : Inv { zA with free_pages := zA.free_pages + (1 <<< order : Nat) }
      (((p, order) :: al).erase (p, order)) [(p, order)] :=
    inv_congr hunm rfl rfl rfl rfl rfl rfl
  obtain ⟨w, hw, hw1, hw2⟩ := merge_loop_undo (n - order) order (zA.max_order - order)
    { zA with free_pages := zA.free_pages + (1 <<< order : Nat) }
    (by omega) (le_refl _) (by show n ≤ zA.max_order; omega)
    (by show zA.max_order ≤ order + (zA.max_order - order); omega) hz1
    (by show easy_mem_page_to_index zA p % 2 ^ n = 0; rw [hix]; exact h6)
    (fun j a b => hl1 j a b) (fun j a b => by omega) hl2
    (by
      intro hn
      show page_of_index zA
        (easy_mem_find_buddy_index (easy_mem_page_to_index zA p) n) ∉ rest
      rw [hix, hxi]
      exact h5 (by rw [← a3]; exact hn))
  have hw' : easy_mem_merge_loop (zA.max_order - order)
      { zA with free_pages := zA.free_pages + (1 <<< order : Nat) }
      (easy_mem_page_to_index zA p) p order = (w, easy_mem_page_to_index zA p, p, n) := hw
  obtain ⟨_, _, _, m4, _⟩ := merge_loop_frame (zA.max_order - order)
    { zA with free_pages := zA.free_pages + (1 <<< order : Nat) }
    (easy_mem_page_to_index zA p) p order
  rw [hw'] at hinv2 hfp2 m4 ⊢
  dsimp only at hinv2 hfp2 m4 ⊢
  obtain ⟨_, _, _, f4, _, f6, _⟩ := link_free_frame w p n
  have hM2 : (easy_mem_link_free w p n).max_order = zone.max_order := by
    rw [f4, m4, a3]
  have hln : ((easy_mem_link_free w p n).area n).free_list = p :: rest := by
    rw [f6, Function.update_same, hw2]
  have hlb : ∀ j, order ≤ j → j < n → ((easy_mem_link_free w p n).area j).free_list = [] := by
    intro j a b
    rw [f6, Function.update_noteq (by omega)]
    exact hw1 j a b
  generalize easy_mem_link_free w p n = zF at *
  rcases alloc_cases zF order hinv2.cnt hfp2 (by rw [hM2]; omega) with
    ⟨n', page', rest', c1, c2, c3, c4, c5⟩ | ⟨hempty, _, _⟩ | ⟨hempty, _, _⟩
  · rw [c5]
    have hnn : n' = n := by
      by_contra hne
      rcases Nat.lt_or_gt_of_ne hne with hlt | hgt
      · rw [hlb n' c1 hlt] at c4; simp at c4
      · rw [c3 n h1 hgt] at hln; simp at hln
    subst hnn
    rw [hln] at c4
    simp only [List.cons.injEq] at c4
    rw [c4.1]
  · have := hempty n h1 (by rw [hM2]; exact h2)
    rw [hln] at this; simp at this
  · have := hempty n h1 (by rw [hM2]; exact h2)
    rw [hln] at this; simp at this

/-! ## Alignment of the arena -/

/-- For a request within the documented limit of 2 GiB and a zone header of
at most half a page, `mem_start` is a multiple of the size of a top block. -/
theorem create_aligned {zone_bytes : Nat} {max_size : Int} {memptr : Nat} {flags : Nat → Nat}
    {zone0 : easy_mem_zone_t} (hsize : max_size ≤ 2 ^ 31) (hzb : zone_bytes ≤ 32768)
    (h0 : easy_mem_zone_create zone_bytes max_size (some memptr) flags = some zone0) :
    zone0.mem_start % (2 ^ zone0.max_order * 65536) = 0 := by
  obtain ⟨_, _, f3, _, _, _, f7⟩ := create_fields h0
  have hpow := zone_size_loop_pow max_size 64 EASY_MEM_PAGE_SIZE 0 (by decide)
  have hle := zone_size_loop_le max_size 15 (by norm_num; exact hsize) 64 EASY_MEM_PAGE_SIZE 0
    (by decide) (by omega)
  generalize (zone_size_loop 64 max_size EASY_MEM_PAGE_SIZE 0).1 = size at *
  generalize (zone_size_loop 64 max_size EASY_MEM_PAGE_SIZE 0).2 = order at *
  subst hpow
  have hP1 : 1 ≤ 2 ^ order := Nat.two_pow_pos order
  have hP2 : 2 ^ order ≤ 2 ^ 15 := Nat.pow_le_pow_right (by norm_num) hle
  have hdiv : 65536 * 2 ^ order / EASY_MEM_PAGE_SIZE = 2 ^ order := by
    rw [page_size_val]; exact Nat.mul_div_cancel_left _ (by norm_num)
  have hps : easy_align (2 ^ order + zone_bytes) EASY_MEM_PAGE_SIZE = 65536 := by
    unfold easy_align
    rw [page_size_val]
    generalize 2 ^ order = P at *
    omega
  have ha0 : 1 <<< (EASY_MEM_MAX_ORDER + EASY_MEM_PAGE_SHIFT - 1) = 65536 * 2 ^ 11 := by
    decide
  have hasize : easy_max
      (easy_align (65536 * 2 ^ order / EASY_MEM_PAGE_SIZE + zone_bytes) EASY_MEM_PAGE_SIZE)
      (easy_min (1 <<< (EASY_MEM_MAX_ORDER + EASY_MEM_PAGE_SHIFT - 1)) (65536 * 2 ^ order)) =
      2 ^ zone0.max_order * 65536 := by
    rw [f3, hdiv, hps, ha0]
    unfold easy_max easy_min
    simp only [EASY_MEM_MAX_ORDER]
    by_cases ho : order ≥ 12
    · have h12 : 2 ^ 12 ≤ 2 ^ order := Nat.pow_le_pow_right (by norm_num) ho
      rw [if_pos ho]
      generalize 2 ^ order = P at *
      norm_num at h12 ⊢
      split_ifs <;> omega
    · have h11 : 2 ^ order ≤ 2 ^ 11 := Nat.pow_le_pow_right (by norm_num) (by omega)
      rw [if_neg ho]
      generalize 2 ^ order = P at *
      norm_num at h11 ⊢
      split_ifs <;> omega
  rw [f7, hasize]
  unfold easy_align
  exact Nat.mul_mod_left _ _

/-! ## The claims -/

theorem demo_zone_created :
    easy_mem_zone_create 336 131072 (some 0) (fun _ => 0) = some demo_zone := by
  rfl

theorem high_zone4_created :
    easy_mem_zone_create 336 262144 (some 4294967296) (fun _ => 0) = some high_zone4 := by
  rfl

theorem wide_zone_created :
    easy_mem_zone_create 336 8589934592 (some 4294967296) (fun _ => 0) = some wide_zone := by
  rfl

theorem tall_zone_created :
    easy_mem_zone_create 336 8796093022208 (some 4294967296) (fun _ => 0) =
      some tall_zone := by
  rfl

/-- Calls whose releases all name allocated pages lead from a reachable
state to a reachable state. -/
theorem run_reach (zone0 : easy_mem_zone_t) :
    ∀ (cs : List zone_call) (zone : easy_mem_zone_t) (al : List (Nat × Nat)),
      Reach zone0 zone al → calls_valid zone al cs = true →
      Reach zone0 (run_calls zone cs) (run_allocated zone al cs) := by
  intro cs
  induction cs with
  | nil => intro zone al hr _; exact hr
  | cons c cs ih =>
    intro zone al hr hv
    cases c with
    | alloc order =>
      rw [calls_valid] at hv
      rw [run_calls, run_allocated]
      cases hp : (easy_mem_alloc_pages zone order).2 with
      | some p =>
        rw [hp] at hv
        exact ih _ _ (Reach.alloc_page order p hr hp) hv
      | none =>
        rw [hp] at hv
        exact ih _ _ (Reach.alloc_null order hr hp) hv
    | free ptr =>
      rw [calls_valid] at hv
      rw [run_calls, run_allocated]
      cases hb : al.find? (fun b => b.1 == ptr) with
      | some b =>
        rw [hb] at hv
        have h1 : b ∈ al := List.mem_of_find?_eq_some hb
        have h2 : b.1 = ptr := by
          have := List.find?_some hb
          simpa using this
        have h3 : b = (ptr, b.2) := by rw [← h2]
        have hr1 := Reach.free_page ptr b.2 hr (h3 ▸ h1)
        rw [← h3] at hr1
        exact ih _ _ hr1 hv
      | none =>
        rw [hb] at hv
        exact absurd hv (by simp)

/-- The addresses that `easy_mem_index_to_page` computes in the 8 GiB zone
for the indices 65536, 65538 and 66560, and the state in which the last call
of `alias_calls` is made: page 2 is alone on `area[0]`, the block at index
65538 alone on `area[1]`, the block at index 4 alone on `area[2]`, and the
block at index 65536 is allocated with order 1. -/
theorem alias_calls_before_release :
    easy_mem_index_to_page wide_zone 65536 = 4429185024 ∧
      easy_mem_index_to_page wide_zone 65538 = 4429185024 + 2 * 65536 ∧
      easy_mem_index_to_page wide_zone 66560 = 4429185024 + 1024 * 65536 ∧
      ((run_calls wide_zone alias_calls.dropLast).area 0).free_list =
        [4429185024 + 2 * 65536] ∧
      ((run_calls wide_zone alias_calls.dropLast).area 1).free_list =
        [4429185024 + 65538 * 65536] ∧
      ((run_calls wide_zone alias_calls.dropLast).area 2).free_list =
        [4429185024 + 4 * 65536] ∧
      (run_calls wide_zone alias_calls.dropLast).page_flags 65536 = 0x81 ∧
      (run_calls wide_zone alias_calls.dropLast).page_flags 65538 = 1 ∧
      (run_calls wide_zone alias_calls.dropLast).page_flags 65540 = 0x82 ∧
      (run_calls wide_zone alias_calls.dropLast).page_flags 0 = 0x80 :=
  ⟨by decide!, by decide!, by decide!, by decide!, by decide!, by decide!, by decide!,
    by decide!, by decide!, by decide!⟩

theorem pairwise_of_cover (zone : easy_mem_zone_t) :
    ∀ (bl : List (Nat × Nat)), (∀ j, coverList zone bl j ≤ 1) →
      bl.Pairwise (fun a b => ∀ j, InBlock (easy_mem_page_to_index zone a.1) a.2 j →
        ¬ InBlock (easy_mem_page_to_index zone b.1) b.2 j) := by
  intro bl
  induction bl with
  | nil => intro _; exact List.Pairwise.nil
  | cons a l ih =>
    intro h
    refine List.Pairwise.cons ?_ (ih ?_)
    · intro b hb j h1 h2
      have c := h j
      rw [coverList_cons, inb_of_inBlock h1] at c
      have c2 := coverList_mem_le zone hb j
      rw [inb_of_inBlock h2] at c2
      omega
    · intro j
      have c := h j
      rw [coverList_cons] at c
      omega

/-- C1 as amended, counter invariant.  In every state reachable from a zone
created with `max_size` at most 2 GiB by allocations and by releases of
allocated pages, `free_pages` is the sum over `k ≤ max_order` of
`area[k].nr_free * 2^k`, and every `area[k].nr_free` is the length of
`area[k].free_list`. -/
theorem counter_invariant {zone_bytes : Nat} {max_size : Int} {memptr : Nat}
    {flags : Nat → Nat} {zone0 zone : easy_mem_zone_t} {al : List (Nat × Nat)}
    (hsize : max_size ≤ 2 ^ 31)
    (h0 : easy_mem_zone_create zone_bytes max_size (some memptr) flags = some zone0)
    (hr : Reach zone0 zone al) :
    zone.free_pages =
        Finset.sum (Finset.range (zone.max_order + 1))
          (fun k => (zone.area k).nr_free * 2 ^ k) ∧
      ∀ k, (zone.area k).nr_free = ((zone.area k).free_list.length : Int) := by
  obtain ⟨hinv, hfp⟩ := reach_inv h0 (create_small h0 hsize) hr
  exact ⟨hfp, hinv.cnt⟩

theorem counter_invariant_witness :
    (easy_mem_alloc_pages demo_zone 0).1.free_pages =
        Finset.sum (Finset.range ((easy_mem_alloc_pages demo_zone 0).1.max_order + 1))
          (fun k => ((easy_mem_alloc_pages demo_zone 0).1.area k).nr_free * 2 ^ k) ∧
      ∀ k, ((easy_mem_alloc_pages demo_zone 0).1.area k).nr_free =
        (((easy_mem_alloc_pages demo_zone 0).1.area k).free_list.length : Int) :=
  counter_invariant (by norm_num) demo_zone_created
    (Reach.alloc_page 0 131072 Reach.init (by decide))

/-- C1, the claim as stated fails in a zone of 8 GiB.  After the valid calls
`alias_calls` on the zone of `easy_mem_zone_create(8 GiB)`, `area[0].nr_free`
is 1 while `area[0].free_list` is empty.  The last call releases the block of
order 1 at index 65536; its buddy, index 65538, is free, and
`easy_mem_index_to_page` computes `65538 << 16` as an `int`, which is
`2 << 16` modulo `2^32`: the page unlinked is page 2, which stood on
`area[0]`, while the counter decremented is `area[1].nr_free`. -/
theorem counter_invariant_counterexample :
    easy_mem_zone_create 336 8589934592 (some 4294967296) (fun _ => 0) = some wide_zone ∧
      Reach wide_zone (run_calls wide_zone alias_calls)
        (run_allocated wide_zone [] alias_calls) ∧
      ((run_calls wide_zone alias_calls).area 0).free_list = [] ∧
      ((run_calls wide_zone alias_calls).area 0).nr_free = 1 ∧
      ((run_calls wide_zone alias_calls).area 1).free_list = [4429185024 + 65538 * 65536] ∧
      ((run_calls wide_zone alias_calls).area 1).nr_free = 0 :=
  ⟨wide_zone_created, run_reach wide_zone _ _ _ Reach.init (by decide!), by decide!,
    by decide!, by decide!, by decide!⟩

/-- C3 as amended, partition invariant.  In every state reachable by valid
operations from a zone created with `max_size` at most 2 GiB, the blocks on
the free lists (order `k` for `area[k]`) and the allocated blocks (the pages
returned and not yet released, each with the order of its request) are
pairwise disjoint, and the pages they cover are exactly the indices below
`(mem_last - mem_start) / PAGE_SIZE`. -/
theorem partition_invariant {zone_bytes : Nat} {max_size : Int} {memptr : Nat}
    {flags : Nat → Nat} {zone0 zone : easy_mem_zone_t} {al : List (Nat × Nat)}
    (hsize : max_size ≤ 2 ^ 31)
    (h0 : easy_mem_zone_create zone_bytes max_size (some memptr) flags = some zone0)
    (hr : Reach zone0 zone al) :
    (∀ k p l q j, p ∈ (zone.area k).free_list → q ∈ (zone.area l).free_list →
        (k, p) ≠ (l, q) → InBlock (easy_mem_page_to_index zone p) k j →
        ¬ InBlock (easy_mem_page_to_index zone q) l j) ∧
      (∀ k, (zone.area k).free_list.Nodup) ∧
      (∀ k p b j, p ∈ (zone.area k).free_list → b ∈ al →
        InBlock (easy_mem_page_to_index zone p) k j →
        ¬ InBlock (easy_mem_page_to_index zone b.1) b.2 j) ∧
      al.Pairwise (fun a b => ∀ j, InBlock (easy_mem_page_to_index zone a.1) a.2 j →
        ¬ InBlock (easy_mem_page_to_index zone b.1) b.2 j) ∧
      (∀ j, j < (zone.mem_last - zone.mem_start) / EASY_MEM_PAGE_SIZE ↔
        ((∃ k p, p ∈ (zone.area k).free_list ∧
            InBlock (easy_mem_page_to_index zone p) k j) ∨
          ∃ b ∈ al, InBlock (easy_mem_page_to_index zone b.1) b.2 j)) := by
  obtain ⟨hinv, _⟩ := reach_inv h0 (create_small h0 hsize) hr
  refine ⟨?_, hinv.free_nodup, ?_, ?_, ?_⟩
  · intro k p l q j hp hq hne h1 h2
    by_cases hkl : k = l
    · subst hkl
      have hpq : p ≠ q := fun e => hne (by rw [e])
      exact hinv.free_same_disjoint hp hq hpq h1 h2
    · exact hinv.free_diff_disjoint hp hq hkl h1 h2
  · intro k p b j hp hb h1 h2
    exact hinv.free_used_disjoint hp hb h1 h2
  · apply pairwise_of_cover
    intro j
    have := hinv.cover_le j
    omega
  · intro j
    constructor
    · intro hj
      rcases hinv.covered hj with h | h | ⟨b, hb, _⟩
      · exact Or.inl h
      · exact Or.inr h
      · simp at hb
    · intro h
      show j < npages zone
      rcases h with ⟨k, p, hp, hin⟩ | ⟨b, hb, hin⟩
      · obtain ⟨_, ⟨_, _, hbd⟩, _⟩ := hinv.free_ok k p hp
        unfold InBlock at hin
        omega
      · obtain ⟨_, ⟨_, _, hbd⟩, _⟩ := hinv.used_ok b hb
        unfold InBlock at hin
        omega

theorem partition_invariant_witness :
    (∀ k p l q j, p ∈ ((easy_mem_alloc_pages demo_zone 0).1.area k).free_list →
        q ∈ ((easy_mem_alloc_pages demo_zone 0).1.area l).free_list →
        (k, p) ≠ (l, q) →
        InBlock (easy_mem_page_to_index (easy_mem_alloc_pages demo_zone 0).1 p) k j →
        ¬ InBlock (easy_mem_page_to_index (easy_mem_alloc_pages demo_zone 0).1 q) l j) ∧
      (∀ k, ((easy_mem_alloc_pages demo_zone 0).1.area k).free_list.Nodup) ∧
      (∀ k p b j, p ∈ ((easy_mem_alloc_pages demo_zone 0).1.area k).free_list →
        b ∈ [((131072 : Nat), (0 : Nat))] →
        InBlock (easy_mem_page_to_index (easy_mem_alloc_pages demo_zone 0).1 p) k j →
        ¬ InBlock (easy_mem_page_to_index (easy_mem_alloc_pages demo_zone 0).1 b.1) b.2 j) ∧
      [((131072 : Nat), (0 : Nat))].Pairwise (fun a b => ∀ j,
        InBlock (easy_mem_page_to_index (easy_mem_alloc_pages demo_zone 0).1 a.1) a.2 j →
        ¬ InBlock (easy_mem_page_to_index (easy_mem_alloc_pages demo_zone 0).1 b.1) b.2 j) ∧
      (∀ j, j < ((easy_mem_alloc_pages demo_zone 0).1.mem_last -
            (easy_mem_alloc_pages demo_zone 0).1.mem_start) / EASY_MEM_PAGE_SIZE ↔
        ((∃ k p, p ∈ ((easy_mem_alloc_pages demo_zone 0).1.area k).free_list ∧
            InBlock (easy_mem_page_to_index (easy_mem_alloc_pages demo_zone 0).1 p) k j) ∨
          ∃ b ∈ [((131072 : Nat), (0 : Nat))],
            InBlock (easy_mem_page_to_index (easy_mem_alloc_pages demo_zone 0).1 b.1) b.2 j)) :=
  partition_invariant (by norm_num) demo_zone_created
    (Reach.alloc_page 0 131072 Reach.init (by decide))

/-- C3, the claim as stated fails in a zone of 8 GiB.  After the valid calls
`alias_calls` page 0, handed out by the first call and never released, is
linked on `area[2]` as a free block of four pages: index 0 lies in an
allocated block and in a free block.  The last release joined the block at
index 65536 with its buddy, and the joined block is linked at the address
that `65536 << 16` gives as an `int`, which is `mem_start`. -/
theorem partition_counterexample :
    easy_mem_zone_create 336 8589934592 (some 4294967296) (fun _ => 0) = some wide_zone ∧
      Reach wide_zone (run_calls wide_zone alias_calls)
        (run_allocated wide_zone [] alias_calls) ∧
      (4429185024, 0) ∈ run_allocated wide_zone [] alias_calls ∧
      4429185024 ∈ ((run_calls wide_zone alias_calls).area 2).free_list ∧
      InBlock (easy_mem_page_to_index (run_calls wide_zone alias_calls) 4429185024) 0 0 ∧
      InBlock (easy_mem_page_to_index (run_calls wide_zone alias_calls) 4429185024) 2 0 :=
  ⟨wide_zone_created, run_reach wide_zone _ _ _ Reach.init (by decide!), by decide!,
    by decide!, by decide!, by decide!⟩

/-- C5 as amended, alignment law.  In every state reachable by valid
operations from a zone created with `max_size` at most 2 GiB (header
structure of at most half a page), a page `p` returned by
`easy_mem_alloc_pages(zone, order)` has an index
`(p - mem_start) >> PAGE_SHIFT` that is a multiple of `2^order`, and the
address `p` is a multiple of `2^order * PAGE_SIZE`. -/
theorem alloc_alignment {zone_bytes : Nat} {max_size : Int} {memptr : Nat}
    {flags : Nat → Nat} {zone0 zone : easy_mem_zone_t} {al : List (Nat × Nat)}
    {order p : Nat} (hsize : max_size ≤ 2 ^ 31) (hzb : zone_bytes ≤ 32768)
    (h0 : easy_mem_zone_create zone_bytes max_size (some memptr) flags = some zone0)
    (hr : Reach zone0 zone al)
    (hp : (easy_mem_alloc_pages zone order).2 = some p) :
    ((p - zone.mem_start) >>> EASY_MEM_PAGE_SHIFT) % 2 ^ order = 0 ∧
      p % (2 ^ order * EASY_MEM_PAGE_SIZE) = 0 := by
  obtain ⟨hinv, hfp⟩ := reach_inv h0 (create_small h0 hsize) hr
  obtain ⟨hinv1, _⟩ := alloc_inv hinv hfp hp
  obtain ⟨hoM, hblk, _⟩ := hinv1.used_ok (p, order) (List.mem_cons_self _ _)
  simp only at hoM hblk
  obtain ⟨a1, _, a3⟩ := alloc_frame zone order
  obtain ⟨r1, _, r3⟩ := reach_frame hr
  obtain ⟨hptr, hal, _⟩ := hblk
  rw [page_to_index_congr zone _ a1] at hptr hal
  rw [page_of_index_congr zone _ a1] at hptr
  refine ⟨hal, ?_⟩
  have hms := create_aligned hsize hzb h0
  rw [← r1, ← r3] at hms
  rw [a3] at hoM
  rw [page_of_index_eq] at hptr
  rw [page_size_val, ← hptr]
  have hd1 : 2 ^ order * 65536 ∣ zone.mem_start :=
    dvd_trans (Nat.mul_dvd_mul_right (pow_dvd_pow 2 hoM) 65536) (Nat.dvd_of_mod_eq_zero hms)
  have hd2 : 2 ^ order * 65536 ∣ easy_mem_page_to_index zone p * 65536 :=
    Nat.mul_dvd_mul_right (Nat.dvd_of_mod_eq_zero hal) 65536
  exact Nat.mod_eq_zero_of_dvd (dvd_add hd1 hd2)

theorem alloc_alignment_witness :
    ((4295360512 - (easy_mem_alloc_pages high_zone4 0).1.mem_start) >>>
        EASY_MEM_PAGE_SHIFT) % 2 ^ 1 = 0 ∧
      4295360512 % (2 ^ 1 * EASY_MEM_PAGE_SIZE) = 0 :=
  alloc_alignment (by norm_num) (by norm_num) high_zone4_created
    (Reach.alloc_page 0 4295229440 Reach.init (by decide)) (by decide)

/-- C5, the claim as stated fails in a zone of 8 TiB.  For
`easy_mem_zone_create(2^43)` the flag bytes and the header take more than a
top block, so `asize` is `2^27 + 65536` and `mem_start`, a multiple of
`asize`, is not a multiple of the size `2^27` of a top block.  In the fresh
zone `easy_mem_alloc_pages(zone, 11)` returns `mem_start`, whose index 0 is
a multiple of `2^11` but whose address leaves the remainder 2162688 modulo
`2^11 * PAGE_SIZE`. -/
theorem alloc_alignment_counterexample :
    easy_mem_zone_create 336 8796093022208 (some 4294967296) (fun _ => 0) =
        some tall_zone ∧
      Reach tall_zone tall_zone [] ∧
      11 ≤ tall_zone.max_order ∧
      (easy_mem_alloc_pages tall_zone 11).2 = some 4431347712 ∧
      4431347712 % (2 ^ 11 * EASY_MEM_PAGE_SIZE) = 2162688 :=
  ⟨tall_zone_created, Reach.init, by decide, by decide, by decide⟩

/-- C6 as amended, round trip.  In every state reachable by valid operations
from a zone created with `max_size` at most 2 GiB, when
`easy_mem_alloc_pages(zone, order)` returns a page `p`, then after
`easy_mem_free_pages(zone, p)` the same request returns a page, and this
page is `p` again. -/
theorem alloc_free_round_trip {zone_bytes : Nat} {max_size : Int} {memptr : Nat}
    {flags : Nat → Nat} {zone0 zone : easy_mem_zone_t} {al : List (Nat × Nat)}
    {order p : Nat} (hsize : max_size ≤ 2 ^ 31)
    (h0 : easy_mem_zone_create zone_bytes max_size (some memptr) flags = some zone0)
    (hr : Reach zone0 zone al)
    (hp : (easy_mem_alloc_pages zone order).2 = some p) :
    (easy_mem_alloc_pages
      (easy_mem_free_pages (easy_mem_alloc_pages zone order).1 p) order).2 = some p := by
  obtain ⟨hinv, hfp⟩ := reach_inv h0 (create_small h0 hsize) hr
  exact alloc_free_alloc hinv hfp hp

theorem alloc_free_round_trip_witness :
    (easy_mem_alloc_pages
      (easy_mem_free_pages
        (easy_mem_alloc_pages (easy_mem_alloc_pages demo_zone 0).1 0).1 196608) 0).2 =
      some 196608 :=
  alloc_free_round_trip (by norm_num) demo_zone_created
    (Reach.alloc_page 0 131072 Reach.init (by decide)) (by decide)

/-- C6, the claim as stated fails in a zone of 8 GiB.  In the state reached by
the valid calls `round_trip_calls`, `alloc(10)` returns the block `p` at
index 65536, cut from a new top block whose other half, index 66560, goes on
`area[10]`.  The release of `p` finds this buddy free, unlinks the page that
`66560 << 16` designates as an `int` (index 1024, on `area[9]`) and links
the joined block at `mem_start`; the block at index 66560 stays on
`area[10]`, and the next `alloc(10)` returns it, not `p`. -/
theorem alloc_free_round_trip_counterexample :
    easy_mem_zone_create 336 8589934592 (some 4294967296) (fun _ => 0) = some wide_zone ∧
      Reach wide_zone (run_calls wide_zone round_trip_calls)
        (run_allocated wide_zone [] round_trip_calls) ∧
      10 ≤ (run_calls wide_zone round_trip_calls).max_order ∧
      (easy_mem_alloc_pages (run_calls wide_zone round_trip_calls) 10).2 =
        some (4429185024 + 65536 * 65536) ∧
      (easy_mem_alloc_pages
        (easy_mem_free_pages
          (easy_mem_alloc_pages (run_calls wide_zone round_trip_calls) 10).1
          (4429185024 + 65536 * 65536)) 10).2 = some (4429185024 + 66560 * 65536) :=
  ⟨wide_zone_created, run_reach wide_zone _ _ _ Reach.init (by decide!), by decide!,
    by decide!, by decide!⟩

/-- C7, failure atomicity of allocation.  In every zone state and for every
order (orders above `max_order` included), when `easy_mem_alloc_pages`
returns null the zone after the call is the zone before it: bounds,
counters, free lists and flag bytes are all unchanged. -/
theorem alloc_null_atomic (zone : easy_mem_zone_t) (order : Nat)
    (hnull : (easy_mem_alloc_pages zone order).2 = none) :
    (easy_mem_alloc_pages zone order).1 = zone :=
  alloc_null_unchanged zone order hnull

theorem alloc_null_atomic_witness :
    (easy_mem_alloc_pages demo_zone (demo_zone.max_order + 1)).1 = demo_zone :=
  alloc_null_atomic demo_zone (demo_zone.max_order + 1) (by decide)

/-- C8 as amended, null exactly on exhaustion.  In every state reachable by
valid operations from a zone created with `max_size` at most 2 GiB,
`easy_mem_alloc_pages(zone, order)` returns null if and only if
`order > max_order`, or every free list `area[n]` with
`order ≤ n ≤ max_order` is empty and `mem_last ≥ mem_end`. -/
theorem alloc_null_iff {zone_bytes : Nat} {max_size : Int} {memptr : Nat}
    {flags : Nat → Nat} {zone0 zone : easy_mem_zone_t} {al : List (Nat × Nat)}
    (order : Nat) (hsize : max_size ≤ 2 ^ 31)
    (h0 : easy_mem_zone_create zone_bytes max_size (some memptr) flags = some zone0)
    (hr : Reach zone0 zone al) :
    (easy_mem_alloc_pages zone order).2 = none ↔
      (order > zone.max_order ∨
        ((∀ n, order ≤ n → n ≤ zone.max_order → (zone.area n).free_list = []) ∧
          zone.mem_last ≥ zone.mem_end)) := by
  obtain ⟨hinv, hfp⟩ := reach_inv h0 (create_small h0 hsize) hr
  by_cases hle : order ≤ zone.max_order
  · rcases alloc_cases zone order hinv.cnt hfp hle with
      ⟨n, page, rest, h1, h2, _, h4, h5⟩ | ⟨_, hlt, h5⟩ | ⟨hempty, hlt, h5⟩
    · rw [h5]
      constructor
      · intro h; simp at h
      · rintro (h | ⟨h, _⟩)
        · omega
        · have := h n h1 h2
          rw [h4] at this; simp at this
    · rw [h5]
      constructor
      · intro h; simp at h
      · rintro (h | ⟨_, h⟩) <;> omega
    · rw [h5]
      constructor
      · intro _; exact Or.inr ⟨hempty, by omega⟩
      · intro _; rfl
  · rw [alloc_too_big zone order (by omega)]
    constructor
    · intro _; exact Or.inl (by omega)
    · intro _; rfl

theorem alloc_null_iff_witness :
    (easy_mem_alloc_pages (easy_mem_alloc_pages (easy_mem_alloc_pages demo_zone 0).1 0).1
        0).2 = none ↔
      (0 > (easy_mem_alloc_pages (easy_mem_alloc_pages demo_zone 0).1 0).1.max_order ∨
        ((∀ n, 0 ≤ n →
            n ≤ (easy_mem_alloc_pages (easy_mem_alloc_pages demo_zone 0).1 0).1.max_order →
            ((easy_mem_alloc_pages (easy_mem_alloc_pages demo_zone 0).1 0).1.area
              n).free_list = []) ∧
          (easy_mem_alloc_pages (easy_mem_alloc_pages demo_zone 0).1 0).1.mem_last ≥
            (easy_mem_alloc_pages (easy_mem_alloc_pages demo_zone 0).1 0).1.mem_end)) :=
  alloc_null_iff 0 (by norm_num) demo_zone_created
    (Reach.alloc_page 0 196608 (Reach.alloc_page 0 131072 Reach.init (by decide))
      (by decide))

/-- C8, the claim as stated fails in a zone of 8 GiB.  In the state reached by
the valid calls `exhaust_calls` the arena is fully committed
(`mem_last = mem_end`), the block of order 10 at index 66560 is linked on
`area[10]`, and `free_pages` is 512: `alloc(10)` fails the test
`free_pages >= 1 << 10`, skips the free lists and returns null.  The release
among the calls joined the block at index 65536 with this buddy without
unlinking it (the page unlinked is the one that `66560 << 16` designates as
an `int`), and `alloc(11)` then took the joined block. -/
theorem alloc_null_iff_counterexample :
    easy_mem_zone_create 336 8589934592 (some 4294967296) (fun _ => 0) = some wide_zone ∧
      Reach wide_zone (run_calls wide_zone exhaust_calls)
        (run_allocated wide_zone [] exhaust_calls) ∧
      10 ≤ (run_calls wide_zone exhaust_calls).max_order ∧
      (easy_mem_alloc_pages (run_calls wide_zone exhaust_calls) 10).2 = none ∧
      ((run_calls wide_zone exhaust_calls).area 10).free_list =
        [4429185024 + 66560 * 65536] ∧
      (run_calls wide_zone exhaust_calls).free_pages = 512 :=
  ⟨wide_zone_created, run_reach wide_zone _ _ _ Reach.init (by decide!), by decide!,
    by decide!, by decide!, by decide!⟩

/-- C9, an invalid release is a no-op.  In every zone state, a pointer below
`mem_start`, or above `mem_last - PAGE_SIZE`, or whose flag byte has the bit
`0x80` clear, leaves the zone unchanged; the pointer `mem_last - PAGE_SIZE`
itself passes the range test: with the bit `0x80` set in its flag byte it is
handed to `easy_mem_merge_buddy_page`. -/
theorem invalid_free_noop (zone : easy_mem_zone_t) (ptr : Nat) :
    ((ptr < zone.mem_start ∨
        (ptr : Int) > (zone.mem_last : Int) - (EASY_MEM_PAGE_SIZE : Int) ∨
        zone.page_flags (easy_mem_page_to_index zone ptr) &&& 0x80 = 0) →
      easy_mem_free_pages zone ptr = zone) ∧
    ((ptr : Int) = (zone.mem_last : Int) - (EASY_MEM_PAGE_SIZE : Int) →
      zone.mem_start ≤ ptr →
      zone.page_flags (easy_mem_page_to_index zone ptr) &&& 0x80 ≠ 0 →
      easy_mem_free_pages zone ptr =
        easy_mem_merge_buddy_page zone ptr
          (zone.page_flags (easy_mem_page_to_index zone ptr) &&& 0x0f)) := by
  constructor
  · intro h
    unfold easy_mem_free_pages
    by_cases hc : ptr < zone.mem_start ∨
        (ptr : Int) > (zone.mem_last : Int) - (EASY_MEM_PAGE_SIZE : Int)
    · rw [if_pos hc]
    · rw [if_neg hc]
      have hflag : zone.page_flags (easy_mem_page_to_index zone ptr) &&& 0x80 = 0 := by
        rcases h with h | h | h
        · exact absurd (Or.inl h) hc
        · exact absurd (Or.inr h) hc
        · exact h
      simp only [hflag, ne_eq, not_true_eq_false, if_false]
  · intro heq hge hflag
    unfold easy_mem_free_pages
    have hc : ¬ (ptr < zone.mem_start ∨
        (ptr : Int) > (zone.mem_last : Int) - (EASY_MEM_PAGE_SIZE : Int)) := by
      rw [heq]; omega
    rw [if_neg hc]
    simp only [hflag, ne_eq, not_false_eq_true, if_true]

theorem invalid_free_noop_witness :
    easy_mem_free_pages (easy_mem_alloc_pages demo_zone 0).1 65536 =
        (easy_mem_alloc_pages demo_zone 0).1 ∧
      easy_mem_free_pages (easy_mem_alloc_pages demo_zone 0).1 196608 =
        (easy_mem_alloc_pages demo_zone 0).1 ∧
      easy_mem_free_pages (easy_mem_alloc_pages (easy_mem_alloc_pages demo_zone 0).1 0).1
          196608 =
        easy_mem_merge_buddy_page
          (easy_mem_alloc_pages (easy_mem_alloc_pages demo_zone 0).1 0).1 196608
          ((easy_mem_alloc_pages (easy_mem_alloc_pages demo_zone 0).1 0).1.page_flags
            (easy_mem_page_to_index
              (easy_mem_alloc_pages (easy_mem_alloc_pages demo_zone 0).1 0).1 196608) &&&
            0x0f) :=
  ⟨(invalid_free_noop (easy_mem_alloc_pages demo_zone 0).1 65536).1 (Or.inl (by decide)),
   (invalid_free_noop (easy_mem_alloc_pages demo_zone 0).1 196608).1
     (Or.inr (Or.inr (by decide))),
   (invalid_free_noop (easy_mem_alloc_pages (easy_mem_alloc_pages demo_zone 0).1 0).1
     196608).2 (by decide) (by decide) (by decide)⟩

/-- C10, double release.  The code at the failing input: in the two-page
zone, after `a = alloc(0)`, `b = alloc(0)` and `free(a)`, the page `b`
(address 196608, index 1) is allocated; `free(b)` joins it with `a` and
leaves the flag byte of `b` at `0x80`, and a second `free(b)` is not
ignored: it raises `free_pages` from 2 to 3 and links `b` on `area[0]`. -/
theorem double_free_changes_zone :
    Reach demo_zone
        (easy_mem_free_pages
          (easy_mem_alloc_pages (easy_mem_alloc_pages demo_zone 0).1 0).1 131072)
        [(196608, 0)] ∧
      (easy_mem_free_pages
        (easy_mem_free_pages
          (easy_mem_alloc_pages (easy_mem_alloc_pages demo_zone 0).1 0).1 131072)
        196608).page_flags 1 = 0x80 ∧
      (easy_mem_free_pages
        (easy_mem_free_pages
          (easy_mem_alloc_pages (easy_mem_alloc_pages demo_zone 0).1 0).1 131072)
        196608).free_pages = 2 ∧
      ((easy_mem_free_pages
        (easy_mem_free_pages
          (easy_mem_alloc_pages (easy_mem_alloc_pages demo_zone 0).1 0).1 131072)
        196608).area 0).free_list = [] ∧
      (easy_mem_free_pages
        (easy_mem_free_pages
          (easy_mem_free_pages
            (easy_mem_alloc_pages (easy_mem_alloc_pages demo_zone 0).1 0).1 131072)
          196608)
        196608).free_pages = 3 ∧
      ((easy_mem_free_pages
        (easy_mem_free_pages
          (easy_mem_free_pages
            (easy_mem_alloc_pages (easy_mem_alloc_pages demo_zone 0).1 0).1 131072)
          196608)
        196608).area 0).free_list = [196608] := by
  refine ⟨?_, by decide, by decide, by decide, by decide, by decide⟩
  exact Reach.free_page 131072 0
    (Reach.alloc_page 0 196608 (Reach.alloc_page 0 131072 Reach.init (by decide))
      (by decide)) (by decide)

/-! ## The sizing loop and the header geometry of `easy_mem_zone_create` -/

/-- The doubling loop keeps every order below the one it returns too small
for the request, and it stops either because the size reached the request
or because its fuel ran out. -/
theorem zone_size_loop_min (max_size : Int) :
    ∀ (fuel size order : Nat), size = 65536 * 2 ^ order →
      (∀ o, o < order → ((65536 * 2 ^ o : Nat) : Int) < max_size) →
      (∀ o, o < (zone_size_loop fuel max_size size order).2 →
          ((65536 * 2 ^ o : Nat) : Int) < max_size) ∧
        (max_size ≤ ((zone_size_loop fuel max_size size order).1 : Int) ∨
          (zone_size_loop fuel max_size size order).2 = order + fuel) := by
  intro fuel
  induction fuel with
  | zero =>
    intro size order _ hmin
    exact ⟨hmin, Or.inr rfl⟩
  | succ f ih =>
    intro size order h hmin
    rw [zone_size_loop]
    split
    · rename_i hlt
      have h2 : size <<< 1 = 65536 * 2 ^ (order + 1) := by
        rw [Nat.shiftLeft_eq, h, pow_succ]; ring
      have hmin2 : ∀ o, o < order + 1 → ((65536 * 2 ^ o : Nat) : Int) < max_size := by
        intro o ho
        rcases Nat.lt_succ_iff_lt_or_eq.mp ho with ho | ho
        · exact hmin o ho
        · subst ho; rw [← h]; exact hlt
      obtain ⟨i1, i2⟩ := ih (size <<< 1) (order + 1) h2 hmin2
      refine ⟨i1, ?_⟩
      rcases i2 with i2 | i2
      · exact Or.inl i2
      · right; rw [i2]; omega
    · rename_i hge
      exact ⟨hmin, Or.inl (not_lt.mp hge)⟩

/-- Once the loop has stopped on its condition, more fuel changes nothing. -/
theorem zone_size_loop_stable (max_size : Int) :
    ∀ (fuel size order : Nat),
      max_size ≤ ((zone_size_loop fuel max_size size order).1 : Int) →
      ∀ extra, zone_size_loop (fuel + extra) max_size size order =
        zone_size_loop fuel max_size size order := by
  intro fuel
  induction fuel with
  | zero =>
    intro size order hstop extra
    rw [zone_size_loop] at hstop
    cases extra with
    | zero => rfl
    | succ e =>
      rw [Nat.zero_add, zone_size_loop, zone_size_loop, if_neg (not_lt.mpr hstop)]
  | succ f ih =>
    intro size order hstop extra
    rw [Nat.succ_add, zone_size_loop, zone_size_loop]
    rw [zone_size_loop] at hstop
    by_cases hlt : (size : Int) < max_size
    · rw [if_pos hlt] at hstop ⊢
      rw [if_pos hlt]
      exact ih _ _ hstop extra
    · rw [if_neg hlt, if_neg hlt]

/-- The arena size is `65536 * 2 ^ order`. -/
theorem zone_size_eq (max_size : Int) :
    zone_size max_size = 65536 * 2 ^ zone_order max_size :=
  zone_size_loop_pow max_size 64 EASY_MEM_PAGE_SIZE 0 (by decide)

/-- For a request of at most `2^62` bytes the loop of `easy_mem_zone_create`
stops on its condition: the size it returns is `PAGE_SIZE << order`, it is
at least the request, no smaller order is, and the order is at most 46. -/
theorem zone_size_spec (max_size : Int) (hsize : max_size ≤ 2 ^ 62) :
    zone_size max_size = EASY_MEM_PAGE_SIZE <<< zone_order max_size ∧
    max_size ≤ (zone_size max_size : Int) ∧
    (∀ o, max_size ≤ ((EASY_MEM_PAGE_SIZE <<< o : Nat) : Int) → zone_order max_size ≤ o) ∧
    zone_order max_size ≤ 46 := by
  have hpow := zone_size_loop_pow max_size 64 EASY_MEM_PAGE_SIZE 0 (by decide)
  have hle := zone_size_loop_le max_size 46 (by norm_num; exact hsize) 64 EASY_MEM_PAGE_SIZE 0
    (by decide) (by omega)
  obtain ⟨hmin, hstop⟩ := zone_size_loop_min max_size 64 EASY_MEM_PAGE_SIZE 0 (by decide)
    (by intro o ho; omega)
  unfold zone_size zone_order
  refine ⟨?_, ?_, ?_, hle⟩
  · rw [hpow, Nat.shiftLeft_eq, page_size_val]
  · rcases hstop with h | h
    · exact h
    · omega
  · intro o ho
    by_contra hc
    have := hmin o (by omega)
    rw [Nat.shiftLeft_eq, page_size_val] at ho
    omega

/-- The result of the sizing loop does not depend on the fuel, from 64 on. -/
theorem zone_size_fuel (max_size : Int) (hsize : max_size ≤ 2 ^ 62) (fuel : Nat)
    (hfuel : 64 ≤ fuel) :
    zone_size_loop fuel max_size EASY_MEM_PAGE_SIZE 0 =
      zone_size_loop 64 max_size EASY_MEM_PAGE_SIZE 0 := by
  have h := (zone_size_spec max_size hsize).2.1
  obtain ⟨e, rfl⟩ := Nat.exists_eq_add_of_le hfuel
  exact zone_size_loop_stable max_size 64 EASY_MEM_PAGE_SIZE 0 h e

/-- The header fields and the arena bounds of the zone that
`easy_mem_zone_create` returns, in terms of its local variables. -/
theorem create_geometry {zone_bytes : Nat} {max_size : Int} {memptr : Nat} {flags : Nat → Nat}
    {zone0 : easy_mem_zone_t}
    (h0 : easy_mem_zone_create zone_bytes max_size (some memptr) flags = some zone0) :
    zone0.curr_end = memptr + zone_page_size zone_bytes max_size ∧
    zone0.mem_start = easy_align zone0.curr_end (zone_asize zone_bytes max_size) ∧
    zone0.mem_last = zone0.mem_start ∧
    zone0.mem_end = zone0.mem_start + zone_size max_size ∧
    zone0.max_order =
      (if zone_order max_size ≥ EASY_MEM_MAX_ORDER then EASY_MEM_MAX_ORDER - 1
        else zone_order max_size) ∧
    zone0.curr =
      memptr + easy_align (zone_size max_size / EASY_MEM_PAGE_SIZE + zone_bytes) 32 := by
  unfold easy_mem_zone_create at h0
  simp only [Option.some.injEq] at h0
  subst h0
  exact ⟨rfl, rfl, rfl, rfl, rfl, rfl⟩

/-- Rounding up: `easy_align d a` is the least multiple of `a` that is at
least `d`. -/
theorem easy_align_spec (d a : Nat) (ha : 0 < a) :
    a ∣ easy_align d a ∧ d ≤ easy_align d a ∧ easy_align d a < d + a := by
  unfold easy_align
  refine ⟨Dvd.intro_left _ rfl, ?_, ?_⟩
  · have h1 := Nat.div_add_mod (d + (a - 1)) a
    have h2 := Nat.mod_lt (d + (a - 1)) ha
    have h3 : (d + (a - 1)) / a * a = a * ((d + (a - 1)) / a) := Nat.mul_comm _ _
    omega
  · have h1 := Nat.div_mul_le_self (d + (a - 1)) a
    omega

/-- The header takes at least one page, `asize` is at least the header, and
both are whole numbers of pages. -/
theorem zone_asize_pages (zone_bytes : Nat) (max_size : Int) :
    EASY_MEM_PAGE_SIZE ≤ zone_page_size zone_bytes max_size ∧
    zone_page_size zone_bytes max_size ≤ zone_asize zone_bytes max_size ∧
    EASY_MEM_PAGE_SIZE ∣ zone_page_size zone_bytes max_size ∧
    EASY_MEM_PAGE_SIZE ∣ zone_asize zone_bytes max_size ∧
    EASY_MEM_PAGE_SIZE ∣ zone_size max_size := by
  have hpow := zone_size_eq max_size
  have hpos := Nat.two_pow_pos (zone_order max_size)
  have hsz : EASY_MEM_PAGE_SIZE ∣ zone_size max_size := by
    rw [hpow, page_size_val]; exact Dvd.intro _ rfl
  have hszpos : EASY_MEM_PAGE_SIZE ≤ zone_size max_size := by
    rw [hpow, page_size_val]; omega
  have hP : 0 < EASY_MEM_PAGE_SIZE := by decide
  obtain ⟨a1, a2, _⟩ :=
    easy_align_spec (zone_size max_size / EASY_MEM_PAGE_SIZE + zone_bytes) EASY_MEM_PAGE_SIZE hP
  have hdivpos : 1 ≤ zone_size max_size / EASY_MEM_PAGE_SIZE :=
    (Nat.one_le_div_iff hP).mpr hszpos
  have hps : EASY_MEM_PAGE_SIZE ≤ zone_page_size zone_bytes max_size := by
    unfold zone_page_size
    exact Nat.le_of_dvd (by omega) a1
  have hps2 : EASY_MEM_PAGE_SIZE ∣ zone_page_size zone_bytes max_size := a1
  have h27 : EASY_MEM_PAGE_SIZE ∣ 1 <<< (EASY_MEM_MAX_ORDER + EASY_MEM_PAGE_SHIFT - 1) := by
    have e : (1 <<< (EASY_MEM_MAX_ORDER + EASY_MEM_PAGE_SHIFT - 1) : Nat) =
        EASY_MEM_PAGE_SIZE * 2048 := by decide
    rw [e]; exact Dvd.intro _ rfl
  refine ⟨hps, ?_, hps2, ?_, hsz⟩
  · unfold zone_asize easy_max
    split_ifs <;> omega
  · unfold zone_asize easy_max
    split_ifs
    · exact hps2
    · unfold easy_min
      split_ifs
      · exact h27
      · exact hsz

/-- Within the documented limit of 2 GiB and with a zone structure of at
most half a page, the header is exactly one page and `asize` is the smaller
of the arena size and the size of a block of order `MAX_ORDER - 1`. -/
theorem zone_asize_small {zone_bytes : Nat} {max_size : Int} (hsize : max_size ≤ 2 ^ 31)
    (hzb : zone_bytes ≤ 32768) :
    zone_page_size zone_bytes max_size = EASY_MEM_PAGE_SIZE ∧
    zone_asize zone_bytes max_size =
      easy_min (EASY_MEM_PAGE_SIZE <<< (EASY_MEM_MAX_ORDER - 1)) (zone_size max_size) ∧
    zone_asize zone_bytes max_size ∣ zone_size max_size := by
  have hpow := zone_size_eq max_size
  have hle : zone_order max_size ≤ 15 :=
    zone_size_loop_le max_size 15 (by norm_num; exact hsize) 64 EASY_MEM_PAGE_SIZE 0
      (by decide) (by omega)
  have hP2 : 2 ^ zone_order max_size ≤ 2 ^ 15 := Nat.pow_le_pow_right (by norm_num) hle
  have hP1 := Nat.two_pow_pos (zone_order max_size)
  have hPS : EASY_MEM_PAGE_SIZE = 65536 := page_size_val
  have hps : zone_page_size zone_bytes max_size = EASY_MEM_PAGE_SIZE := by
    unfold zone_page_size easy_align
    rw [hpow, hPS, Nat.mul_div_cancel_left _ (by norm_num)]
    generalize 2 ^ zone_order max_size = P at *
    omega
  have h27 : (1 <<< (EASY_MEM_MAX_ORDER + EASY_MEM_PAGE_SHIFT - 1) : Nat) =
      EASY_MEM_PAGE_SIZE <<< (EASY_MEM_MAX_ORDER - 1) := by decide
  have h11 : EASY_MEM_PAGE_SIZE <<< (EASY_MEM_MAX_ORDER - 1) = 65536 * 2 ^ 11 := by decide
  have has : zone_asize zone_bytes max_size =
      easy_min (EASY_MEM_PAGE_SIZE <<< (EASY_MEM_MAX_ORDER - 1)) (zone_size max_size) := by
    unfold zone_asize
    rw [hps, h27, h11, hpow, hPS]
    unfold easy_max easy_min
    generalize 2 ^ zone_order max_size = P at *
    split_ifs <;> omega
  refine ⟨hps, has, ?_⟩
  rw [has]
  unfold easy_min
  split_ifs with hlt
  · rw [hpow, h11] at hlt ⊢
    have hlt2 : 2 ^ 11 < 2 ^ zone_order max_size := by omega
    have hlt3 : 11 < zone_order max_size :=
      (Nat.pow_lt_pow_iff_right (by norm_num)).mp hlt2
    exact Nat.mul_dvd_mul_left _ (pow_dvd_pow 2 (by omega))
  · exact dvd_refl _

theorem demo_zone4_created :
    easy_mem_zone_create 336 262144 (some 0) (fun _ => 0) = some demo_zone4 := by
  rfl

theorem demo_zone8_created :
    easy_mem_zone_create 336 524288 (some 0) (fun _ => 0) = some demo_zone8 := by
  rfl

theorem demo_zone16_created :
    easy_mem_zone_create 336 1048576 (some 0) (fun _ => 0) = some demo_zone16 := by
  rfl

theorem dirty_zone16_created :
    easy_mem_zone_create 336 1048576 (some 0) (fun _ => 0x80) = some dirty_zone16 := by
  rfl

/-! ## The arena bounds under arbitrary calls -/

/-- An allocation leaves `mem_last` alone or, when the arena is not yet
fully committed, advances it by one block of order `max_order`. -/
theorem alloc_last (zone : easy_mem_zone_t) (order : Nat) :
    (easy_mem_alloc_pages zone order).1.mem_last = zone.mem_last ∨
    (zone.mem_last < zone.mem_end ∧
      (easy_mem_alloc_pages zone order).1.mem_last =
        zone.mem_last + 2 ^ zone.max_order * 65536) := by
  by_cases hle : order ≤ zone.max_order
  · have hgrow : zone.mem_last < zone.mem_end →
        easy_mem_alloc_pages zone order =
          (if zone.mem_last < zone.mem_end then easy_mem_rmqueue (easy_mem_grow zone) order
            else (zone, none)) →
        (easy_mem_alloc_pages zone order).1.mem_last = zone.mem_last ∨
        (zone.mem_last < zone.mem_end ∧
          (easy_mem_alloc_pages zone order).1.mem_last =
            zone.mem_last + 2 ^ zone.max_order * 65536) := by
      intro hlt e
      rw [if_pos hlt] at e
      obtain ⟨m, pg, rs, _, _, _, h⟩ := rmqueue_grow_some zone order hle
      right
      refine ⟨hlt, ?_⟩
      rw [e.trans h]
      obtain ⟨_, g2, _⟩ := rmqueue_take_frame (easy_mem_grow zone) order m pg rs
      exact g2.trans (grow_last zone)
    rcases rmqueue_cases zone order with ⟨n, page, rest, h1, h2, h3, h4, h5⟩ | ⟨hempty, hnone⟩
    · by_cases hfp : zone.free_pages ≥ ((1 <<< order : Nat) : Int)
      · left
        rw [alloc_of_rmqueue_some zone _ order page hle hfp h5]
        exact (rmqueue_take_frame zone order n page rest).2.1
      · have e := alloc_of_rmqueue_none zone order hle (fun h => absurd h hfp)
        by_cases hlt : zone.mem_last < zone.mem_end
        · exact hgrow hlt e
        · left; rw [e, if_neg hlt]
    · have e := alloc_of_rmqueue_none zone order hle (fun _ => hnone)
      by_cases hlt : zone.mem_last < zone.mem_end
      · exact hgrow hlt e
      · left; rw [e, if_neg hlt]
  · left; rw [alloc_too_big zone order (by omega)]

/-- A release, of whatever pointer, never moves `mem_last`. -/
theorem free_last (zone : easy_mem_zone_t) (p : Nat) :
    (easy_mem_free_pages zone p).mem_last = zone.mem_last := by
  unfold easy_mem_free_pages
  split
  · rfl
  · dsimp only
    split
    · rw [merge_buddy_eq]
      obtain ⟨_, f2, _⟩ := link_free_frame
        (easy_mem_merge_loop (zone.max_order - (zone.page_flags
            (easy_mem_page_to_index zone p) &&& 0x0f))
          { zone with free_pages := zone.free_pages +
              (1 <<< (zone.page_flags (easy_mem_page_to_index zone p) &&& 0x0f) : Nat) }
          (easy_mem_page_to_index zone p) p
          (zone.page_flags (easy_mem_page_to_index zone p) &&& 0x0f)).1
        (easy_mem_merge_loop (zone.max_order - (zone.page_flags
            (easy_mem_page_to_index zone p) &&& 0x0f))
          { zone with free_pages := zone.free_pages +
              (1 <<< (zone.page_flags (easy_mem_page_to_index zone p) &&& 0x0f) : Nat) }
          (easy_mem_page_to_index zone p) p
          (zone.page_flags (easy_mem_page_to_index zone p) &&& 0x0f)).2.2.1
        (easy_mem_merge_loop (zone.max_order - (zone.page_flags
            (easy_mem_page_to_index zone p) &&& 0x0f))
          { zone with free_pages := zone.free_pages +
              (1 <<< (zone.page_flags (easy_mem_page_to_index zone p) &&& 0x0f) : Nat) }
          (easy_mem_page_to_index zone p) p
          (zone.page_flags (easy_mem_page_to_index zone p) &&& 0x0f)).2.2.2
      obtain ⟨_, m2, _⟩ := merge_loop_frame
        (zone.max_order - (zone.page_flags (easy_mem_page_to_index zone p) &&& 0x0f))
        { zone with free_pages := zone.free_pages +
            (1 <<< (zone.page_flags (easy_mem_page_to_index zone p) &&& 0x0f) : Nat) }
        (easy_mem_page_to_index zone p) p
        (zone.page_flags (easy_mem_page_to_index zone p) &&& 0x0f)
      exact f2.trans m2
    · rfl

/-- The arena of a fresh zone starts on a page boundary. -/
theorem create_page_aligned {zone_bytes : Nat} {max_size : Int} {memptr : Nat}
    {flags : Nat → Nat} {zone0 : easy_mem_zone_t}
    (h0 : easy_mem_zone_create zone_bytes max_size (some memptr) flags = some zone0) :
    EASY_MEM_PAGE_SIZE ∣ zone0.mem_start := by
  obtain ⟨_, g2, _⟩ := create_geometry h0
  obtain ⟨a1, a2, _, a4, _⟩ := zone_asize_pages zone_bytes max_size
  have hpos : 0 < zone_asize zone_bytes max_size := by
    have : 0 < EASY_MEM_PAGE_SIZE := by decide
    omega
  rw [g2]
  exact dvd_trans a4 (easy_align_spec _ _ hpos).1

/-- The arena of a fresh zone is a whole number of top blocks. -/
theorem create_end_al {zone_bytes : Nat} {max_size : Int} {memptr : Nat}
    {flags : Nat → Nat} {zone0 : easy_mem_zone_t}
    (h0 : easy_mem_zone_create zone_bytes max_size (some memptr) flags = some zone0) :
    EASY_MEM_PAGE_SIZE * 2 ^ zone0.max_order ∣ zone0.mem_end - zone0.mem_start := by
  obtain ⟨_, f2, f3, _⟩ := create_fields h0
  have hpow := zone_size_loop_pow max_size 64 EASY_MEM_PAGE_SIZE 0 (by decide)
  generalize (zone_size_loop 64 max_size EASY_MEM_PAGE_SIZE 0).1 = size at *
  generalize (zone_size_loop 64 max_size EASY_MEM_PAGE_SIZE 0).2 = order at *
  have hM : zone0.max_order ≤ order := by
    rw [f3]; simp only [EASY_MEM_MAX_ORDER]; split <;> omega
  rw [f2, hpow, page_size_val]
  have : zone0.mem_start + 65536 * 2 ^ order - zone0.mem_start = 65536 * 2 ^ order := by
    omega
  rw [this]
  exact Nat.mul_dvd_mul_left _ (pow_dvd_pow 2 hM)

/-- Under allocations and releases of allocated pages the bounds stay
ordered, `mem_last` and `mem_end` stay whole numbers of top blocks away from
`mem_start`, and `mem_start` stays on a page boundary: a release never writes
the bounds, and an allocation moves `mem_last` only by one top block and only
while `mem_last < mem_end`. -/
theorem reach_geometry {zone_bytes : Nat} {max_size : Int} {memptr : Nat}
    {flags : Nat → Nat} {zone0 zone : easy_mem_zone_t} {al : List (Nat × Nat)}
    (h0 : easy_mem_zone_create zone_bytes max_size (some memptr) flags = some zone0)
    (hr : Reach zone0 zone al) :
    zone.mem_start ≤ zone.mem_last ∧ zone.mem_last ≤ zone.mem_end ∧
    EASY_MEM_PAGE_SIZE * 2 ^ zone.max_order ∣ zone.mem_last - zone.mem_start ∧
    EASY_MEM_PAGE_SIZE * 2 ^ zone.max_order ∣ zone.mem_end - zone.mem_start ∧
    EASY_MEM_PAGE_SIZE ∣ zone.mem_start := by
  have halloc : ∀ (z : easy_mem_zone_t) (order : Nat),
      (z.mem_start ≤ z.mem_last ∧ z.mem_last ≤ z.mem_end ∧
        EASY_MEM_PAGE_SIZE * 2 ^ z.max_order ∣ z.mem_last - z.mem_start ∧
        EASY_MEM_PAGE_SIZE * 2 ^ z.max_order ∣ z.mem_end - z.mem_start ∧
        EASY_MEM_PAGE_SIZE ∣ z.mem_start) →
      ((easy_mem_alloc_pages z order).1.mem_start ≤ (easy_mem_alloc_pages z order).1.mem_last ∧
        (easy_mem_alloc_pages z order).1.mem_last ≤ (easy_mem_alloc_pages z order).1.mem_end ∧
        EASY_MEM_PAGE_SIZE * 2 ^ (easy_mem_alloc_pages z order).1.max_order ∣
          (easy_mem_alloc_pages z order).1.mem_last -
            (easy_mem_alloc_pages z order).1.mem_start ∧
        EASY_MEM_PAGE_SIZE * 2 ^ (easy_mem_alloc_pages z order).1.max_order ∣
          (easy_mem_alloc_pages z order).1.mem_end -
            (easy_mem_alloc_pages z order).1.mem_start ∧
        EASY_MEM_PAGE_SIZE ∣ (easy_mem_alloc_pages z order).1.mem_start) := by
    intro z order ih
    obtain ⟨i1, i2, i3, i4, i5⟩ := ih
    obtain ⟨f1, f2, f3⟩ := alloc_frame z order
    rw [f1, f2, f3]
    rcases alloc_last z order with hl | ⟨hlt, hl⟩
    · rw [hl]; exact ⟨i1, i2, i3, i4, i5⟩
    · rw [hl]
      obtain ⟨b, hb⟩ := i3
      obtain ⟨a, ha⟩ := i4
      have hT : 2 ^ z.max_order * 65536 = EASY_MEM_PAGE_SIZE * 2 ^ z.max_order := by
        rw [page_size_val, Nat.mul_comm]
      rw [hT]
      generalize EASY_MEM_PAGE_SIZE * 2 ^ z.max_order = T at *
      have hba : b < a := by
        by_contra hc
        have : T * a ≤ T * b := Nat.mul_le_mul_left T (by omega)
        omega
      have hle : T * (b + 1) ≤ T * a := Nat.mul_le_mul_left T hba
      rw [Nat.mul_add, Nat.mul_one] at hle
      refine ⟨by omega, by omega, ?_, ⟨a, ha⟩, i5⟩
      refine ⟨b + 1, ?_⟩
      rw [Nat.mul_add, Nat.mul_one]
      omega
  induction hr with
  | init =>
    obtain ⟨f1, f2, _⟩ := create_fields h0
    refine ⟨by rw [f1], by rw [f1, f2]; omega, ?_, create_end_al h0, create_page_aligned h0⟩
    rw [f1, Nat.sub_self]
    exact Nat.dvd_zero _
  | alloc_page order p _ _ ih => exact halloc _ order ih
  | alloc_null order _ _ ih => exact halloc _ order ih
  | free_page p o _ _ ih =>
    rename_i z _ _ _
    obtain ⟨f1, f2, f3⟩ := free_frame z p
    rw [f1, f2, f3, free_last]
    exact ih

/-! ## The flag bytes and the untouched fields after a split -/

/-- The index of the page `n` pages above a page of the arena. -/
theorem page_ptr_index (zone : easy_mem_zone_t) (p n : Nat) (hp : zone.mem_start ≤ p) :
    easy_mem_page_to_index zone (p + n * 65536) = easy_mem_page_to_index zone p + n := by
  rw [page_to_index_eq, page_to_index_eq]
  have : p + n * 65536 - zone.mem_start = (p - zone.mem_start) + n * 65536 := by omega
  rw [this, Nat.add_mul_div_right _ _ (by norm_num)]

/-- `easy_mem_expand` writes neither `curr` nor `curr_end`. -/
theorem expand_loop_curr (p low : Nat) :
    ∀ (high size : Nat) (zone : easy_mem_zone_t),
      (easy_mem_expand_loop p low high size zone).curr = zone.curr ∧
      (easy_mem_expand_loop p low high size zone).curr_end = zone.curr_end := by
  intro high
  induction high with
  | zero => intro size zone; exact ⟨rfl, rfl⟩
  | succ h ih =>
    intro size zone
    by_cases hlt : low < h + 1
    · rw [expand_loop_succ _ _ _ _ _ hlt]
      obtain ⟨a, b⟩ := ih (size >>> 1)
        (easy_mem_set_page_free
          { zone with
            area := Function.update zone.area h
              { free_list := easy_mem_page_ptr p (size >>> 1) :: (zone.area h).free_list
                nr_free := (zone.area h).nr_free + 1 } }
          (easy_mem_page_ptr p (size >>> 1)) h)
      exact ⟨a, b⟩
    · rw [expand_loop_stop _ _ _ _ _ (by omega)]
      exact ⟨rfl, rfl⟩

/-- The flag bytes after `easy_mem_expand`: the first page of each block
pushed on `area[k]`, at index `i + 2^k`, carries `0x0f & k`; every other
byte is as before. -/
theorem expand_loop_flags (p low : Nat) :
    ∀ (high size : Nat) (zone : easy_mem_zone_t), size = 2 ^ high → zone.mem_start ≤ p →
      (∀ k, low ≤ k → k < high →
        (easy_mem_expand_loop p low high size zone).page_flags
          (easy_mem_page_to_index zone p + 2 ^ k) = 0x0f &&& k) ∧
      (∀ x, (∀ k, low ≤ k → k < high → x ≠ easy_mem_page_to_index zone p + 2 ^ k) →
        (easy_mem_expand_loop p low high size zone).page_flags x = zone.page_flags x) := by
  intro high
  induction high with
  | zero =>
    intro size zone _ _
    exact ⟨fun k _ hk => absurd hk (Nat.not_lt_zero k), fun x _ => rfl⟩
  | succ h ih =>
    intro size zone hsz hp
    by_cases hlt : low < h + 1
    · rw [expand_loop_succ _ _ _ _ _ hlt]
      have hs1 : size >>> 1 = 2 ^ h := by rw [hsz]; exact shiftRight_one_pow h
      rw [hs1, page_ptr_eq]
      let zone2 : easy_mem_zone_t :=
        easy_mem_set_page_free
          { zone with
            area := Function.update zone.area h
              { free_list := (p + 2 ^ h * 65536) :: (zone.area h).free_list
                nr_free := (zone.area h).nr_free + 1 } }
          (p + 2 ^ h * 65536) h
      have hms : zone2.mem_start = zone.mem_start := rfl
      have hidx : easy_mem_page_to_index zone2 = easy_mem_page_to_index zone :=
        page_to_index_congr zone zone2 hms
      have hflags : zone2.page_flags =
          Function.update zone.page_flags (easy_mem_page_to_index zone p + 2 ^ h)
            (0x0f &&& h) := by
        have e : easy_mem_page_to_index zone2 (p + 2 ^ h * 65536) =
            easy_mem_page_to_index zone p + 2 ^ h := by
          rw [hidx, page_ptr_index zone p (2 ^ h) hp]
        rw [← e]
        rfl
      obtain ⟨i1, i2⟩ := ih (2 ^ h) zone2 rfl (by rw [hms]; exact hp)
      rw [hidx] at i1 i2
      constructor
      · intro k hlo hk
        rcases Nat.lt_succ_iff_lt_or_eq.mp hk with hk | hk
        · exact i1 k hlo hk
        · subst hk
          rw [i2, hflags, Function.update_same]
          intro k2 _ hk2 heq
          have : 2 ^ k2 < 2 ^ k := Nat.pow_lt_pow_right (by norm_num) hk2
          omega
      · intro x hx
        rw [i2 x (fun k hlo hk => hx k hlo (by omega)), hflags,
          Function.update_noteq (hx h (by omega) (by omega))]
    · rw [expand_loop_stop _ _ _ _ _ (by omega)]
      exact ⟨fun k hlo hk => by omega, fun x _ => rfl⟩

/-- The flag bytes after the body of `easy_mem_rmqueue`: the returned page
carries `0x80 | order`, the first page of each block pushed on `area[k]`
carries `k`, every other byte is as before. -/
theorem rmqueue_take_flags (zone : easy_mem_zone_t) (order n page : Nat) (rest : List Nat)
    (hp : zone.mem_start ≤ page) (hle : order ≤ n) (hn : n < 12) :
    (easy_mem_rmqueue_take zone order n page rest).page_flags
        (easy_mem_page_to_index zone page) = 0x80 ||| order ∧
    (∀ k, order ≤ k → k < n →
      (easy_mem_rmqueue_take zone order n page rest).page_flags
        (easy_mem_page_to_index zone page + 2 ^ k) = k) ∧
    (∀ x, x ≠ easy_mem_page_to_index zone page →
      (∀ k, order ≤ k → k < n → x ≠ easy_mem_page_to_index zone page + 2 ^ k) →
      (easy_mem_rmqueue_take zone order n page rest).page_flags x = zone.page_flags x) := by
  rw [rmqueue_take_eq]
  let zone2 : easy_mem_zone_t :=
    { zone with
      area := Function.update zone.area n
        { free_list := rest, nr_free := (zone.area n).nr_free - 1 }
      free_pages := zone.free_pages - (1 <<< order : Nat) }
  have hms : zone2.mem_start = zone.mem_start := rfl
  obtain ⟨e1, e2⟩ := expand_loop_flags page order n (1 <<< n) zone2 (Nat.one_shiftLeft n)
    (by rw [hms]; exact hp)
  have hidx2 : easy_mem_page_to_index zone2 = easy_mem_page_to_index zone :=
    page_to_index_congr zone zone2 hms
  rw [hidx2] at e1 e2
  have hms3 : (easy_mem_expand_loop page order n (1 <<< n) zone2).mem_start = zone.mem_start :=
    (expand_loop_frame page order n (1 <<< n) zone2).1
  have hidx3 : easy_mem_page_to_index (easy_mem_expand_loop page order n (1 <<< n) zone2) =
      easy_mem_page_to_index zone := page_to_index_congr zone _ hms3
  have hfl := set_page_used_flags (easy_mem_expand_loop page order n (1 <<< n) zone2)
    page order (by omega)
  rw [hidx3] at hfl
  have hval : 0x80 ||| order = 128 + order := by
    have := flag_used_val order (by omega)
    have hlt : 0x80 ||| order < 256 := by
      have h1 : (0x80 : Nat) < 2 ^ 8 := by norm_num
      have h2 : order < 2 ^ 8 := by omega
      exact Nat.or_lt_two_pow h1 h2
    rw [Nat.mod_eq_of_lt hlt] at this
    exact this
  change (easy_mem_set_page_used (easy_mem_expand_loop page order n (1 <<< n) zone2)
      page order).page_flags (easy_mem_page_to_index zone page) = 0x80 ||| order ∧
    (∀ k, order ≤ k → k < n →
      (easy_mem_set_page_used (easy_mem_expand_loop page order n (1 <<< n) zone2)
        page order).page_flags (easy_mem_page_to_index zone page + 2 ^ k) = k) ∧
    (∀ x, x ≠ easy_mem_page_to_index zone page →
      (∀ k, order ≤ k → k < n → x ≠ easy_mem_page_to_index zone page + 2 ^ k) →
      (easy_mem_set_page_used (easy_mem_expand_loop page order n (1 <<< n) zone2)
        page order).page_flags x = zone.page_flags x)
  rw [hfl, hval]
  refine ⟨Function.update_same _ _ _, ?_, ?_⟩
  · intro k hlo hk
    have hne : easy_mem_page_to_index zone page + 2 ^ k ≠ easy_mem_page_to_index zone page := by
      have := Nat.two_pow_pos k
      omega
    rw [Function.update_noteq hne, e1 k hlo hk]
    exact flag_free_val k (by omega)
  · intro x hx hxk
    rw [Function.update_noteq hx, e2 x hxk]

/-- The body of `easy_mem_rmqueue` writes neither `curr` nor `curr_end`. -/
theorem rmqueue_take_curr (zone : easy_mem_zone_t) (order n page : Nat) (rest : List Nat) :
    (easy_mem_rmqueue_take zone order n page rest).curr = zone.curr ∧
    (easy_mem_rmqueue_take zone order n page rest).curr_end = zone.curr_end := by
  rw [rmqueue_take_eq]
  obtain ⟨a, b⟩ := expand_loop_curr page order n (1 <<< n)
    { zone with
      area := Function.update zone.area n
        { free_list := rest, nr_free := (zone.area n).nr_free - 1 }
      free_pages := zone.free_pages - (1 <<< order : Nat) }
  exact ⟨a, b⟩

/-! ## Repeated allocation and lazy growth -/

theorem alloc_repeat_zero (order : Nat) (zone : easy_mem_zone_t) :
    alloc_repeat order 0 zone = (zone, []) := rfl

theorem alloc_repeat_succ (order n : Nat) (zone : easy_mem_zone_t) :
    alloc_repeat order (n + 1) zone =
      ((alloc_repeat order n (easy_mem_alloc_pages zone order).1).1,
        (easy_mem_alloc_pages zone order).2 ::
          (alloc_repeat order n (easy_mem_alloc_pages zone order).1).2) := rfl

/-- Calls in sequence: `a + b` calls are `a` calls followed by `b` calls. -/
theorem alloc_repeat_add (order : Nat) :
    ∀ (a b : Nat) (zone : easy_mem_zone_t),
      alloc_repeat order (a + b) zone =
        ((alloc_repeat order b (alloc_repeat order a zone).1).1,
          (alloc_repeat order a zone).2 ++
            (alloc_repeat order b (alloc_repeat order a zone).1).2) := by
  intro a
  induction a with
  | zero => intro b zone; rw [Nat.zero_add]; rfl
  | succ a ih =>
    intro b zone
    rw [Nat.succ_add, alloc_repeat_succ, ih, alloc_repeat_succ]
    rfl

/-- The pages that `first_pages` lists cover exactly the indices below `j`. -/
theorem first_pages_cover (zone : easy_mem_zone_t) (j x : Nat) :
    coverList zone (first_pages zone.mem_start j) x = if x < j then 1 else 0 := by
  induction j with
  | zero => simp [first_pages, coverList_nil]
  | succ j ih =>
    rw [first_pages, coverList_cons, ih]
    simp only [page_size_val, index_of_page]
    unfold inb InBlock
    simp only [pow_zero]
    split_ifs <;> omega

/-- The buddy of the head of the lowest non-empty free list is the first
page of an allocated block. -/
theorem lowest_free_buddy_used {zone : easy_mem_zone_t} {al : List (Nat × Nat)}
    {n page : Nat} {rest : List Nat} (hinv : Inv zone al [])
    (hn : (zone.area n).free_list = page :: rest)
    (hlow : ∀ k, k < n → (zone.area k).free_list = []) (hnM : n < zone.max_order) :
    ∃ b ∈ al, b.2 ≤ n ∧
      easy_mem_page_to_index zone b.1 =
        easy_mem_find_buddy_index (easy_mem_page_to_index zone page) n := by
  have hpm : page ∈ (zone.area n).free_list := by rw [hn]; exact List.mem_cons_self _ _
  let zone1 : easy_mem_zone_t :=
    { zone with
      area := Function.update zone.area n
        { free_list := rest, nr_free := (zone.area n).nr_free - 1 } }
  have h1 : Inv zone1 al [(page, n)] := inv_pop hinv hn rfl rfl rfl rfl rfl rfl
  have hidx : easy_mem_page_to_index zone1 = easy_mem_page_to_index zone :=
    page_to_index_congr zone zone1 rfl
  rcases h1.buddy_is_start hnM with ⟨r, q, hr, hq, hqi⟩ | ⟨b, hb, hb2, hbi⟩
  · exfalso
    rw [hidx] at hqi
    have hq0 : q ∈ (zone.area r).free_list := by
      by_cases hrn : r = n
      · subst hrn
        have : (zone1.area r).free_list = rest := by
          show (Function.update zone.area r _ r).free_list = rest
          rw [Function.update_same]
        rw [this] at hq
        rw [hn]; exact List.mem_cons_of_mem _ hq
      · have : zone1.area r = zone.area r := by
          show Function.update zone.area n _ r = _
          rw [Function.update_noteq hrn]
        rw [this] at hq; exact hq
    have hrn : r = n := by
      by_contra hne
      have := hlow r (by omega)
      rw [this] at hq0
      exact absurd hq0 (List.not_mem_nil _)
    subst hrn
    obtain ⟨_, hblk, _⟩ := hinv.free_ok r q hq0
    have hqe : page_of_index zone
        (easy_mem_find_buddy_index (easy_mem_page_to_index zone page) r) = q := by
      rw [← hqi]; exact hblk.1
    exact hinv.merged r page hnM hpm (by rw [hqe]; exact hq0)
  · rw [hidx] at hbi
    exact ⟨b, hb, hb2, hbi⟩

/-- When the allocated blocks cover exactly the pages below `j` of a zone of
a single top block, the head of the lowest non-empty free list is page
`j`. -/
theorem lowest_free_is_next {zone : easy_mem_zone_t} {al : List (Nat × Nat)}
    {n page j : Nat} {rest : List Nat} (hinv : Inv zone al [])
    (hcov : ∀ x, coverList zone al x = if x < j then 1 else 0)
    (hn : (zone.area n).free_list = page :: rest)
    (hlow : ∀ k, k < n → (zone.area k).free_list = [])
    (hone : npages zone ≤ 2 ^ zone.max_order) :
    easy_mem_page_to_index zone page = j := by
  have hpm : page ∈ (zone.area n).free_list := by rw [hn]; exact List.mem_cons_self _ _
  obtain ⟨hnM, hblk, _⟩ := hinv.free_ok n page hpm
  obtain ⟨_, hal, hbound⟩ := hblk
  -- no free block starts below `j`
  have hge : ∀ r q, q ∈ (zone.area r).free_list → j ≤ easy_mem_page_to_index zone q := by
    intro r q hq
    by_contra hc
    have hc1 := hcov (easy_mem_page_to_index zone q)
    rw [if_pos (by omega)] at hc1
    obtain ⟨b, hb, hin⟩ := coverList_pos zone al (easy_mem_page_to_index zone q) (by omega)
    exact hinv.free_used_disjoint hq hb (inBlock_self _ _) hin
  have hij := hge n page hpm
  generalize hi : easy_mem_page_to_index zone page = i at hal hbound hij ⊢
  by_contra hne
  have hlt : j < i := by omega
  have hpos := Nat.two_pow_pos n
  -- page `j` starts a free block of order at least `n`
  have hjn : j % 2 ^ n = 0 := by
    rcases hinv.covered (show j < npages zone by omega) with
      ⟨r, q, hq, hin⟩ | ⟨b, hb, hin⟩ | ⟨b, hb, _⟩
    · have h1 := hge r q hq
      have h2 : easy_mem_page_to_index zone q = j := by
        unfold InBlock at hin; omega
      have hrn : n ≤ r := by
        by_contra hc
        have := hlow r (by omega)
        rw [this] at hq
        exact absurd hq (List.not_mem_nil _)
      have := (hinv.free_ok r q hq).2.1.2.1
      rw [h2] at this
      exact mod_pow_of_le j n r this hrn
    · have h1 := coverList_mem_le zone hb j
      rw [inb_of_inBlock hin, hcov j, if_neg (lt_irrefl j)] at h1
      omega
    · exact absurd hb (List.not_mem_nil _)
  have hnlt : n < zone.max_order := by
    by_contra hc
    have hnm : n = zone.max_order := by omega
    rw [hnm] at hbound
    have hp2 := Nat.two_pow_pos zone.max_order
    omega
  obtain ⟨b, hb, _, hbi⟩ := lowest_free_buddy_used hinv hn hlow hnlt
  rw [hi] at hbi
  have hbj : easy_mem_find_buddy_index i n < j := by
    have h1 := coverList_mem_le zone hb (easy_mem_find_buddy_index i n)
    have hin : InBlock (easy_mem_page_to_index zone b.1) b.2 (easy_mem_find_buddy_index i n) := by
      rw [hbi]; exact inBlock_self _ _
    rw [inb_of_inBlock hin, hcov] at h1
    by_contra hc
    rw [if_neg hc] at h1
    omega
  obtain ⟨_, hbm, hcase⟩ := buddy_pair i n hal
  obtain ⟨J, hJ⟩ := Nat.dvd_of_mod_eq_zero hjn
  obtain ⟨B, hB⟩ := Nat.dvd_of_mod_eq_zero hbm
  rcases hcase with ⟨_, hb2⟩ | ⟨hc1, hc2⟩
  · omega
  · rw [hB] at hbj hc2
    rw [hJ] at hbj hlt
    have hBJ : B + 1 ≤ J := by
      by_contra hc
      have : 2 ^ n * J ≤ 2 ^ n * B := Nat.mul_le_mul_left _ (by omega)
      omega
    have : 2 ^ n * (B + 1) ≤ 2 ^ n * J := Nat.mul_le_mul_left _ hBJ
    rw [Nat.mul_add, Nat.mul_one] at this
    omega

/-- One single-page allocation in a zone of a single top block whose
allocated blocks are the `j` first pages: it returns page `j`, and the
arena is fully committed afterwards. -/
theorem single_page_step {zone_bytes : Nat} {max_size : Int} {memptr : Nat}
    {flags : Nat → Nat} {zone0 zone : easy_mem_zone_t} {j : Nat}
    (h0 : easy_mem_zone_create zone_bytes max_size (some memptr) flags = some zone0)
    (hone : zone0.mem_end - zone0.mem_start = 2 ^ zone0.max_order * EASY_MEM_PAGE_SIZE)
    (hr : Reach zone0 zone (first_pages zone0.mem_start j))
    (hlast : zone.mem_last = if j = 0 then zone0.mem_start else zone0.mem_end)
    (hj : j < 2 ^ zone0.max_order) :
    (easy_mem_alloc_pages zone 0).2 = some (zone0.mem_start + j * EASY_MEM_PAGE_SIZE) ∧
    (easy_mem_alloc_pages zone 0).1.mem_last = zone0.mem_end := by
  obtain ⟨hinv, hfp⟩ := reach_inv h0 (one_block_small h0 hone) hr
  obtain ⟨fs, fe, fm⟩ := reach_frame hr
  have hP : EASY_MEM_PAGE_SIZE = 65536 := page_size_val
  rw [hP] at hone ⊢
  have hpos := Nat.two_pow_pos zone0.max_order
  have hcov : ∀ x, coverList zone (first_pages zone0.mem_start j) x = if x < j then 1 else 0 := by
    intro x; rw [← fs]; exact first_pages_cover zone j x
  have hnp : npages zone = if j = 0 then 0 else 2 ^ zone0.max_order := by
    unfold npages
    rw [hlast, fs, hP]
    split_ifs
    · simp
    · rw [hone]; exact Nat.mul_div_cancel _ (by norm_num)
  have hnple : npages zone ≤ 2 ^ zone.max_order := by
    rw [hnp, fm]; split_ifs <;> omega
  rcases alloc_cases zone 0 hinv.cnt hfp (Nat.zero_le _) with
    ⟨n, page, rest, _, _, hlow, hn, h⟩ | ⟨_, hlt, h⟩ | ⟨hempty, hnlt, _⟩
  · have hpm : page ∈ (zone.area n).free_list := by rw [hn]; exact List.mem_cons_self _ _
    obtain ⟨_, hblk, _⟩ := hinv.free_ok n page hpm
    have hidx := lowest_free_is_next hinv hcov hn (fun k hk => hlow k (Nat.zero_le _) hk) hnple
    have hpage : page = zone0.mem_start + j * 65536 := by
      rw [← hblk.1, hidx, page_of_index_eq, fs]
    have hj0 : j ≠ 0 := by
      intro hc
      have := hblk.2.2
      rw [hnp, if_pos hc] at this
      have := Nat.two_pow_pos n
      omega
    rw [h]
    refine ⟨by rw [hpage], ?_⟩
    show (easy_mem_rmqueue_take zone 0 n page rest).mem_last = _
    rw [(rmqueue_take_frame zone 0 n page rest).2.1, hlast, if_neg hj0]
  · have hj0 : j = 0 := by
      by_contra hc
      rw [hlast, if_neg hc, fe] at hlt
      omega
    rw [if_pos hj0] at hlast
    rw [h]
    refine ⟨by rw [hlast, hj0]; simp, ?_⟩
    show (easy_mem_rmqueue_take (easy_mem_grow zone) 0 zone.max_order zone.mem_last []).mem_last
      = _
    rw [(rmqueue_take_frame (easy_mem_grow zone) 0 zone.max_order zone.mem_last []).2.1,
      grow_last, hlast, fm]
    have := hinv.le_last
    have := hinv.last_le
    omega
  · exfalso
    have hj0 : j ≠ 0 := by
      intro hc
      rw [hlast, if_pos hc, fe] at hnlt
      omega
    rw [if_neg hj0] at hnp
    rcases hinv.covered (show j < npages zone by omega) with
      ⟨r, q, hq, _⟩ | ⟨b, hb, hin⟩ | ⟨b, hb, _⟩
    · have := hempty r (Nat.zero_le _) (hinv.free_ok r q hq).1
      rw [this] at hq
      exact absurd hq (List.not_mem_nil _)
    · have h1 := coverList_mem_le zone hb j
      rw [inb_of_inBlock hin, hcov j, if_neg (lt_irrefl j)] at h1
      omega
    · exact absurd hb (List.not_mem_nil _)

/-- Once all the pages of a zone of a single top block are allocated one by
one, a further allocation returns null and changes nothing. -/
theorem single_page_full {zone_bytes : Nat} {max_size : Int} {memptr : Nat}
    {flags : Nat → Nat} {zone0 zone : easy_mem_zone_t}
    (h0 : easy_mem_zone_create zone_bytes max_size (some memptr) flags = some zone0)
    (hone : zone0.mem_end - zone0.mem_start = 2 ^ zone0.max_order * EASY_MEM_PAGE_SIZE)
    (hr : Reach zone0 zone (first_pages zone0.mem_start (2 ^ zone0.max_order)))
    (hlast : zone.mem_last = zone0.mem_end) :
    easy_mem_alloc_pages zone 0 = (zone, none) := by
  obtain ⟨hinv, hfp⟩ := reach_inv h0 (one_block_small h0 hone) hr
  obtain ⟨fs, fe, fm⟩ := reach_frame hr
  have hP : EASY_MEM_PAGE_SIZE = 65536 := page_size_val
  rw [hP] at hone
  have hcov : ∀ x, coverList zone (first_pages zone0.mem_start (2 ^ zone0.max_order)) x =
      if x < 2 ^ zone0.max_order then 1 else 0 := by
    intro x; rw [← fs]; exact first_pages_cover zone _ x
  have hnp : npages zone = 2 ^ zone0.max_order := by
    unfold npages
    rw [hlast, fs, hP, hone]; exact Nat.mul_div_cancel _ (by norm_num)
  rcases alloc_cases zone 0 hinv.cnt hfp (Nat.zero_le _) with
    ⟨n, page, rest, _, _, hlow, hn, _⟩ | ⟨_, hlt, _⟩ | ⟨_, _, h⟩
  · exfalso
    have hpm : page ∈ (zone.area n).free_list := by rw [hn]; exact List.mem_cons_self _ _
    obtain ⟨_, hblk, _⟩ := hinv.free_ok n page hpm
    have hidx := lowest_free_is_next hinv hcov hn (fun k hk => hlow k (Nat.zero_le _) hk)
      (by rw [hnp, fm])
    have := hblk.2.2
    rw [hidx, hnp] at this
    have := Nat.two_pow_pos n
    omega
  · exfalso
    rw [hlast, fe] at hlt
    omega
  · exact h

/-- Successive single-page allocations in a zone of a single top block
whose allocated blocks are the `j` first pages: call `t` returns page
`j + t`. -/
theorem single_page_run {zone_bytes : Nat} {max_size : Int} {memptr : Nat}
    {flags : Nat → Nat} {zone0 : easy_mem_zone_t}
    (h0 : easy_mem_zone_create zone_bytes max_size (some memptr) flags = some zone0)
    (hone : zone0.mem_end - zone0.mem_start = 2 ^ zone0.max_order * EASY_MEM_PAGE_SIZE) :
    ∀ (c j : Nat) (zone : easy_mem_zone_t),
      Reach zone0 zone (first_pages zone0.mem_start j) →
      (zone.mem_last = if j = 0 then zone0.mem_start else zone0.mem_end) →
      j + c ≤ 2 ^ zone0.max_order →
      (alloc_repeat 0 c zone).2 =
        (List.range c).map
          (fun t => some (zone0.mem_start + (j + t) * EASY_MEM_PAGE_SIZE)) ∧
      Reach zone0 (alloc_repeat 0 c zone).1 (first_pages zone0.mem_start (j + c)) ∧
      ((alloc_repeat 0 c zone).1.mem_last =
        if j + c = 0 then zone0.mem_start else zone0.mem_end) := by
  intro c
  induction c with
  | zero =>
    intro j zone hr hlast _
    exact ⟨rfl, hr, hlast⟩
  | succ c ih =>
    intro j zone hr hlast hroom
    obtain ⟨s1, s2⟩ := single_page_step h0 hone hr hlast (by omega)
    have hr1 : Reach zone0 (easy_mem_alloc_pages zone 0).1
        (first_pages zone0.mem_start (j + 1)) := Reach.alloc_page 0 _ hr s1
    obtain ⟨r1, r2, r3⟩ := ih (j + 1) _ hr1 (by rw [s2, if_neg (Nat.succ_ne_zero j)])
      (by omega)
    rw [alloc_repeat_succ]
    have e : j + 1 + c = j + (c + 1) := by omega
    rw [e] at r2 r3
    refine ⟨?_, r2, r3⟩
    show (easy_mem_alloc_pages zone 0).2 ::
      (alloc_repeat 0 c (easy_mem_alloc_pages zone 0).1).2 = _
    rw [r1, s1, List.range_succ_eq_map, List.map_cons, List.map_map]
    refine congrArg₂ List.cons (by rw [Nat.add_zero]) (List.map_congr_left ?_)
    intro t _
    show some (zone0.mem_start + (j + 1 + t) * _) = some (zone0.mem_start + (j + (t + 1)) * _)
    rw [show j + 1 + t = j + (t + 1) by omega]

/-- In a fresh zone of a single top block, `2^max_order` single-page
allocations return the pages in index order, leave them all allocated, and
the next allocation returns null. -/
theorem single_pages_all {zone_bytes : Nat} {max_size : Int} {memptr : Nat}
    {flags : Nat → Nat} {zone0 : easy_mem_zone_t}
    (h0 : easy_mem_zone_create zone_bytes max_size (some memptr) flags = some zone0)
    (hone : zone0.mem_end - zone0.mem_start = 2 ^ zone0.max_order * EASY_MEM_PAGE_SIZE) :
    (alloc_repeat 0 (2 ^ zone0.max_order + 1) zone0).2 =
      (List.range (2 ^ zone0.max_order)).map
          (fun i => some (zone0.mem_start + i * EASY_MEM_PAGE_SIZE)) ++ [none] ∧
    Reach zone0 (alloc_repeat 0 (2 ^ zone0.max_order) zone0).1
      (first_pages zone0.mem_start (2 ^ zone0.max_order)) ∧
    (alloc_repeat 0 (2 ^ zone0.max_order) zone0).1.mem_last = zone0.mem_end := by
  obtain ⟨f1, _⟩ := create_fields h0
  have hpos := Nat.two_pow_pos zone0.max_order
  obtain ⟨r1, r2, r3⟩ := single_page_run h0 hone (2 ^ zone0.max_order) 0 zone0 Reach.init
    (by rw [if_pos rfl]; exact f1) (by omega)
  rw [Nat.zero_add] at r2 r3
  rw [if_neg (by omega)] at r3
  refine ⟨?_, r2, r3⟩
  rw [alloc_repeat_add]
  show (alloc_repeat 0 (2 ^ zone0.max_order) zone0).2 ++
    (alloc_repeat 0 1 (alloc_repeat 0 (2 ^ zone0.max_order) zone0).1).2 = _
  have hcall : (alloc_repeat 0 1 (alloc_repeat 0 (2 ^ zone0.max_order) zone0).1).2 = [none] := by
    rw [alloc_repeat_succ, single_page_full h0 hone r2 r3]
    rfl
  simp only [Nat.zero_add] at r1
  rw [r1, hcall]

/-! ## Full recombination -/

/-- With nothing allocated, every free list below `max_order` is empty:
the head of the lowest non-empty one would have a free buddy. -/
theorem all_free_low_empty {zone : easy_mem_zone_t} (hinv : Inv zone [] []) :
    ∀ r, r < zone.max_order → (zone.area r).free_list = [] := by
  intro r
  induction r using Nat.strong_induction_on with
  | _ r ih =>
    intro hr
    cases hl : (zone.area r).free_list with
    | nil => rfl
    | cons page rest =>
      obtain ⟨b, hb, _⟩ := lowest_free_buddy_used hinv hl (fun k hk => ih k hk (by omega)) hr
      exact absurd hb (List.not_mem_nil _)

theorem list_eq_singleton {l : List Nat} {a : Nat} (hnd : l.Nodup) (hall : ∀ q ∈ l, q = a)
    (hne : l ≠ []) : l = [a] := by
  cases l with
  | nil => exact absurd rfl hne
  | cons x t =>
    have hx : x = a := hall x (List.mem_cons_self _ _)
    cases t with
    | nil => rw [hx]
    | cons y t2 =>
      have hy : y = a := hall y (List.mem_cons_of_mem _ (List.mem_cons_self _ _))
      rw [List.nodup_cons] at hnd
      exact absurd (by rw [hx, hy]; exact List.mem_cons_self _ _) hnd.1

/-- With nothing allocated and exactly one top block committed, the free
lists hold a single block: the top block at `mem_start`. -/
theorem all_free_single_block {zone : easy_mem_zone_t} (hinv : Inv zone [] [])
    (hnp : npages zone = 2 ^ zone.max_order) :
    (zone.area zone.max_order).free_list = [zone.mem_start] ∧
    ∀ k, k ≠ zone.max_order → (zone.area k).free_list = [] := by
  have hlow := all_free_low_empty hinv
  have hpos := Nat.two_pow_pos zone.max_order
  have hhigh : ∀ k, zone.max_order < k → (zone.area k).free_list = [] := by
    intro k hk
    apply List.eq_nil_iff_forall_not_mem.2
    intro q hq
    have := (hinv.free_ok k q hq).1
    omega
  refine ⟨?_, ?_⟩
  · apply list_eq_singleton (hinv.free_nodup _)
    · intro q hq
      obtain ⟨_, hblk, _⟩ := hinv.free_ok _ q hq
      obtain ⟨h1, h2, h3⟩ := hblk
      rw [hnp] at h3
      have hz : easy_mem_page_to_index zone q = 0 := by omega
      rw [← h1, hz, page_of_index_eq]
      omega
    · intro hnil
      rcases hinv.covered (show 0 < npages zone by omega) with
        ⟨k, q, hq, _⟩ | ⟨b, hb, _⟩ | ⟨b, hb, _⟩
      · have hk := (hinv.free_ok k q hq).1
        rcases Nat.lt_or_eq_of_le hk with hk | hk
        · rw [hlow k hk] at hq; exact absurd hq (List.not_mem_nil _)
        · rw [hk, hnil] at hq; exact absurd hq (List.not_mem_nil _)
      · exact absurd hb (List.not_mem_nil _)
      · exact absurd hb (List.not_mem_nil _)
  · intro k hk
    rcases Nat.lt_or_gt_of_ne hk with h | h
    · exact hlow k h
    · exact hhigh k h

/-- The counters and the next allocation in the recombined state: one block
of order `max_order`, `2^max_order` free pages, and an allocation of order
`max_order` returns `mem_start`. -/
theorem all_free_state {zone : easy_mem_zone_t} (hinv : Inv zone [] [])
    (hfp : zone.free_pages = freeSum zone) (hnp : npages zone = 2 ^ zone.max_order) :
    (zone.area zone.max_order).nr_free = 1 ∧
    (∀ k, k ≠ zone.max_order → (zone.area k).nr_free = 0) ∧
    zone.free_pages = 2 ^ zone.max_order ∧
    (easy_mem_alloc_pages zone zone.max_order).2 = some zone.mem_start := by
  obtain ⟨htop, hrest⟩ := all_free_single_block hinv hnp
  have c1 : (zone.area zone.max_order).nr_free = 1 := by
    rw [hinv.cnt, htop]; rfl
  have c2 : ∀ k, k ≠ zone.max_order → (zone.area k).nr_free = 0 := by
    intro k hk
    rw [hinv.cnt, hrest k hk]; rfl
  refine ⟨c1, c2, ?_, ?_⟩
  · rw [hfp]
    unfold freeSum
    rw [Finset.sum_eq_single zone.max_order]
    · rw [c1]; ring
    · intro k _ hk
      rw [c2 k hk]; ring
    · intro hc
      exact absurd (Finset.mem_range.2 (Nat.lt_succ_self _)) hc
  · rcases alloc_cases zone zone.max_order hinv.cnt hfp (le_refl _) with
      ⟨n, page, rest, h1, h2, _, hn, h⟩ | ⟨hempty, _, _⟩ | ⟨hempty, _, _⟩
    · have hnm : n = zone.max_order := by omega
      rw [hnm, htop] at hn
      have hp : page = zone.mem_start := by
        have := (List.cons.inj hn).1
        exact this.symm
      rw [h, hp]
    · have := hempty zone.max_order (le_refl _) (le_refl _)
      rw [htop] at this
      exact absurd this (List.cons_ne_nil _ _)
    · have := hempty zone.max_order (le_refl _) (le_refl _)
      rw [htop] at this
      exact absurd this (List.cons_ne_nil _ _)

theorem free_each_nil (zone : easy_mem_zone_t) : free_each zone [] = zone := rfl

theorem free_each_cons (zone : easy_mem_zone_t) (p : Nat) (ps : List Nat) :
    free_each zone (p :: ps) = free_each (easy_mem_free_pages zone p) ps := rfl

theorem free_each_last (ps : List Nat) :
    ∀ zone : easy_mem_zone_t, (free_each zone ps).mem_last = zone.mem_last := by
  induction ps with
  | nil => intro zone; rfl
  | cons p ps ih =>
    intro zone
    rw [free_each_cons, ih, free_last]

/-- Releasing, in any order, single pages that are all allocated and make up
the whole list of allocated blocks leaves nothing allocated. -/
theorem free_each_reach {zone0 : easy_mem_zone_t} (ps : List Nat) :
    ∀ (zone : easy_mem_zone_t) (al : List (Nat × Nat)), Reach zone0 zone al →
      ps.Nodup → (∀ p ∈ ps, (p, 0) ∈ al) → ps.length = al.length →
      Reach zone0 (free_each zone ps) [] := by
  induction ps with
  | nil =>
    intro zone al hr _ _ hlen
    have : al = [] := List.length_eq_zero.1 hlen.symm
    rw [this] at hr
    exact hr
  | cons p ps ih =>
    intro zone al hr hnd hmem hlen
    rw [free_each_cons]
    rw [List.nodup_cons] at hnd
    have hp : (p, 0) ∈ al := hmem p (List.mem_cons_self _ _)
    apply ih _ (al.erase (p, 0)) (Reach.free_page p 0 hr hp) hnd.2
    · intro q hq
      have hne : (q, 0) ≠ (p, 0) := by
        intro hc
        have : q = p := (Prod.mk.inj hc).1
        rw [this] at hq
        exact hnd.1 hq
      exact (List.mem_erase_of_ne hne).2 (hmem q (List.mem_cons_of_mem _ hq))
    · rw [List.length_erase_of_mem hp]
      simp only [List.length_cons] at hlen
      omega

theorem first_pages_length (start j : Nat) : (first_pages start j).length = j := by
  induction j with
  | zero => rfl
  | succ j ih => rw [first_pages, List.length_cons, ih]

theorem first_pages_mem (start j i : Nat) (hi : i < j) :
    (start + i * EASY_MEM_PAGE_SIZE, 0) ∈ first_pages start j := by
  induction j with
  | zero => omega
  | succ j ih =>
    rw [first_pages]
    rcases Nat.lt_succ_iff_lt_or_eq.mp hi with h | h
    · exact List.mem_cons_of_mem _ (ih h)
    · rw [h]; exact List.mem_cons_self _ _

/-- Full recombination: in a fresh zone of a single top block, after all
the pages were allocated one by one and released in any order, the free
lists hold the single top block again. -/
theorem recombine_all {zone_bytes : Nat} {max_size : Int} {memptr : Nat}
    {flags : Nat → Nat} {zone0 : easy_mem_zone_t}
    (h0 : easy_mem_zone_create zone_bytes max_size (some memptr) flags = some zone0)
    (hone : zone0.mem_end - zone0.mem_start = 2 ^ zone0.max_order * EASY_MEM_PAGE_SIZE)
    (ps : List Nat)
    (hperm : ps.Perm ((List.range (2 ^ zone0.max_order)).map
      (fun i => zone0.mem_start + i * EASY_MEM_PAGE_SIZE))) :
    ((free_each (alloc_repeat 0 (2 ^ zone0.max_order) zone0).1 ps).area
      zone0.max_order).nr_free = 1 ∧
    (∀ k, k ≠ zone0.max_order →
      ((free_each (alloc_repeat 0 (2 ^ zone0.max_order) zone0).1 ps).area k).nr_free = 0) ∧
    (free_each (alloc_repeat 0 (2 ^ zone0.max_order) zone0).1 ps).free_pages =
      2 ^ zone0.max_order ∧
    (easy_mem_alloc_pages (free_each (alloc_repeat 0 (2 ^ zone0.max_order) zone0).1 ps)
      zone0.max_order).2 = some zone0.mem_start := by
  obtain ⟨_, hrA, hlastA⟩ := single_pages_all h0 hone
  have hP : EASY_MEM_PAGE_SIZE = 65536 := page_size_val
  have hnd : ps.Nodup := by
    apply hperm.nodup_iff.2
    apply List.Nodup.map _ (List.nodup_range _)
    intro a b hab
    simp only [hP] at hab
    omega
  have hmem : ∀ p ∈ ps, (p, 0) ∈ first_pages zone0.mem_start (2 ^ zone0.max_order) := by
    intro p hp
    obtain ⟨i, hi, rfl⟩ := List.mem_map.1 (hperm.mem_iff.1 hp)
    exact first_pages_mem _ _ i (List.mem_range.1 hi)
  have hlen : ps.length = (first_pages zone0.mem_start (2 ^ zone0.max_order)).length := by
    rw [hperm.length_eq, List.length_map, List.length_range, first_pages_length]
  have hrF := free_each_reach ps _ _ hrA hnd hmem hlen
  obtain ⟨hinv, hfp⟩ := reach_inv h0 (one_block_small h0 hone) hrF
  obtain ⟨fs, _, fm⟩ := reach_frame hrF
  have hinv0 := (create_inv h0 (one_block_small h0 hone)).1
  have hnp : npages (free_each (alloc_repeat 0 (2 ^ zone0.max_order) zone0).1 ps) =
      2 ^ (free_each (alloc_repeat 0 (2 ^ zone0.max_order) zone0).1 ps).max_order := by
    unfold npages
    rw [free_each_last, hlastA, fs, fm, hone]
    exact Nat.mul_div_cancel _ (by decide)
  have := all_free_state hinv hfp hnp
  rw [fm, fs] at this
  exact this

/-! ## Single calls in known states -/

/-- An allocation whose own free list is not empty takes the head of that
list, without splitting. -/
theorem alloc_own_list {zone : easy_mem_zone_t} {al : List (Nat × Nat)} {order page : Nat}
    {rest : List Nat} (hinv : Inv zone al []) (hfp : zone.free_pages = freeSum zone)
    (hle : order ≤ zone.max_order) (hl : (zone.area order).free_list = page :: rest) :
    easy_mem_alloc_pages zone order =
      (easy_mem_rmqueue_take zone order order page rest, some page) := by
  rcases alloc_cases zone order hinv.cnt hfp hle with
    ⟨n, pg, rs, h1, _, hlow, hn, h⟩ | ⟨hempty, _, _⟩ | ⟨hempty, _, _⟩
  · rcases Nat.eq_or_lt_of_le h1 with e | hlt
    · subst e
      rw [hl] at hn
      obtain ⟨e1, e2⟩ := List.cons.inj hn
      rw [h, e1, e2]
    · have := hlow order (le_refl _) hlt
      rw [hl] at this
      exact absurd this (List.cons_ne_nil _ _)
  · have := hempty order (le_refl _) hle
    rw [hl] at this
    exact absurd this (List.cons_ne_nil _ _)
  · have := hempty order (le_refl _) hle
    rw [hl] at this
    exact absurd this (List.cons_ne_nil _ _)

/-- With every free list empty and room left in the arena, an allocation is
served by lazy growth: it takes the new top block at `mem_last`. -/
theorem alloc_by_growth {zone : easy_mem_zone_t} {al : List (Nat × Nat)} {order : Nat}
    (hinv : Inv zone al []) (hfp : zone.free_pages = freeSum zone)
    (hle : order ≤ zone.max_order) (hempty : ∀ k, (zone.area k).free_list = [])
    (hlt : zone.mem_last < zone.mem_end) :
    easy_mem_alloc_pages zone order =
      (easy_mem_rmqueue_take (easy_mem_grow zone) order zone.max_order zone.mem_last [],
        some zone.mem_last) := by
  rcases alloc_cases zone order hinv.cnt hfp hle with
    ⟨n, pg, rs, _, _, _, hn, _⟩ | ⟨_, _, h⟩ | ⟨_, hnlt, _⟩
  · rw [hempty n] at hn
    exact absurd hn (List.noConfusion)
  · exact h
  · exact absurd hlt hnlt

/-- With the free lists from `order` up empty and the arena fully
committed, an allocation returns null and changes nothing. -/
theorem alloc_exhausted {zone : easy_mem_zone_t} {al : List (Nat × Nat)} {order : Nat}
    (hinv : Inv zone al []) (hfp : zone.free_pages = freeSum zone)
    (hle : order ≤ zone.max_order)
    (hempty : ∀ k, order ≤ k → (zone.area k).free_list = [])
    (hfull : ¬ zone.mem_last < zone.mem_end) :
    easy_mem_alloc_pages zone order = (zone, none) := by
  rcases alloc_cases zone order hinv.cnt hfp hle with
    ⟨n, pg, rs, h1, _, _, hn, _⟩ | ⟨_, hlt, _⟩ | ⟨_, _, h⟩
  · rw [hempty n h1] at hn
    exact absurd hn (List.noConfusion)
  · exact absurd hlt hfull
  · exact h

/-- A release of a pointer whose flag byte has the bit `0x80` clear changes
nothing. -/
theorem free_flag_clear (zone : easy_mem_zone_t) (ptr : Nat)
    (hflag : zone.page_flags (easy_mem_page_to_index zone ptr) &&& 0x80 = 0) :
    easy_mem_free_pages zone ptr = zone := by
  unfold easy_mem_free_pages
  by_cases hc : ptr < zone.mem_start ∨
      (ptr : Int) > (zone.mem_last : Int) - (EASY_MEM_PAGE_SIZE : Int)
  · rw [if_pos hc]
  · rw [if_neg hc]
    simp only [hflag, ne_eq, not_true_eq_false, if_false]

/-- A valid release whose buddy does not carry the flag byte of a free block
of the same order links the block on its own list, without coalescing. -/
theorem free_no_merge {zone : easy_mem_zone_t} {al : List (Nat × Nat)} {p o : Nat}
    (hinv : Inv zone al []) (hmem : (p, o) ∈ al)
    (hbuddy : o < zone.max_order →
      zone.page_flags (easy_mem_find_buddy_index (easy_mem_page_to_index zone p) o) ≠ o)
    (k : Nat) :
    (easy_mem_free_pages zone p).area k =
      if k = o then
        { free_list := p :: (zone.area o).free_list, nr_free := (zone.area o).nr_free + 1 }
      else zone.area k := by
  rw [free_eq_merge hinv hmem, merge_buddy_eq]
  have hstop := merge_loop_stop (zone.max_order - o)
    { zone with free_pages := zone.free_pages + (1 <<< o : Nat) }
    (easy_mem_page_to_index zone p) p o hbuddy
  rw [hstop]
  dsimp only
  rw [(link_free_frame _ p o).2.2.2.2.2.1]
  by_cases hk : k = o
  · subst hk
    rw [if_pos rfl, Function.update_same]
  · rw [if_neg hk, Function.update_noteq hk]

/-! ## A pointer in the middle of an allocated block (1 MiB zone) -/

/-- The 1 MiB zone: sixteen pages, `max_order = 4`, nothing committed. -/
theorem create_1m_fields {zone_bytes : Nat} {memptr : Nat} {flags : Nat → Nat}
    {zone0 : easy_mem_zone_t}
    (h0 : easy_mem_zone_create zone_bytes 1048576 (some memptr) flags = some zone0) :
    zone0.mem_last = zone0.mem_start ∧ zone0.mem_end = zone0.mem_start + 1048576 ∧
    zone0.max_order = 4 ∧ (∀ k, (zone0.area k).free_list = []) ∧
    zone0.page_flags = flags := by
  obtain ⟨f1, f2, f3, f4, _, f6, _⟩ := create_fields h0
  have hsz : zone_size_loop 64 1048576 EASY_MEM_PAGE_SIZE 0 = (1048576, 4) := by decide
  rw [hsz] at f2 f3
  exact ⟨f1, f2, f3, fun k => by rw [f4 k], f6⟩

/-- The first allocation of order 3 in the 1 MiB zone: lazy growth commits
the sixteen pages, the block at `mem_start` is returned and its upper half
is linked on `area[3]`; the flag byte of page 1 is not written. -/
theorem midblock_first {zone_bytes : Nat} {memptr : Nat} {flags : Nat → Nat}
    {zone0 : easy_mem_zone_t}
    (h0 : easy_mem_zone_create zone_bytes 1048576 (some memptr) flags = some zone0) :
    ∃ zone1, easy_mem_alloc_pages zone0 3 = (zone1, some zone0.mem_start) ∧
      zone1.mem_start = zone0.mem_start ∧ zone1.mem_last = zone0.mem_start + 1048576 ∧
      zone1.mem_end = zone0.mem_start + 1048576 ∧ zone1.max_order = 4 ∧
      (∀ k, (zone1.area k).free_list = if k = 3 then [zone0.mem_start + 524288] else []) ∧
      zone1.page_flags 1 = flags 1 ∧ Reach zone0 zone1 [(zone0.mem_start, 3)] := by
  obtain ⟨f1, f2, f3, f4, f6⟩ := create_1m_fields h0
  obtain ⟨hinv0, hfp0⟩ := create_inv h0 (create_small h0 (by norm_num))
  have hA := alloc_by_growth hinv0 hfp0 (show 3 ≤ zone0.max_order by rw [f3]; norm_num) f4
    (by rw [f1, f2]; omega)
  rw [f3, f1] at hA
  obtain ⟨g1, g2, g3, g4, _⟩ := rmqueue_take_frame (easy_mem_grow zone0) 3 4 zone0.mem_start []
  have hidx0 : easy_mem_page_to_index (easy_mem_grow zone0) zone0.mem_start = 0 := by
    rw [page_to_index_eq, grow_start]; simp
  obtain ⟨_, _, e3⟩ := rmqueue_take_flags (easy_mem_grow zone0) 3 4 zone0.mem_start []
    (by rw [grow_start]) (by norm_num) (by norm_num)
  rw [hidx0] at e3
  refine ⟨_, hA, g1.trans (grow_start zone0), ?_, ?_, ?_, ?_, ?_, ?_⟩
  · rw [g2, grow_last, f1, f3]; norm_num
  · rw [g3, grow_end, f2]
  · rw [g4, grow_max_order, f3]
  · intro k
    rw [rmqueue_take_area, grow_area, f3]
    by_cases hk : k = 3
    · subst hk
      simp [f4 3]
    · have c1 : ¬ (3 ≤ k ∧ k < 4) := by omega
      rw [if_neg c1, if_neg hk]
      by_cases hk4 : k = 4
      · rw [if_pos hk4]
      · rw [if_neg hk4, if_neg hk4]; exact f4 k
  · rw [e3 1 (by norm_num) (fun k hlo hk => by
      have : k = 3 := by omega
      subst this; norm_num), grow_flags, f6]
  · have hr := Reach.alloc_page 3 zone0.mem_start (Reach.init : Reach zone0 zone0 [])
      (by rw [hA])
    rw [hA] at hr
    exact hr

/-- The second allocation of order 3 in the 1 MiB zone takes the upper half
of the arena and leaves every free list empty. -/
theorem midblock_second {zone_bytes : Nat} {memptr : Nat} {flags : Nat → Nat}
    {zone0 zone1 : easy_mem_zone_t}
    (h0 : easy_mem_zone_create zone_bytes 1048576 (some memptr) flags = some zone0)
    (hs : zone1.mem_start = zone0.mem_start) (hl : zone1.mem_last = zone0.mem_start + 1048576)
    (he : zone1.mem_end = zone0.mem_start + 1048576) (hm : zone1.max_order = 4)
    (ha : ∀ k, (zone1.area k).free_list = if k = 3 then [zone0.mem_start + 524288] else [])
    (hr : Reach zone0 zone1 [(zone0.mem_start, 3)]) :
    ∃ zone2, easy_mem_alloc_pages zone1 3 = (zone2, some (zone0.mem_start + 524288)) ∧
      zone2.mem_start = zone0.mem_start ∧ zone2.mem_last = zone0.mem_start + 1048576 ∧
      zone2.mem_end = zone0.mem_start + 1048576 ∧ zone2.max_order = 4 ∧
      (∀ k, (zone2.area k).free_list = []) ∧
      zone2.page_flags 8 = 0x80 ||| 3 ∧
      Reach zone0 zone2 [(zone0.mem_start + 524288, 3), (zone0.mem_start, 3)] := by
  obtain ⟨hinv, hfp⟩ := reach_inv h0 (create_small h0 (by norm_num)) hr
  have hA := alloc_own_list hinv hfp (show 3 ≤ zone1.max_order by rw [hm]; norm_num)
    (show (zone1.area 3).free_list = (zone0.mem_start + 524288) :: [] by rw [ha 3, if_pos rfl])
  obtain ⟨g1, g2, g3, g4, _⟩ :=
    rmqueue_take_frame zone1 3 3 (zone0.mem_start + 524288) []
  have hidx8 : easy_mem_page_to_index zone1 (zone0.mem_start + 524288) = 8 := by
    rw [page_to_index_eq, hs]
    have : zone0.mem_start + 524288 - zone0.mem_start = 524288 := by omega
    rw [this]
  obtain ⟨e1, _, _⟩ := rmqueue_take_flags zone1 3 3 (zone0.mem_start + 524288) []
    (by rw [hs]; omega) (le_refl _) (by norm_num)
  rw [hidx8] at e1
  refine ⟨_, hA, g1.trans hs, g2.trans hl, g3.trans he, g4.trans hm, ?_, e1, ?_⟩
  · intro k
    rw [rmqueue_take_area]
    have c1 : ¬ (3 ≤ k ∧ k < 3) := by omega
    rw [if_neg c1]
    by_cases hk : k = 3
    · rw [if_pos hk]
    · rw [if_neg hk, ha k, if_neg hk]
  · have hr2 := Reach.alloc_page 3 (zone0.mem_start + 524288) hr (by rw [hA])
    rw [hA] at hr2
    exact hr2

/-- The mid-block scenario in the 1 MiB zone, when the flag byte of page 1
has the bit `0x80` clear: the release of `p + PAGE_SIZE` is ignored, the
next allocation of order 3 returns the other half of the arena, the one
after it returns null, and once `p` is released an allocation of order 3
returns `p` again. -/
theorem midblock_scenario {zone_bytes : Nat} {memptr : Nat} {flags : Nat → Nat}
    {zone0 : easy_mem_zone_t}
    (h0 : easy_mem_zone_create zone_bytes 1048576 (some memptr) flags = some zone0)
    (hflag : flags 1 &&& 0x80 = 0) :
    (easy_mem_alloc_pages zone0 3).2 = some zone0.mem_start ∧
    easy_mem_free_pages (easy_mem_alloc_pages zone0 3).1
        (zone0.mem_start + EASY_MEM_PAGE_SIZE) = (easy_mem_alloc_pages zone0 3).1 ∧
    (easy_mem_alloc_pages (easy_mem_alloc_pages zone0 3).1 3).2 =
      some (zone0.mem_start + 8 * EASY_MEM_PAGE_SIZE) ∧
    easy_mem_alloc_pages (easy_mem_alloc_pages (easy_mem_alloc_pages zone0 3).1 3).1 3 =
      ((easy_mem_alloc_pages (easy_mem_alloc_pages zone0 3).1 3).1, none) ∧
    (easy_mem_alloc_pages
      (easy_mem_free_pages (easy_mem_alloc_pages (easy_mem_alloc_pages zone0 3).1 3).1
        zone0.mem_start) 3).2 = some zone0.mem_start := by
  obtain ⟨zone1, hA1, s1, l1, e1, m1, a1, fl1, hr1⟩ := midblock_first h0
  obtain ⟨zone2, hA2, s2, l2, e2, m2, a2, fl2, hr2⟩ := midblock_second h0 s1 l1 e1 m1 a1 hr1
  rw [hA1]
  dsimp only
  rw [hA2]
  dsimp only
  rw [page_size_val]
  obtain ⟨hinv2, hfp2⟩ := reach_inv h0 (create_small h0 (by norm_num)) hr2
  refine ⟨rfl, ?_, rfl, ?_, ?_⟩
  · apply free_flag_clear
    have : easy_mem_page_to_index zone1 (zone0.mem_start + 65536) = 1 := by
      rw [page_to_index_eq, s1]
      have : zone0.mem_start + 65536 - zone0.mem_start = 65536 := by omega
      rw [this]
    rw [this, fl1]
    exact hflag
  · exact alloc_exhausted hinv2 hfp2 (by rw [m2]; norm_num) (fun k _ => a2 k)
      (by rw [l2, e2]; omega)
  · have hmem : (zone0.mem_start, 3) ∈
        [(zone0.mem_start + 524288, 3), (zone0.mem_start, 3)] :=
      List.mem_cons_of_mem _ (List.mem_cons_self _ _)
    have hidx0 : easy_mem_page_to_index zone2 zone0.mem_start = 0 := by
      rw [page_to_index_eq, s2]; simp
    have hb : easy_mem_find_buddy_index 0 3 = 8 := by decide
    have harea := free_no_merge hinv2 hmem (by
      intro _
      rw [hidx0, hb, fl2]
      decide) 3
    rw [if_pos rfl, a2 3] at harea
    have hr3 := Reach.free_page zone0.mem_start 3 hr2 hmem
    obtain ⟨hinv3, hfp3⟩ := reach_inv h0 (create_small h0 (by norm_num)) hr3
    obtain ⟨_, _, m3⟩ := reach_frame hr3
    obtain ⟨_, _, m0, _⟩ := create_1m_fields h0
    have hA3 := alloc_own_list hinv3 hfp3 (show 3 ≤ _ by rw [m3, m0]; norm_num)
      (show ((easy_mem_free_pages zone2 zone0.mem_start).area 3).free_list =
        zone0.mem_start :: [] by rw [harea])
    rw [hA3]

/-! ## The claims on construction, bounds and lazy growth -/

/-- C11, zone sizing.  For every `max_size` of at most `2^62` and every
address that the host allocation returns, `easy_mem_zone_create` yields a
zone with `mem_end - mem_start = PAGE_SIZE << order`, where `order` is the
smallest order with `PAGE_SIZE << order ≥ max_size`, and with
`max_order = min(order, MAX_ORDER - 1)`; the sizing loop stops on its own
condition, so its result is the same for every iteration bound from 64
on. -/
theorem zone_sizing (zone_bytes : Nat) (max_size : Int) (memptr : Nat) (flags : Nat → Nat)
    (hsize : max_size ≤ 2 ^ 62) :
    ∃ zone0, easy_mem_zone_create zone_bytes max_size (some memptr) flags = some zone0 ∧
      zone0.mem_end - zone0.mem_start = EASY_MEM_PAGE_SIZE <<< zone_order max_size ∧
      max_size ≤ ((EASY_MEM_PAGE_SIZE <<< zone_order max_size : Nat) : Int) ∧
      (∀ o, max_size ≤ ((EASY_MEM_PAGE_SIZE <<< o : Nat) : Int) → zone_order max_size ≤ o) ∧
      zone0.max_order = min (zone_order max_size) (EASY_MEM_MAX_ORDER - 1) ∧
      (∀ fuel, 64 ≤ fuel →
        zone_size_loop fuel max_size EASY_MEM_PAGE_SIZE 0 =
          zone_size_loop 64 max_size EASY_MEM_PAGE_SIZE 0) := by
  obtain ⟨s1, s2, s3, _⟩ := zone_size_spec max_size hsize
  cases hc : easy_mem_zone_create zone_bytes max_size (some memptr) flags with
  | none =>
    unfold easy_mem_zone_create at hc
    simp at hc
  | some zone0 =>
    obtain ⟨_, _, _, g4, g5, _⟩ := create_geometry hc
    refine ⟨zone0, rfl, ?_, ?_, s3, ?_, fun fuel hf => zone_size_fuel max_size hsize fuel hf⟩
    · rw [g4, ← s1]; omega
    · rw [← s1]; exact s2
    · rw [g5]
      simp only [EASY_MEM_MAX_ORDER]
      split_ifs with h
      · rw [Nat.min_eq_right (by omega)]
      · rw [Nat.min_eq_left (by omega)]

theorem zone_sizing_witness :
    (131072 : Int) ≤ 2 ^ 62 ∧
    ∃ zone0, easy_mem_zone_create 336 131072 (some 0) (fun _ => 0) = some zone0 ∧
      zone0.mem_end - zone0.mem_start = EASY_MEM_PAGE_SIZE <<< zone_order 131072 ∧
      (131072 : Int) ≤ ((EASY_MEM_PAGE_SIZE <<< zone_order 131072 : Nat) : Int) ∧
      (∀ o, (131072 : Int) ≤ ((EASY_MEM_PAGE_SIZE <<< o : Nat) : Int) →
        zone_order 131072 ≤ o) ∧
      zone0.max_order = min (zone_order 131072) (EASY_MEM_MAX_ORDER - 1) ∧
      (∀ fuel, 64 ≤ fuel →
        zone_size_loop fuel 131072 EASY_MEM_PAGE_SIZE 0 =
          zone_size_loop 64 131072 EASY_MEM_PAGE_SIZE 0) :=
  ⟨by norm_num, zone_sizing 336 131072 0 (fun _ => 0) (by norm_num)⟩

/-- C12, the claim as stated fails.  For a 64 KiB request, a header of 336
bytes and host memory at address 0 the code places the arena at 65536,
while `align_up(base + asize, top_block_bytes)` is 134217728. -/
theorem arena_placement_counterexample :
    (easy_mem_zone_create 336 65536 (some 0) (fun _ => 0)).map (fun z => z.mem_start) =
        some 65536 ∧
      spec_mem_start 336 65536 0 = 134217728 := by
  decide

/-- C12 as amended, arena placement.  Within the documented limit of 2 GiB
and for a zone structure of at most half a page, `mem_start` is the end of
the header pages, `base + header_pages_bytes`, rounded up to a multiple of
`asize = max(header_pages_bytes, min(top_block_bytes, size))`: it is the
least multiple of `asize` that is at least `curr_end`; `mem_last` is
`mem_start` and `mem_end` is `mem_start + size`. -/
theorem arena_placement {zone_bytes : Nat} {max_size : Int} {memptr : Nat}
    {flags : Nat → Nat} {zone0 : easy_mem_zone_t}
    (_hsize : max_size ≤ 2 ^ 31) (_hzb : zone_bytes ≤ 32768)
    (h0 : easy_mem_zone_create zone_bytes max_size (some memptr) flags = some zone0) :
    zone0.mem_start =
        easy_align (memptr + zone_page_size zone_bytes max_size)
          (zone_asize zone_bytes max_size) ∧
      zone_asize zone_bytes max_size =
        easy_max (zone_page_size zone_bytes max_size)
          (easy_min (EASY_MEM_PAGE_SIZE <<< (EASY_MEM_MAX_ORDER - 1)) (zone_size max_size)) ∧
      zone_asize zone_bytes max_size ∣ zone0.mem_start ∧
      memptr + zone_page_size zone_bytes max_size ≤ zone0.mem_start ∧
      zone0.mem_start <
        memptr + zone_page_size zone_bytes max_size + zone_asize zone_bytes max_size ∧
      zone0.mem_last = zone0.mem_start ∧
      zone0.mem_end = zone0.mem_start + zone_size max_size := by
  obtain ⟨g1, g2, g3, g4, _⟩ := create_geometry h0
  obtain ⟨a1, a2, _⟩ := zone_asize_pages zone_bytes max_size
  have hpos : 0 < zone_asize zone_bytes max_size := by
    have : 0 < EASY_MEM_PAGE_SIZE := by decide
    omega
  obtain ⟨e1, e2, e3⟩ := easy_align_spec (memptr + zone_page_size zone_bytes max_size)
    (zone_asize zone_bytes max_size) hpos
  rw [g1] at g2
  rw [← g2] at e1 e2 e3
  have h27 : (1 <<< (EASY_MEM_MAX_ORDER + EASY_MEM_PAGE_SHIFT - 1) : Nat) =
      EASY_MEM_PAGE_SIZE <<< (EASY_MEM_MAX_ORDER - 1) := by decide
  refine ⟨g2, ?_, e1, e2, e3, g3, g4⟩
  unfold zone_asize
  rw [h27]

theorem arena_placement_witness :
    demo_zone.mem_start = easy_align (0 + zone_page_size 336 131072) (zone_asize 336 131072) ∧
      zone_asize 336 131072 =
        easy_max (zone_page_size 336 131072)
          (easy_min (EASY_MEM_PAGE_SIZE <<< (EASY_MEM_MAX_ORDER - 1)) (zone_size 131072)) ∧
      zone_asize 336 131072 ∣ demo_zone.mem_start ∧
      0 + zone_page_size 336 131072 ≤ demo_zone.mem_start ∧
      demo_zone.mem_start < 0 + zone_page_size 336 131072 + zone_asize 336 131072 ∧
      demo_zone.mem_last = demo_zone.mem_start ∧
      demo_zone.mem_end = demo_zone.mem_start + zone_size 131072 :=
  arena_placement (by norm_num) (by norm_num) demo_zone_created

/-- C13, the code at the failing input.  Over host memory that holds the
byte `0x80`, the flag bytes of the fresh 1 MiB zone are `0x80`, not 0.
After `p = alloc(3)` the flag byte of page 1 is still `0x80`, so the release
of `p + PAGE_SIZE`, a page in the middle of the allocated block, is carried
out: `free_pages` rises from 8 to 9, the page is linked on `area[0]`, and the
next single-page allocation returns it. -/
theorem fresh_flags_not_cleared :
    easy_mem_zone_create 336 1048576 (some 0) (fun _ => 0x80) = some dirty_zone16 ∧
      dirty_zone16.page_flags 0 = 0x80 ∧ dirty_zone16.page_flags 1 = 0x80 ∧
      (easy_mem_alloc_pages dirty_zone16 3).2 = some 1048576 ∧
      (easy_mem_alloc_pages dirty_zone16 3).1.free_pages = 8 ∧
      (easy_mem_free_pages (easy_mem_alloc_pages dirty_zone16 3).1 1114112).free_pages = 9 ∧
      ((easy_mem_free_pages (easy_mem_alloc_pages dirty_zone16 3).1 1114112).area 0).free_list =
        [1114112] ∧
      (easy_mem_alloc_pages
        (easy_mem_free_pages (easy_mem_alloc_pages dirty_zone16 3).1 1114112) 0).2 =
        some 1114112 := by
  refine ⟨rfl, by decide, by decide, by decide, by decide, by decide, by decide, by decide⟩

/-- C16, allocation order by splitting.  In a fresh zone, created within
the documented limit of 2 GiB, whose arena is a single top block of
`2^max_order` pages, successive single-page allocations return the pages of
index `0, 1, ..., 2^max_order - 1` in this order, and the next allocation
returns null. -/
theorem alloc_order_by_splitting {zone_bytes : Nat} {max_size : Int} {memptr : Nat}
    {flags : Nat → Nat} {zone0 : easy_mem_zone_t}
    (_hsize : max_size ≤ 2 ^ 31)
    (h0 : easy_mem_zone_create zone_bytes max_size (some memptr) flags = some zone0)
    (hone : zone0.mem_end - zone0.mem_start = 2 ^ zone0.max_order * EASY_MEM_PAGE_SIZE) :
    (alloc_repeat 0 (2 ^ zone0.max_order + 1) zone0).2 =
      (List.range (2 ^ zone0.max_order)).map
          (fun i => some (zone0.mem_start + i * EASY_MEM_PAGE_SIZE)) ++ [none] :=
  (single_pages_all h0 hone).1

theorem alloc_order_by_splitting_witness :
    (alloc_repeat 0 5 demo_zone4).2 =
      [some 262144, some 327680, some 393216, some 458752, none] :=
  alloc_order_by_splitting (by norm_num) demo_zone4_created (by decide)

/-- C17, full recombination.  In a fresh zone, created within the
documented limit of 2 GiB, whose arena is a single top block of
`2^max_order` pages, after all the pages were allocated one by one and then
released in any order, `area[max_order].nr_free` is 1, every other counter
`nr_free` is 0, `free_pages` is `2^max_order`, and an allocation of order
`max_order` returns `mem_start`. -/
theorem full_recombination {zone_bytes : Nat} {max_size : Int} {memptr : Nat}
    {flags : Nat → Nat} {zone0 : easy_mem_zone_t}
    (_hsize : max_size ≤ 2 ^ 31)
    (h0 : easy_mem_zone_create zone_bytes max_size (some memptr) flags = some zone0)
    (hone : zone0.mem_end - zone0.mem_start = 2 ^ zone0.max_order * EASY_MEM_PAGE_SIZE)
    (ps : List Nat)
    (hperm : ps.Perm ((List.range (2 ^ zone0.max_order)).map
      (fun i => zone0.mem_start + i * EASY_MEM_PAGE_SIZE))) :
    ((free_each (alloc_repeat 0 (2 ^ zone0.max_order) zone0).1 ps).area
      zone0.max_order).nr_free = 1 ∧
    (∀ k, k ≠ zone0.max_order →
      ((free_each (alloc_repeat 0 (2 ^ zone0.max_order) zone0).1 ps).area k).nr_free = 0) ∧
    (free_each (alloc_repeat 0 (2 ^ zone0.max_order) zone0).1 ps).free_pages =
      2 ^ zone0.max_order ∧
    (easy_mem_alloc_pages (free_each (alloc_repeat 0 (2 ^ zone0.max_order) zone0).1 ps)
      zone0.max_order).2 = some zone0.mem_start :=
  recombine_all h0 hone ps hperm

theorem full_recombination_witness :
    (((free_each (alloc_repeat 0 4 demo_zone4).1 [327680, 262144, 458752, 393216]).area
        2).nr_free = 1 ∧
      (∀ k, k ≠ 2 →
        ((free_each (alloc_repeat 0 4 demo_zone4).1
          [327680, 262144, 458752, 393216]).area k).nr_free = 0) ∧
      (free_each (alloc_repeat 0 4 demo_zone4).1 [327680, 262144, 458752, 393216]).free_pages =
        2 ^ 2 ∧
      (easy_mem_alloc_pages
        (free_each (alloc_repeat 0 4 demo_zone4).1 [327680, 262144, 458752, 393216]) 2).2 =
        some 262144) ∧
    (((free_each (alloc_repeat 0 (2 ^ demo_zone8.max_order) demo_zone8).1
          [524288, 589824, 655360, 720896, 786432, 851968, 917504, 983040]).area
        demo_zone8.max_order).nr_free = 1 ∧
      (∀ k, k ≠ demo_zone8.max_order →
        ((free_each (alloc_repeat 0 (2 ^ demo_zone8.max_order) demo_zone8).1
          [524288, 589824, 655360, 720896, 786432, 851968, 917504, 983040]).area
            k).nr_free = 0) ∧
      (free_each (alloc_repeat 0 (2 ^ demo_zone8.max_order) demo_zone8).1
          [524288, 589824, 655360, 720896, 786432, 851968, 917504, 983040]).free_pages =
        2 ^ demo_zone8.max_order ∧
      (easy_mem_alloc_pages
        (free_each (alloc_repeat 0 (2 ^ demo_zone8.max_order) demo_zone8).1
          [524288, 589824, 655360, 720896, 786432, 851968, 917504, 983040])
        demo_zone8.max_order).2 = some demo_zone8.mem_start) :=
  ⟨full_recombination (by norm_num) demo_zone4_created (by decide)
      [327680, 262144, 458752, 393216] (by decide),
    full_recombination (by norm_num) demo_zone8_created (by decide)
      [524288, 589824, 655360, 720896, 786432, 851968, 917504, 983040] (by decide)⟩

/-- C18, the claim as stated fails.  In the 1 MiB zone over zero-filled host
memory at address 0, after `p = alloc(3)` and the release of
`p + PAGE_SIZE`, the next allocation of order 3 does not return null: the
zone has sixteen pages and the allocation returns the block at
`p + 8 * PAGE_SIZE`. -/
theorem midblock_free_counterexample :
    (easy_mem_zone_create 336 1048576 (some 0) (fun _ => 0)).map
        (fun z => (easy_mem_alloc_pages z 3).2) = some (some 1048576) ∧
      (easy_mem_zone_create 336 1048576 (some 0) (fun _ => 0)).map
        (fun z => (easy_mem_alloc_pages
          (easy_mem_free_pages (easy_mem_alloc_pages z 3).1
            (z.mem_start + EASY_MEM_PAGE_SIZE)) 3).2) = some (some 1572864) := by
  decide

/-- C18 as amended, a pointer into the middle of a block.  In a zone created
by `easy_mem_zone_create(1 MiB)`, which has sixteen pages, let
`p = alloc(3)`; when the flag byte of the page after `p` does not have the
bit `0x80` set in the host memory, as in zero-filled memory, the release of
`p + PAGE_SIZE` leaves the zone unchanged; the next allocation of order 3
returns the other half of the arena, `p + 8 * PAGE_SIZE`, the one after it
returns null and changes nothing, and once `p` is released an allocation of
order 3 returns `p` again. -/
theorem midblock_free_ignored {zone_bytes : Nat} {memptr : Nat} {flags : Nat → Nat}
    {zone0 : easy_mem_zone_t}
    (h0 : easy_mem_zone_create zone_bytes 1048576 (some memptr) flags = some zone0)
    (hflag : flags 1 &&& 0x80 = 0) :
    (easy_mem_alloc_pages zone0 3).2 = some zone0.mem_start ∧
    easy_mem_free_pages (easy_mem_alloc_pages zone0 3).1
        (zone0.mem_start + EASY_MEM_PAGE_SIZE) = (easy_mem_alloc_pages zone0 3).1 ∧
    (easy_mem_alloc_pages (easy_mem_alloc_pages zone0 3).1 3).2 =
      some (zone0.mem_start + 8 * EASY_MEM_PAGE_SIZE) ∧
    easy_mem_alloc_pages (easy_mem_alloc_pages (easy_mem_alloc_pages zone0 3).1 3).1 3 =
      ((easy_mem_alloc_pages (easy_mem_alloc_pages zone0 3).1 3).1, none) ∧
    (easy_mem_alloc_pages
      (easy_mem_free_pages (easy_mem_alloc_pages (easy_mem_alloc_pages zone0 3).1 3).1
        zone0.mem_start) 3).2 = some zone0.mem_start :=
  midblock_scenario h0 hflag

theorem midblock_free_ignored_witness :
    (easy_mem_alloc_pages demo_zone16 3).2 = some 1048576 ∧
    easy_mem_free_pages (easy_mem_alloc_pages demo_zone16 3).1 (1048576 + 65536) =
      (easy_mem_alloc_pages demo_zone16 3).1 ∧
    (easy_mem_alloc_pages (easy_mem_alloc_pages demo_zone16 3).1 3).2 =
      some (1048576 + 8 * 65536) ∧
    easy_mem_alloc_pages (easy_mem_alloc_pages (easy_mem_alloc_pages demo_zone16 3).1 3).1 3 =
      ((easy_mem_alloc_pages (easy_mem_alloc_pages demo_zone16 3).1 3).1, none) ∧
    (easy_mem_alloc_pages
      (easy_mem_free_pages (easy_mem_alloc_pages (easy_mem_alloc_pages demo_zone16 3).1 3).1
        1048576) 3).2 = some 1048576 :=
  midblock_free_ignored demo_zone16_created (by decide)

/-- C19, split postcondition of `easy_mem_rmqueue`.  In a zone whose
`max_order` indexes `area[]`, let `n` be the smallest order from `order` up
to `max_order` whose free list is not empty, `page` the head of that list,
a page of the arena, and `i` its index.  Then `easy_mem_rmqueue` returns
`page`, unlinks it from `area[n]` (list and counter), sets
`page_flags[i] = 0x80 | order`, lowers `free_pages` by `2^order`, and for
each `k` with `order ≤ k < n` pushes the block that starts at index
`i + 2^k` on the head of `area[k].free_list`, with `page_flags[i + 2^k] = k`
and `nr_free` raised by 1; the other lists, flag bytes and fields are
unchanged.  When every list from `order` up to `max_order` is empty it
returns null and changes nothing.  Of the free-list invariant only these
consequences are used: `max_order < MAX_ORDER` and the head lies at or above
`mem_start`. -/
theorem rmqueue_split_postcondition (zone : easy_mem_zone_t) (order : Nat)
    (hM : zone.max_order < EASY_MEM_MAX_ORDER) :
    (∀ n page rest, order ≤ n → n ≤ zone.max_order →
      (∀ k, order ≤ k → k < n → (zone.area k).free_list = []) →
      (zone.area n).free_list = page :: rest → zone.mem_start ≤ page →
      (easy_mem_rmqueue zone order).2 = some page ∧
      ((easy_mem_rmqueue zone order).1.area n).free_list = rest ∧
      ((easy_mem_rmqueue zone order).1.area n).nr_free = (zone.area n).nr_free - 1 ∧
      (easy_mem_rmqueue zone order).1.page_flags (easy_mem_page_to_index zone page) =
        0x80 ||| order ∧
      (easy_mem_rmqueue zone order).1.free_pages = zone.free_pages - 2 ^ order ∧
      (∀ k, order ≤ k → k < n →
        ((easy_mem_rmqueue zone order).1.area k).free_list =
          (page + 2 ^ k * EASY_MEM_PAGE_SIZE) :: (zone.area k).free_list ∧
        easy_mem_page_to_index zone (page + 2 ^ k * EASY_MEM_PAGE_SIZE) =
          easy_mem_page_to_index zone page + 2 ^ k ∧
        ((easy_mem_rmqueue zone order).1.area k).nr_free = (zone.area k).nr_free + 1 ∧
        (easy_mem_rmqueue zone order).1.page_flags
          (easy_mem_page_to_index zone page + 2 ^ k) = k) ∧
      (∀ k, k < order ∨ n < k → (easy_mem_rmqueue zone order).1.area k = zone.area k) ∧
      (∀ x, x ≠ easy_mem_page_to_index zone page →
        (∀ k, order ≤ k → k < n → x ≠ easy_mem_page_to_index zone page + 2 ^ k) →
        (easy_mem_rmqueue zone order).1.page_flags x = zone.page_flags x) ∧
      (easy_mem_rmqueue zone order).1.mem_start = zone.mem_start ∧
      (easy_mem_rmqueue zone order).1.mem_last = zone.mem_last ∧
      (easy_mem_rmqueue zone order).1.mem_end = zone.mem_end ∧
      (easy_mem_rmqueue zone order).1.max_order = zone.max_order ∧
      (easy_mem_rmqueue zone order).1.curr = zone.curr ∧
      (easy_mem_rmqueue zone order).1.curr_end = zone.curr_end) ∧
    ((∀ k, order ≤ k → k ≤ zone.max_order → (zone.area k).free_list = []) →
      easy_mem_rmqueue zone order = (zone, none)) := by
  constructor
  · intro n page rest hle hn hlow hl hpage
    have hfound : easy_mem_rmqueue zone order =
        (easy_mem_rmqueue_take zone order n page rest, some page) := by
      rcases rmqueue_cases zone order with ⟨m, pg, rs, h1, h2, h3, h4, h5⟩ | ⟨hempty, _⟩
      · have hmn : m = n := by
          rcases Nat.lt_trichotomy m n with h | h | h
          · have := hlow m h1 h
            rw [h4] at this
            exact absurd this (List.cons_ne_nil _ _)
          · exact h
          · have := h3 n hle h
            rw [hl] at this
            exact absurd this (List.cons_ne_nil _ _)
        subst hmn
        rw [hl] at h4
        obtain ⟨e1, e2⟩ := List.cons.inj h4
        rw [h5, e1, e2]
      · have := hempty n hle hn
        rw [hl] at this
        exact absurd this (List.cons_ne_nil _ _)
    rw [hfound]
    dsimp only
    have hn12 : n < 12 := by
      have : EASY_MEM_MAX_ORDER = 12 := rfl
      omega
    obtain ⟨g1, g2, g3, g4, g5⟩ := rmqueue_take_frame zone order n page rest
    obtain ⟨c1, c2⟩ := rmqueue_take_curr zone order n page rest
    obtain ⟨e1, e2, e3⟩ := rmqueue_take_flags zone order n page rest hpage hle hn12
    have harea := rmqueue_take_area zone order n page rest
    have hnn : ¬ (order ≤ n ∧ n < n) := by omega
    refine ⟨rfl, ?_, ?_, e1, g5, ?_, ?_, e3, g1, g2, g3, g4, c1, c2⟩
    · rw [harea n, if_neg hnn, if_pos rfl]
    · rw [harea n, if_neg hnn, if_pos rfl]
    · intro k hlo hk
      rw [harea k, if_pos ⟨hlo, hk⟩, page_size_val]
      exact ⟨rfl, page_ptr_index zone page (2 ^ k) hpage, rfl, e2 k hlo hk⟩
    · intro k hk
      have c1 : ¬ (order ≤ k ∧ k < n) := by omega
      have c2 : k ≠ n := by omega
      rw [harea k, if_neg c1, if_neg c2]
  · intro hempty
    rcases rmqueue_cases zone order with ⟨m, pg, rs, h1, h2, _, h4, _⟩ | ⟨_, h⟩
    · have := hempty m h1 h2
      rw [h4] at this
      exact absurd this (List.cons_ne_nil _ _)
    · exact h

theorem rmqueue_split_postcondition_witness :
    (easy_mem_rmqueue (easy_mem_grow demo_zone4) 0).2 = some 262144 ∧
      ((easy_mem_rmqueue (easy_mem_grow demo_zone4) 0).1.area 2).free_list = [] ∧
      ((easy_mem_rmqueue (easy_mem_grow demo_zone4) 0).1.area 2).nr_free =
        ((easy_mem_grow demo_zone4).area 2).nr_free - 1 ∧
      (easy_mem_rmqueue (easy_mem_grow demo_zone4) 0).1.page_flags
          (easy_mem_page_to_index (easy_mem_grow demo_zone4) 262144) = 0x80 ||| 0 ∧
      (easy_mem_rmqueue (easy_mem_grow demo_zone4) 0).1.free_pages =
        (easy_mem_grow demo_zone4).free_pages - 2 ^ 0 ∧
      (∀ k, 0 ≤ k → k < 2 →
        ((easy_mem_rmqueue (easy_mem_grow demo_zone4) 0).1.area k).free_list =
          (262144 + 2 ^ k * EASY_MEM_PAGE_SIZE) ::
            ((easy_mem_grow demo_zone4).area k).free_list ∧
        easy_mem_page_to_index (easy_mem_grow demo_zone4)
            (262144 + 2 ^ k * EASY_MEM_PAGE_SIZE) =
          easy_mem_page_to_index (easy_mem_grow demo_zone4) 262144 + 2 ^ k ∧
        ((easy_mem_rmqueue (easy_mem_grow demo_zone4) 0).1.area k).nr_free =
          ((easy_mem_grow demo_zone4).area k).nr_free + 1 ∧
        (easy_mem_rmqueue (easy_mem_grow demo_zone4) 0).1.page_flags
          (easy_mem_page_to_index (easy_mem_grow demo_zone4) 262144 + 2 ^ k) = k) ∧
      (∀ k, k < 0 ∨ 2 < k →
        (easy_mem_rmqueue (easy_mem_grow demo_zone4) 0).1.area k =
          (easy_mem_grow demo_zone4).area k) ∧
      (∀ x, x ≠ easy_mem_page_to_index (easy_mem_grow demo_zone4) 262144 →
        (∀ k, 0 ≤ k → k < 2 →
          x ≠ easy_mem_page_to_index (easy_mem_grow demo_zone4) 262144 + 2 ^ k) →
        (easy_mem_rmqueue (easy_mem_grow demo_zone4) 0).1.page_flags x =
          (easy_mem_grow demo_zone4).page_flags x) ∧
      (easy_mem_rmqueue (easy_mem_grow demo_zone4) 0).1.mem_start =
        (easy_mem_grow demo_zone4).mem_start ∧
      (easy_mem_rmqueue (easy_mem_grow demo_zone4) 0).1.mem_last =
        (easy_mem_grow demo_zone4).mem_last ∧
      (easy_mem_rmqueue (easy_mem_grow demo_zone4) 0).1.mem_end =
        (easy_mem_grow demo_zone4).mem_end ∧
      (easy_mem_rmqueue (easy_mem_grow demo_zone4) 0).1.max_order =
        (easy_mem_grow demo_zone4).max_order ∧
      (easy_mem_rmqueue (easy_mem_grow demo_zone4) 0).1.curr =
        (easy_mem_grow demo_zone4).curr ∧
      (easy_mem_rmqueue (easy_mem_grow demo_zone4) 0).1.curr_end =
        (easy_mem_grow demo_zone4).curr_end :=
  (rmqueue_split_postcondition (easy_mem_grow demo_zone4) 0 (by decide)).1 2 262144 []
    (by decide) (by decide)
    (by
      intro k _ h2
      rcases Nat.lt_succ_iff_lt_or_eq.mp h2 with h | h
      · have : k = 0 := by omega
        subst this; rfl
      · subst h; rfl)
    (by rfl) (by decide)

/-- C20, the arena stays inside the acquired memory.  For `max_size` of at
most 2 GiB, a zone structure of at most half a page and a page-aligned
address `base` returned by the host for the request of `asize + size` bytes:
`base + sizeof(zone) + size / PAGE_SIZE ≤ curr_end ≤ mem_start` and
`mem_end = mem_start + size ≤ base + asize + size`. -/
theorem arena_inside_acquired_memory {zone_bytes : Nat} {max_size : Int} {memptr : Nat}
    {flags : Nat → Nat} {zone0 : easy_mem_zone_t}
    (hsize : max_size ≤ 2 ^ 31) (hzb : zone_bytes ≤ 32768)
    (hbase : memptr % EASY_MEM_PAGE_SIZE = 0)
    (h0 : easy_mem_zone_create zone_bytes max_size (some memptr) flags = some zone0) :
    memptr + zone_bytes + zone_size max_size / EASY_MEM_PAGE_SIZE ≤ zone0.curr_end ∧
      zone0.curr_end ≤ zone0.mem_start ∧
      zone0.mem_end = zone0.mem_start + zone_size max_size ∧
      zone0.mem_end ≤ memptr + zone_asize zone_bytes max_size + zone_size max_size := by
  obtain ⟨g1, g2, _, g4, _⟩ := create_geometry h0
  obtain ⟨a1, a2, _, a4, _⟩ := zone_asize_pages zone_bytes max_size
  obtain ⟨s1, _, _⟩ := zone_asize_small hsize hzb
  have hP : EASY_MEM_PAGE_SIZE = 65536 := page_size_val
  have hpos : 0 < zone_asize zone_bytes max_size := by omega
  obtain ⟨e1, e2, e3⟩ := easy_align_spec zone0.curr_end (zone_asize zone_bytes max_size) hpos
  rw [← g2] at e1 e2 e3
  obtain ⟨p1, p2, _⟩ := easy_align_spec (zone_size max_size / EASY_MEM_PAGE_SIZE + zone_bytes)
    EASY_MEM_PAGE_SIZE (by omega)
  have hpage : zone_size max_size / EASY_MEM_PAGE_SIZE + zone_bytes ≤
      zone_page_size zone_bytes max_size := p2
  have hstart : zone0.mem_start ≤ memptr + zone_asize zone_bytes max_size := by
    obtain ⟨x, hx⟩ := dvd_trans a4 e1
    obtain ⟨y, hy⟩ := a4
    obtain ⟨b, hb⟩ := Nat.dvd_of_mod_eq_zero hbase
    rw [g1, s1] at e3
    rw [hP] at hx hy hb
    omega
  refine ⟨?_, e2, g4, ?_⟩
  · rw [g1]; omega
  · rw [g4]; omega

theorem arena_inside_acquired_memory_witness :
    0 + 336 + zone_size 131072 / EASY_MEM_PAGE_SIZE ≤ demo_zone.curr_end ∧
      demo_zone.curr_end ≤ demo_zone.mem_start ∧
      demo_zone.mem_end = demo_zone.mem_start + zone_size 131072 ∧
      demo_zone.mem_end ≤ 0 + zone_asize 336 131072 + zone_size 131072 :=
  arena_inside_acquired_memory (by norm_num) (by norm_num) (by decide) demo_zone_created

end EasyMem
